import Mathlib

/-!
# Command FIFO of `common/gdev_nvidia.h`

A shallow embedding of the inline FIFO functions of `gdev_nvidia.h`
(`__gdev_push_fifo`, `__gdev_update_get`, `__gdev_fire_ring`,
`__gdev_out_ring` and the four `__gdev_begin_ring_*` header functions) and
the properties of the ring protocol and of the header encoding they implement.

Conventions of the embedding.

* `uint32_t` and `uint64_t` values are natural numbers; every arithmetic
  operation of the source that can wrap is followed by `% 2 ^ 32` or
  `% 2 ^ 64`.  `int flags` is an `Int`, converted to `uint64_t` by `toU64`;
  the `int` arguments of the header functions are converted to their 32-bit
  patterns by `toU32`, on which `|` and `<<` are evaluated.
* `ib_map`, `pb_map` and `regs` are maps from a word index to a 32-bit word.
  `regs` holds what the CPU wrote; what the CPU reads from the (volatile)
  channel registers is given by a readback oracle `hw t r`: the value the
  hardware presents for register word `r` at the `t`-th register read.
* Three history fields are added to the context: `reads` counts the register
  reads made so far, `yields` the calls of `__gdev_relax_fifo`, and `pushed`
  lists the descriptors of the completed `__gdev_push_fifo` calls, oldest
  first.
* The two `while` loops are run for a bounded number of iterations; a call
  whose loop has not left by then ends as `Outcome.spinning` with the state it
  has reached, otherwise as `Outcome.done`.
-/

namespace Gdev

/-- Readback oracle of the channel registers: `hw t r` is the value presented
for register word `r` at the `t`-th register read. -/
abbrev Hw := Nat → Nat → Nat

/-- A word-indexed memory of 32-bit words. -/
abbrev Mem := Nat → Nat

/-- The memory `m` with word `i` set to `v`. -/
def Mem.store (m : Mem) (i v : Nat) : Mem := fun j => if j = i then v else m j

/-- An indirect-buffer descriptor as passed to `__gdev_push_fifo`. -/
structure Desc where
  base : Nat
  len : Nat
  flags : Int
deriving DecidableEq

/-- The `fifo` member of `struct gdev_ctx` (the driver-private pointers left
out), with the history fields `reads`, `yields` and `pushed`. -/
structure gdev_ctx where
  regs : Mem
  ib_map : Mem
  ib_order : Nat
  ib_base : Nat
  ib_mask : Nat
  ib_put : Nat
  ib_get : Nat
  pb_map : Mem
  pb_order : Nat
  pb_base : Nat
  pb_mask : Nat
  pb_size : Nat
  pb_pos : Nat
  pb_put : Nat
  pb_get : Nat
  reads : Nat
  yields : Nat
  pushed : List Desc

/-- Result of a call: it returned (`done`), or it is still in a wait loop
(`spinning`) after the allowed number of iterations. -/
inductive Outcome where
  | done (s : gdev_ctx)
  | spinning (s : gdev_ctx)

/-- The state an outcome carries. -/
def Outcome.state : Outcome → gdev_ctx
  | .done s => s
  | .spinning s => s

/-- Whether the call returned. -/
def Outcome.returned : Outcome → Bool
  | .done _ => true
  | .spinning _ => false

/-- Sequencing: continue with `f` when the first call returned. -/
def Outcome.andThen (o : Outcome) (f : gdev_ctx → Outcome) : Outcome :=
  match o with
  | .done s => f s
  | .spinning s => .spinning s

/-- The conversion `(uint64_t)flags` of an `int`. -/
def toU64 (i : Int) : Nat := (i % 2 ^ 64).toNat

/-- A volatile read `ctx->fifo.regs[r]`: the value and the context after it. -/
def readl (hw : Hw) (s : gdev_ctx) (r : Nat) : Nat × gdev_ctx :=
  (hw s.reads r % 2 ^ 32, { s with reads := s.reads + 1 })

/-- The function `__gdev_relax_fifo`: `SCHED_YIELD()`. -/
def __gdev_relax_fifo (s : gdev_ctx) : gdev_ctx :=
  { s with yields := s.yields + 1 }

/-- The descriptor word `w` of `__gdev_push_fifo`:
`base | (uint64_t)len << 40 | (uint64_t)flags << 40`. -/
def ib_word (base len : Nat) (flags : Int) : Nat :=
  base ||| (len <<< 40) % 2 ^ 64 ||| (toU64 flags <<< 40) % 2 ^ 64

/-- The loop condition of `__gdev_push_fifo`:
`((ib_put + 1) & ib_mask) == ib_get`. -/
def ib_full (s : gdev_ctx) : Bool :=
  ((s.ib_put + 1) % 2 ^ 32) &&& s.ib_mask == s.ib_get

/-- One iteration of the wait loop of `__gdev_push_fifo`. -/
def ib_wait_body (hw : Hw) (s : gdev_ctx) : gdev_ctx :=
  let old := s.ib_get
  let (v, s1) := readl hw s (0x88 / 4)
  let s2 := { s1 with ib_get := v }
  if old = s2.ib_get then __gdev_relax_fifo s2 else s2

/-- The wait loop of `__gdev_push_fifo`, for at most `fuel` iterations. -/
def ib_wait (hw : Hw) : Nat → gdev_ctx → Outcome
  | 0, s => if ib_full s then .spinning s else .done s
  | fuel + 1, s => if ib_full s then ib_wait hw fuel (ib_wait_body hw s) else .done s

/-- The part of `__gdev_push_fifo` after its wait loop. -/
def ib_write (s : gdev_ctx) (base len : Nat) (flags : Int) : gdev_ctx :=
  let w := ib_word base len flags
  let s1 := { s with ib_map := s.ib_map.store ((s.ib_put * 2) % 2 ^ 32) (w % 2 ^ 32) }
  let s2 := { s1 with
    ib_map := s1.ib_map.store ((s1.ib_put * 2 + 1) % 2 ^ 32) ((w >>> 32) % 2 ^ 32) }
  let s3 := { s2 with ib_put := (s2.ib_put + 1) % 2 ^ 32 }
  let s4 := { s3 with ib_put := s3.ib_put &&& s3.ib_mask }
  let s5 := { s4 with ib_map := s4.ib_map.store 0 (s4.ib_map 0) }
  { s5 with
    regs := s5.regs.store (0x8c / 4) s5.ib_put
    pushed := s5.pushed ++ [⟨base, len, flags⟩] }

/-- The function `__gdev_push_fifo`. -/
def __gdev_push_fifo (hw : Hw) (fuel : Nat) (s : gdev_ctx) (base len : Nat) (flags : Int) :
    Outcome :=
  (ib_wait hw fuel s).andThen fun s1 => .done (ib_write s1 base len flags)

/-- The function `__gdev_update_get`. -/
def __gdev_update_get (hw : Hw) (s : gdev_ctx) : gdev_ctx :=
  let (lo, s1) := readl hw s (0x58 / 4)
  let (hi, s2) := readl hw s1 (0x5c / 4)
  if hi &&& 0x80000000 ≠ 0 then
    let mg := ((hi <<< 32) % 2 ^ 64 ||| lo) &&& 0xffffffffff
    { s2 with pb_get := ((mg + (2 ^ 64 - s2.pb_base % 2 ^ 64)) % 2 ^ 64) % 2 ^ 32 }
  else
    { s2 with pb_get := 0 }

/-- The function `__gdev_fire_ring`. -/
def __gdev_fire_ring (hw : Hw) (fuel : Nat) (s : gdev_ctx) : Outcome :=
  if s.pb_pos ≠ s.pb_put then
    (if s.pb_pos > s.pb_put then
      let base := (s.pb_base + s.pb_put) % 2 ^ 64
      let len := (s.pb_pos + (2 ^ 32 - s.pb_put % 2 ^ 32)) % 2 ^ 32
      __gdev_push_fifo hw fuel s base len 0
    else
      let base := (s.pb_base + s.pb_put) % 2 ^ 64
      let len := (s.pb_size + (2 ^ 32 - s.pb_put % 2 ^ 32)) % 2 ^ 32
      (__gdev_push_fifo hw fuel s base len 0).andThen fun s1 =>
        if s1.pb_pos ≠ 0 then __gdev_push_fifo hw fuel s1 s1.pb_base s1.pb_pos 0
        else .done s1).andThen fun s2 => .done { s2 with pb_put := s2.pb_pos }
  else .done s

/-- The loop condition of `__gdev_out_ring`:
`((pb_pos + 4) & pb_mask) == pb_get`. -/
def pb_full (s : gdev_ctx) : Bool :=
  ((s.pb_pos + 4) % 2 ^ 32) &&& s.pb_mask == s.pb_get

/-- One iteration of the wait loop of `__gdev_out_ring`; the calls of
`__gdev_push_fifo` inside `__gdev_fire_ring` get `fuel` iterations each. -/
def pb_wait_body (hw : Hw) (fuel : Nat) (s : gdev_ctx) : Outcome :=
  let old := s.pb_get
  (__gdev_fire_ring hw fuel s).andThen fun s1 =>
    let s2 := __gdev_update_get hw s1
    .done (if old = s2.pb_get then __gdev_relax_fifo s2 else s2)

/-- The wait loop of `__gdev_out_ring`, for at most `n` iterations. -/
def pb_wait (hw : Hw) (fuel : Nat) : Nat → gdev_ctx → Outcome
  | 0, s => if pb_full s then .spinning s else .done s
  | n + 1, s =>
    if pb_full s then (pb_wait_body hw fuel s).andThen (pb_wait hw fuel n) else .done s

/-- The part of `__gdev_out_ring` after its wait loop. -/
def pb_write (s : gdev_ctx) (word : Nat) : gdev_ctx :=
  let s1 := { s with pb_map := s.pb_map.store (s.pb_pos / 4) (word % 2 ^ 32) }
  let s2 := { s1 with pb_pos := (s1.pb_pos + 4) % 2 ^ 32 }
  { s2 with pb_pos := s2.pb_pos &&& s2.pb_mask }

/-- The function `__gdev_out_ring`. -/
def __gdev_out_ring (hw : Hw) (fuel : Nat) (s : gdev_ctx) (word : Nat) : Outcome :=
  (pb_wait hw fuel fuel s).andThen fun s1 => .done (pb_write s1 word)

/-- The conversion of an `int` to `uint32_t`: its 32-bit two's complement
pattern. -/
def toU32 (i : Int) : Nat := (i % 2 ^ 32).toNat

/-- The function `__gdev_begin_ring_nv50`.  The `int` expression
`mthd | (subc<<13) | (len<<18)` is evaluated on 32-bit patterns. -/
def __gdev_begin_ring_nv50 (hw : Hw) (fuel : Nat) (s : gdev_ctx) (subc mthd len : Int) :
    Outcome :=
  __gdev_out_ring hw fuel s
    (toU32 mthd ||| (toU32 subc <<< 13) % 2 ^ 32 ||| (toU32 len <<< 18) % 2 ^ 32)

/-- The function `__gdev_begin_ring_nv50_const`. -/
def __gdev_begin_ring_nv50_const (hw : Hw) (fuel : Nat) (s : gdev_ctx) (subc mthd len : Int) :
    Outcome :=
  __gdev_out_ring hw fuel s
    (toU32 mthd ||| (toU32 subc <<< 13) % 2 ^ 32 ||| (toU32 len <<< 18) % 2 ^ 32
      ||| (0x4 <<< 28))

/-- The function `__gdev_begin_ring_nvc0`; `mthd>>2` is the arithmetic shift
of the `int`. -/
def __gdev_begin_ring_nvc0 (hw : Hw) (fuel : Nat) (s : gdev_ctx) (subc mthd len : Int) :
    Outcome :=
  __gdev_out_ring hw fuel s
    ((0x2 <<< 28) ||| (toU32 len <<< 16) % 2 ^ 32 ||| (toU32 subc <<< 13) % 2 ^ 32
      ||| toU32 (mthd >>> 2))

/-- The function `__gdev_begin_ring_nvc0_const`. -/
def __gdev_begin_ring_nvc0_const (hw : Hw) (fuel : Nat) (s : gdev_ctx) (subc mthd len : Int) :
    Outcome :=
  __gdev_out_ring hw fuel s
    ((0x6 <<< 28) ||| (toU32 len <<< 16) % 2 ^ 32 ||| (toU32 subc <<< 13) % 2 ^ 32
      ||| toU32 (mthd >>> 2))

/-! ## Descriptors and call sequences -/

/-- The low word of a descriptor: the low 32 bits of
`base | len * 2^40 | flags * 2^40 (mod 2^64)`. -/
def Desc.lo (d : Desc) : Nat :=
  ((d.base ||| d.len * 2 ^ 40 ||| toU64 d.flags * 2 ^ 40) % 2 ^ 64) % 2 ^ 32

/-- The high word of a descriptor: the high 32 bits of
`base | len * 2^40 | flags * 2^40 (mod 2^64)`. -/
def Desc.hi (d : Desc) : Nat :=
  ((d.base ||| d.len * 2 ^ 40 ||| toU64 d.flags * 2 ^ 40) % 2 ^ 64) / 2 ^ 32

/-- The calls `__gdev_push_fifo(ctx, d.base, d.len, d.flags)` for the
descriptors of a list, in order. -/
def push_all (hw : Hw) (fuel : Nat) : gdev_ctx → List Desc → Outcome
  | s, [] => .done s
  | s, d :: ds =>
    (__gdev_push_fifo hw fuel s d.base d.len d.flags).andThen fun s1 => push_all hw fuel s1 ds

/-- The descriptors `__gdev_fire_ring` passes to `__gdev_push_fifo`, in call
order, with the arithmetic of the source. -/
def fire_list (s : gdev_ctx) : List Desc :=
  if s.pb_pos ≠ s.pb_put then
    if s.pb_pos > s.pb_put then
      [⟨(s.pb_base + s.pb_put) % 2 ^ 64, (s.pb_pos + (2 ^ 32 - s.pb_put % 2 ^ 32)) % 2 ^ 32, 0⟩]
    else
      ⟨(s.pb_base + s.pb_put) % 2 ^ 64, (s.pb_size + (2 ^ 32 - s.pb_put % 2 ^ 32)) % 2 ^ 32, 0⟩
        :: (if s.pb_pos ≠ 0 then [⟨s.pb_base, s.pb_pos, 0⟩] else [])
  else []

/-- Number of free slots of the indirect buffer, one slot being kept unused:
`(ib_get - ib_put - 1) mod (ib_mask + 1)`. -/
def ib_free (s : gdev_ctx) : Nat :=
  (s.ib_get + s.ib_mask - s.ib_put) % (s.ib_mask + 1)

/-- The indirect buffer is a ring of `2 ^ a` slots whose word indices fit in
32 bits, with `ib_put` and `ib_get` in range. -/
def ib_ring (a : Nat) (s : gdev_ctx) : Prop :=
  a ≤ 31 ∧ s.ib_mask + 1 = 2 ^ a ∧ s.ib_put ≤ s.ib_mask ∧ s.ib_get ≤ s.ib_mask

instance (a : Nat) (s : gdev_ctx) : Decidable (ib_ring a s) := by
  unfold ib_ring
  infer_instance

/-- The calls `__gdev_out_ring(ctx, w)` for the words of a list, in order. -/
def out_all (hw : Hw) (fuel : Nat) : gdev_ctx → List Nat → Outcome
  | s, [] => .done s
  | s, w :: ws => (__gdev_out_ring hw fuel s w).andThen fun s1 => out_all hw fuel s1 ws

/-- What a consumer reads for a descriptor: the words of `pb_map` over the
byte span `(base - pb_base, len)`, the offset computed in 64 bits. -/
def Desc.words (pb_base : Nat) (pb_map : Mem) (d : Desc) : List Nat :=
  (List.range (d.len / 4)).map fun i =>
    pb_map (((d.base + (2 ^ 64 - pb_base % 2 ^ 64)) % 2 ^ 64) / 4 + i)

/-! ## Frames -/

/-- What the wait loop of `__gdev_push_fifo` may change: the cached `ib_get`
and the counters of reads and yields. -/
def ib_wait_frame (s s1 : gdev_ctx) : Prop :=
  s1 = { s with ib_get := s1.ib_get, reads := s1.reads, yields := s1.yields }

/-- What a call of `__gdev_push_fifo` may change. -/
def push_frame (s s' : gdev_ctx) (ds : List Desc) : Prop :=
  s' = { s with
    ib_map := s'.ib_map
    ib_put := s'.ib_put
    ib_get := s'.ib_get
    regs := s'.regs
    reads := s'.reads
    yields := s'.yields
    pushed := s.pushed ++ ds }

/-- What the wait loop of `__gdev_out_ring` may change once nothing is
pending: the cached `pb_get` and the counters of reads and yields. -/
def get_frame (s s' : gdev_ctx) : Prop :=
  s' = { s with pb_get := s'.pb_get, reads := s'.reads, yields := s'.yields } ∧
    s.reads ≤ s'.reads

/-- The word found in the push buffer at the position `pb_pos` the context `s`
had when a call with outcome `o` was made on it. -/
def emitted (o : Outcome) (s : gdev_ctx) : Nat := o.state.pb_map (s.pb_pos / 4)

/-- An iteration of the wait loop of `__gdev_out_ring` when nothing is
pending (`__gdev_fire_ring` has nothing to push): the refresh of `pb_get` and
the yield when it did not change. -/
def pb_refresh (hw : Hw) (s : gdev_ctx) : gdev_ctx :=
  if s.pb_get = (__gdev_update_get hw s).pb_get
  then __gdev_relax_fifo (__gdev_update_get hw s) else __gdev_update_get hw s

/-- What a consumer decodes from the two words of a ring slot: the 40-bit
base address, the length (`(hi >> 8) & ~3`) and the flags (`(hi >> 8) & 3`). -/
def Desc.decode (lo hi : Nat) : Desc :=
  ⟨lo + (hi &&& 0xff) * 2 ^ 32, (hi >>> 8) &&& 0xfffffffc, (((hi >>> 8) &&& 3 : Nat) : Int)⟩

/-- The value `__gdev_update_get` decodes from the get pair read back at
reads `t` and `t + 1`: 0 when bit 31 of the high word is clear, else
`(((hi * 2^32 + lo) & 0xffffffffff) - pb_base) mod 2^32`. -/
def pb_get_readback (hw : Hw) (t pb_base : Nat) : Nat :=
  if (hw (t + 1) (0x5c / 4) % 2 ^ 32).testBit 31 then
    ((((hw (t + 1) (0x5c / 4) % 2 ^ 32) * 2 ^ 32 + hw t (0x58 / 4) % 2 ^ 32) &&& 0xffffffffff)
      + (2 ^ 64 - pb_base % 2 ^ 64)) % 2 ^ 64 % 2 ^ 32
  else 0

/-- A simulated consumer of the indirect buffer: it decodes the `n` ring slots
from slot `get` on and reads `pb_map` over the span of each descriptor, in
ring order. -/
def consume (s : gdev_ctx) (get n : Nat) : List Nat :=
  ((List.range n).map fun i =>
    Desc.words s.pb_base s.pb_map
      (Desc.decode (s.ib_map (2 * ((get + i) &&& s.ib_mask)))
        (s.ib_map (2 * ((get + i) &&& s.ib_mask) + 1)))).flatten

/-! ## Invariants -/

/-- A property of contexts kept by every elementary step of the FIFO
functions: an iteration of the wait loop of `__gdev_push_fifo`, its write
part, `__gdev_update_get`, `__gdev_relax_fifo`, the write part of
`__gdev_out_ring` and the assignment `pb_put = pb_pos`. -/
def step_invariant (hw : Hw) (P : gdev_ctx → Prop) : Prop :=
  (∀ s, P s → P (ib_wait_body hw s)) ∧
  (∀ s base len flags, P s → P (ib_write s base len flags)) ∧
  (∀ s, P s → P (__gdev_update_get hw s)) ∧
  (∀ s, P s → P (__gdev_relax_fifo s)) ∧
  (∀ s word, P s → P (pb_write s word)) ∧
  (∀ s : gdev_ctx, P s → P { s with pb_put := s.pb_pos })

/-- The producer indices are in range: `ib_mask = 2^a - 1`,
`pb_mask = 2^b - 1` with `b >= 2`, `ib_put <= ib_mask`, `pb_pos <= pb_mask`,
`pb_put <= pb_mask`, and `pb_pos`, `pb_put` are multiples of 4. -/
def producer_ok (a b : Nat) (s : gdev_ctx) : Prop :=
  s.ib_mask + 1 = 2 ^ a ∧ s.pb_mask + 1 = 2 ^ b ∧ 2 ≤ b ∧ s.ib_put ≤ s.ib_mask ∧
    s.pb_pos ≤ s.pb_mask ∧ s.pb_put ≤ s.pb_mask ∧ s.pb_pos % 4 = 0 ∧ s.pb_put % 4 = 0

instance (a b : Nat) (s : gdev_ctx) : Decidable (producer_ok a b s) := by
  unfold producer_ok
  infer_instance

/-- The readbacks of the get registers are in range for the rings of `s`:
the indirect-buffer get register reads a value up to `ib_mask`, and a
push-buffer get pair with the presence bit set holds an address
`(hi * 2^32 + lo) & 0xffffffffff` within `[pb_base, pb_base + pb_mask]`. -/
def hw_in_range (hw : Hw) (s : gdev_ctx) : Prop :=
  ∀ t, hw t (0x88 / 4) % 2 ^ 32 ≤ s.ib_mask ∧
    ((hw (t + 1) (0x5c / 4) % 2 ^ 32).testBit 31 = true →
      s.pb_base ≤ ((hw (t + 1) (0x5c / 4) % 2 ^ 32) * 2 ^ 32 + hw t (0x58 / 4) % 2 ^ 32)
          &&& 0xffffffffff ∧
      ((hw (t + 1) (0x5c / 4) % 2 ^ 32) * 2 ^ 32 + hw t (0x58 / 4) % 2 ^ 32)
          &&& 0xffffffffff ≤ s.pb_base + s.pb_mask)

/-- The consumer indices are in range, for rings with the masks and the
push-buffer base of `s0`. -/
def consumer_ok (s0 s : gdev_ctx) : Prop :=
  s.ib_mask = s0.ib_mask ∧ s.pb_mask = s0.pb_mask ∧ s.pb_base = s0.pb_base ∧
    s.ib_get ≤ s.ib_mask ∧ s.pb_get ≤ s.pb_mask

/-! ## Example contexts -/

/-- Registers that always read back 0. -/
def hw_zero : Hw := fun _ _ => 0

/-- An empty channel: 8 indirect-buffer slots, a 16-byte push buffer at
address `0x120000000`. -/
def ctx_empty : gdev_ctx where
  regs := fun _ => 0
  ib_map := fun _ => 0
  ib_order := 3
  ib_base := 0x110000000
  ib_mask := 7
  ib_put := 0
  ib_get := 0
  pb_map := fun _ => 0
  pb_order := 4
  pb_base := 0x120000000
  pb_mask := 15
  pb_size := 16
  pb_pos := 0
  pb_put := 0
  pb_get := 0
  reads := 0
  yields := 0
  pushed := []

/-- Registers whose push-buffer get pair reads back the address
`0x120000008` with the presence bit set. -/
def hw_get8 : Hw := fun _ r => if r = 0x58 / 4 then 0x20000008 else 0x80000001

/-- Two descriptors of the push buffer of `ctx_empty`. -/
def two_descs : List Desc := [⟨0x120000000, 8, 0⟩, ⟨0x120000008, 4, 0⟩]

/-- A channel whose indirect buffer is full: `(ib_put + 1) & ib_mask == ib_get`. -/
def ctx_ib_full : gdev_ctx := { ctx_empty with ib_put := 0, ib_get := 1 }

/-- Registers that read back 1 at the first two reads and 2 afterwards. -/
def hw_late : Hw := fun t _ => if t < 2 then 1 else 2

/-- A pending span that wraps and ends at offset 0: `pb_put = 8`, `pb_pos = 0`. -/
def ctx_wrap0 : gdev_ctx := { ctx_empty with pb_put := 8, pb_pos := 0, pb_get := 4 }

/-- A pending span that wraps and ends at offset 4: `pb_put = 8`, `pb_pos = 4`. -/
def ctx_wrap4 : gdev_ctx := { ctx_empty with pb_put := 8, pb_pos := 4, pb_get := 8 }

/-- A full push buffer with nothing pending: `pb_pos = pb_put = 4`,
`pb_get = 8`. -/
def ctx_pb_full : gdev_ctx := { ctx_empty with pb_put := 4, pb_pos := 4, pb_get := 8 }

/-- A full push buffer with nothing pending whose cached `pb_get` is 0:
`pb_pos = pb_put = 12`. -/
def ctx_pb_full0 : gdev_ctx := { ctx_empty with pb_put := 12, pb_pos := 12, pb_get := 0 }

/-- An empty push buffer at offset 8 of 16: `pb_pos = pb_put = pb_get = 8`. -/
def ctx_at8 : gdev_ctx := { ctx_empty with pb_put := 8, pb_pos := 8, pb_get := 8 }

/-- Registers that read back all ones. -/
def hw_ones : Hw := fun _ _ => 0xffffffff

/-- Registers that read back in-range values for `ctx_empty`: 2 for the
indirect-buffer get register and the address `0x120000008` with the presence
bit set for the push-buffer get pair. -/
def hw_ranged : Hw := fun _ r =>
  if r = 0x58 / 4 then 0x20000008 else if r = 0x5c / 4 then 0x80000001 else 2

/-- A full push buffer with three words pending: `pb_pos = 12`, `pb_put = 0`,
`pb_get = 0`. -/
def ctx_filled : gdev_ctx := { ctx_empty with pb_put := 0, pb_pos := 12, pb_get := 0 }

/-! ## Bit-level facts -/

theorem and_mod32 (x m : Nat) (hm : m < 2 ^ 32) : (x % 2 ^ 32) &&& m = x &&& m := by
  rw [← Nat.and_pow_two_sub_one_eq_mod, Nat.and_assoc, Nat.and_comm (2 ^ 32 - 1) m,
    Nat.and_pow_two_sub_one_of_lt_two_pow hm]

theorem shl_or_disjoint (a b k : Nat) (hb : b < 2 ^ k) : a <<< k ||| b = a * 2 ^ k + b := by
  rw [Nat.shiftLeft_eq, Nat.mul_comm, Nat.mul_add_lt_is_or hb]

theorem shl_or_shl (x y k : Nat) : x <<< k ||| y <<< k = (x ||| y) <<< k := by
  apply Nat.eq_of_testBit_eq
  intro i
  simp only [Nat.testBit_or, Nat.testBit_shiftLeft]
  cases decide (i ≥ k) <;> simp

theorem and_clear_low2 (x : Nat) (hx : x < 2 ^ 32) : x &&& 0xfffffffc = x - x % 4 := by
  have h1 : x = (x / 4) <<< 2 ||| (x % 4) := by
    rw [shl_or_disjoint _ _ _ (by omega)]; omega
  have h2 : (0xfffffffc : Nat) = (2 ^ 30 - 1) <<< 2 := by decide
  have h3 : x % 4 &&& 0xfffffffc = 0 := by
    have : x % 4 < 4 := by omega
    interval_cases (x % 4) <;> decide
  have h4 : (x / 4) <<< 2 &&& 0xfffffffc = (x / 4) <<< 2 := by
    rw [h2]
    apply Nat.eq_of_testBit_eq
    intro i
    simp only [Nat.testBit_and, Nat.testBit_shiftLeft, Nat.testBit_two_pow_sub_one]
    by_cases hi : i ≥ 2
    · by_cases h30 : i - 2 < 30
      · simp [hi, h30]
      · have : x / 4 < 2 ^ (i - 2) := by
          have : 2 ^ 30 ≤ 2 ^ (i - 2) := Nat.pow_le_pow_right (by omega) (by omega)
          omega
        simp [hi, h30, Nat.testBit_lt_two_pow this]
    · simp [hi]
  conv_lhs => rw [h1]
  rw [Nat.and_distrib_right, h3, h4, Nat.shiftLeft_eq]
  simp
  omega

theorem and_two_pow_eq (x k : Nat) : x &&& 2 ^ k = if x.testBit k then 2 ^ k else 0 := by
  apply Nat.eq_of_testBit_eq
  intro i
  rw [Nat.testBit_and, Nat.testBit_two_pow]
  by_cases hi : k = i
  · subst hi
    cases hx : x.testBit k
    · simp
    · simp [Nat.testBit_two_pow]
  · cases hx : x.testBit k
    · simp [hi]
    · simp [Nat.testBit_two_pow, hi]

theorem and_bit31 (x : Nat) : x &&& 0x80000000 = if x.testBit 31 then 2 ^ 31 else 0 :=
  and_two_pow_eq x 31

theorem testBit31_iff (x : Nat) (hx : x < 2 ^ 32) : x.testBit 31 = true ↔ 2 ^ 31 ≤ x := by
  rw [Nat.testBit_to_div_mod]
  simp only [decide_eq_true_eq]
  omega

/-- The descriptor word, taken modulo `2 ^ 64` as a whole. -/
theorem ib_word_lo (base len : Nat) (flags : Int) :
    ib_word base len flags % 2 ^ 32
      = ((base ||| len * 2 ^ 40 ||| toU64 flags * 2 ^ 40) % 2 ^ 64) % 2 ^ 32 := by
  unfold ib_word
  simp only [← Nat.shiftLeft_eq]
  apply Nat.eq_of_testBit_eq
  intro i
  simp only [Nat.testBit_mod_two_pow, Nat.testBit_or]
  by_cases h : i < 32
  · have h64 : i < 64 := by omega
    simp [h, h64]
  · simp [h]

theorem ib_word_hi (base len : Nat) (flags : Int) :
    (ib_word base len flags >>> 32) % 2 ^ 32
      = ((base ||| len * 2 ^ 40 ||| toU64 flags * 2 ^ 40) % 2 ^ 64) / 2 ^ 32 := by
  unfold ib_word
  simp only [← Nat.shiftLeft_eq, ← Nat.shiftRight_eq_div_pow]
  apply Nat.eq_of_testBit_eq
  intro i
  simp only [Nat.testBit_mod_two_pow, Nat.testBit_or, Nat.testBit_shiftRight]
  by_cases h : i < 32
  · have h64 : 32 + i < 64 := by omega
    simp [h, h64]
  · have h64 : ¬ 32 + i < 64 := by omega
    simp [h, h64]

/-! ## Memory and loop facts -/

@[simp] theorem Mem.store_same (m : Mem) (i v : Nat) : (m.store i v) i = v := by
  simp [Mem.store]

theorem Mem.store_other (m : Mem) (i v j : Nat) (h : j ≠ i) : (m.store i v) j = m j := by
  simp [Mem.store, h]

@[simp] theorem Mem.store_self (m : Mem) (i : Nat) : m.store i (m i) = m := by
  funext j
  by_cases h : j = i
  · subst h; simp [Mem.store]
  · simp [Mem.store, h]

theorem ib_full_iff (s : gdev_ctx) (hmask : s.ib_mask < 2 ^ 32) :
    ib_full s = true ↔ (s.ib_put + 1) &&& s.ib_mask = s.ib_get := by
  unfold ib_full
  rw [beq_iff_eq, and_mod32 _ _ hmask]

theorem pb_full_iff (s : gdev_ctx) (hmask : s.pb_mask < 2 ^ 32) :
    pb_full s = true ↔ (s.pb_pos + 4) &&& s.pb_mask = s.pb_get := by
  unfold pb_full
  rw [beq_iff_eq, and_mod32 _ _ hmask]

theorem ib_wait_of_room (hw : Hw) (fuel : Nat) (s : gdev_ctx) (h : ib_full s = false) :
    ib_wait hw fuel s = .done s := by
  cases fuel <;> simp [ib_wait, h]

theorem pb_wait_of_room (hw : Hw) (fuel n : Nat) (s : gdev_ctx) (h : pb_full s = false) :
    pb_wait hw fuel n s = .done s := by
  cases n <;> simp [pb_wait, h]

theorem push_fifo_of_room (hw : Hw) (fuel : Nat) (s : gdev_ctx) (base len : Nat) (flags : Int)
    (h : ib_full s = false) :
    __gdev_push_fifo hw fuel s base len flags = .done (ib_write s base len flags) := by
  simp [__gdev_push_fifo, ib_wait_of_room hw fuel s h, Outcome.andThen]

theorem out_ring_of_room (hw : Hw) (fuel : Nat) (s : gdev_ctx) (word : Nat)
    (h : pb_full s = false) :
    __gdev_out_ring hw fuel s word = .done (pb_write s word) := by
  simp [__gdev_out_ring, pb_wait_of_room hw fuel fuel s h, Outcome.andThen]

theorem ib_wait_frame_refl (s : gdev_ctx) : ib_wait_frame s s := rfl

theorem ib_wait_frame_trans {s s1 s2 : gdev_ctx} (h1 : ib_wait_frame s s1)
    (h2 : ib_wait_frame s1 s2) : ib_wait_frame s s2 := by
  unfold ib_wait_frame at *
  rw [h2, h1]

theorem ib_wait_body_frame (hw : Hw) (s : gdev_ctx) : ib_wait_frame s (ib_wait_body hw s) := by
  unfold ib_wait_frame ib_wait_body readl __gdev_relax_fifo
  dsimp only
  split <;> rfl

theorem ib_wait_state_frame (hw : Hw) (fuel : Nat) (s : gdev_ctx) :
    ib_wait_frame s (ib_wait hw fuel s).state := by
  induction fuel generalizing s with
  | zero =>
    unfold ib_wait
    split <;> exact ib_wait_frame_refl s
  | succ n ih =>
    unfold ib_wait
    split
    · exact ib_wait_frame_trans (ib_wait_body_frame hw s) (ih _)
    · exact ib_wait_frame_refl s

theorem ib_wait_done_room (hw : Hw) (fuel : Nat) (s s1 : gdev_ctx)
    (h : ib_wait hw fuel s = .done s1) : ib_full s1 = false := by
  induction fuel generalizing s with
  | zero =>
    unfold ib_wait at h
    split at h
    · cases h
    · rename_i hn
      cases h
      simpa using hn
  | succ n ih =>
    unfold ib_wait at h
    split at h
    · exact ih _ h
    · rename_i hn
      cases h
      simpa using hn

/-- A returned `__gdev_push_fifo` is the write part applied to a state that
differs from the entry state in `ib_get`, `reads` and `yields` only. -/
theorem push_fifo_done (hw : Hw) (fuel : Nat) (s s' : gdev_ctx) (base len : Nat) (flags : Int)
    (h : __gdev_push_fifo hw fuel s base len flags = .done s') :
    ∃ s1, ib_wait hw fuel s = .done s1 ∧ ib_wait_frame s s1 ∧ ib_full s1 = false ∧
      s' = ib_write s1 base len flags := by
  unfold __gdev_push_fifo at h
  cases hw1 : ib_wait hw fuel s with
  | done s1 =>
    rw [hw1] at h
    simp only [Outcome.andThen, Outcome.done.injEq] at h
    have hf := ib_wait_state_frame hw fuel s
    rw [hw1] at hf
    exact ⟨s1, rfl, hf, ib_wait_done_room hw fuel s s1 hw1, h.symm⟩
  | spinning s1 =>
    rw [hw1] at h
    simp [Outcome.andThen] at h

theorem ib_word_small (base len : Nat) (flags : Int) (hbase : base < 2 ^ 40)
    (hlen : len < 2 ^ 24) (hal : len % 4 = 0) (hf0 : 0 ≤ flags) (hf3 : flags ≤ 3) :
    ib_word base len flags = base + (len + flags.toNat) * 2 ^ 40 := by
  have ef : toU64 flags = flags.toNat := by unfold toU64; omega
  have e1 : (len <<< 40) % 2 ^ 64 = len <<< 40 := by
    rw [Nat.shiftLeft_eq]; omega
  have e2 : (flags.toNat <<< 40) % 2 ^ 64 = flags.toNat <<< 40 := by
    rw [Nat.shiftLeft_eq]; omega
  have e3 : len ||| flags.toNat = len + flags.toNat := by
    have h := shl_or_disjoint (len / 4) flags.toNat 2 (by omega)
    have h4 : (len / 4) <<< 2 = len := by rw [Nat.shiftLeft_eq]; omega
    rw [h4] at h
    rw [h]; omega
  unfold ib_word
  rw [ef, e1, e2, Nat.or_assoc, shl_or_shl, e3, Nat.or_comm, shl_or_disjoint _ _ _ hbase]
  omega

theorem mask_eq_mod (x mask a : Nat) (h : mask + 1 = 2 ^ a) :
    x &&& mask = x % (mask + 1) := by
  have : mask = 2 ^ a - 1 := by omega
  rw [h, this, Nat.and_pow_two_sub_one_eq_mod]

theorem mod_add_ne (x i C : Nat) (h0 : 0 < i) (hC : i < C) : (x + i) % C ≠ x % C := by
  intro h
  have h1 : x + i ≡ x + 0 [MOD C] := by simpa [Nat.ModEq] using h
  have h2 : i ≡ 0 [MOD C] := Nat.ModEq.add_left_cancel' x h1
  have h3 : C ∣ i := (Nat.modEq_zero_iff_dvd).1 h2
  have := Nat.le_of_dvd h0 h3
  omega

theorem mod_succ_mod (x C : Nat) : (x % C + 1) % C = (x + 1) % C := by
  rw [Nat.add_mod, Nat.mod_mod, ← Nat.add_mod]

/-- The write part of `__gdev_push_fifo` on a context whose slot index does
not wrap in 32 bits. -/
theorem ib_write_eq (s : gdev_ctx) (base len : Nat) (flags : Int) (hmask : s.ib_mask < 2 ^ 32)
    (hput : s.ib_put < 2 ^ 31) :
    ib_write s base len flags
      = { s with
          ib_map := (s.ib_map.store (2 * s.ib_put) (Desc.lo ⟨base, len, flags⟩)).store
            (2 * s.ib_put + 1) (Desc.hi ⟨base, len, flags⟩)
          ib_put := (s.ib_put + 1) &&& s.ib_mask
          regs := s.regs.store (0x8c / 4) ((s.ib_put + 1) &&& s.ib_mask)
          pushed := s.pushed ++ [⟨base, len, flags⟩] } := by
  have e0 : s.ib_put * 2 % 2 ^ 32 = 2 * s.ib_put := by omega
  have e1 : (s.ib_put * 2 + 1) % 2 ^ 32 = 2 * s.ib_put + 1 := by omega
  simp only [ib_write, Mem.store_self, e0, e1, and_mod32 _ _ hmask, ib_word_lo, ib_word_hi,
    Desc.lo, Desc.hi]

/-- Pushes into a ring with enough free slots: `j` slots after the cached
`ib_get` are in use and `j + ds.length` stays below the capacity. -/
theorem push_all_spec (hw : Hw) (fuel a : Nat) (ds : List Desc) :
    ∀ (s : gdev_ctx) (j : Nat), s.ib_mask + 1 = 2 ^ a → a ≤ 31 → s.ib_get ≤ s.ib_mask →
      s.ib_put = (s.ib_get + j) % (s.ib_mask + 1) → j + ds.length ≤ s.ib_mask →
      ∃ s', push_all hw fuel s ds = .done s' ∧
        s' = { s with ib_map := s'.ib_map, ib_put := s'.ib_put, regs := s'.regs,
                      pushed := s.pushed ++ ds } ∧
        s'.ib_put = (s.ib_get + j + ds.length) % (s.ib_mask + 1) ∧
        (∀ i (hi : i < ds.length),
          s'.ib_map (2 * ((s.ib_get + j + i) % (s.ib_mask + 1))) = (ds.get ⟨i, hi⟩).lo ∧
          s'.ib_map (2 * ((s.ib_get + j + i) % (s.ib_mask + 1)) + 1) = (ds.get ⟨i, hi⟩).hi) ∧
        (∀ x, (∀ i, i < ds.length → x ≠ 2 * ((s.ib_get + j + i) % (s.ib_mask + 1)) ∧
            x ≠ 2 * ((s.ib_get + j + i) % (s.ib_mask + 1)) + 1) → s'.ib_map x = s.ib_map x) ∧
        (ds = [] → s' = s) ∧
        (ds ≠ [] → s'.regs (0x8c / 4) = s'.ib_put) := by
  induction ds with
  | nil =>
    intro s j _ _ _ hput _
    refine ⟨s, rfl, by simp, by simpa using hput, ?_, fun _ _ => rfl, fun _ => rfl, by simp⟩
    intro i hi
    simp at hi
  | cons d ds ih =>
    intro s j hmask ha hget hput hlen
    have hC : s.ib_mask + 1 ≤ 2 ^ 31 := by
      rw [hmask]; exact Nat.pow_le_pow_right (by norm_num) ha
    have hm32 : s.ib_mask < 2 ^ 32 := by omega
    have hplt : s.ib_put < s.ib_mask + 1 := by
      rw [hput]; exact Nat.mod_lt _ (by omega)
    have hp31 : s.ib_put < 2 ^ 31 := by omega
    simp only [List.length_cons] at hlen
    have hnext : (s.ib_put + 1) &&& s.ib_mask = (s.ib_get + (j + 1)) % (s.ib_mask + 1) := by
      rw [mask_eq_mod _ _ a hmask, hput, mod_succ_mod, Nat.add_assoc]
    have hroom : ib_full s = false := by
      rw [Bool.eq_false_iff]
      intro h
      have h1 := (ib_full_iff s hm32).1 h
      rw [hnext] at h1
      have h2 := mod_add_ne s.ib_get (j + 1) (s.ib_mask + 1) (by omega) (by omega)
      rw [Nat.mod_eq_of_lt (by omega : s.ib_get < s.ib_mask + 1)] at h2
      exact h2 h1
    have hstep : push_all hw fuel s (d :: ds)
        = push_all hw fuel (ib_write s d.base d.len d.flags) ds := by
      simp only [push_all, push_fifo_of_room hw fuel s _ _ _ hroom, Outcome.andThen]
    rw [hstep, ib_write_eq s _ _ _ hm32 hp31]
    obtain ⟨s', hdone, hfr, hp', hslots, hrest, hnil, hregs⟩ :=
      ih { s with
          ib_map := (s.ib_map.store (2 * s.ib_put) (Desc.lo ⟨d.base, d.len, d.flags⟩)).store
            (2 * s.ib_put + 1) (Desc.hi ⟨d.base, d.len, d.flags⟩)
          ib_put := (s.ib_put + 1) &&& s.ib_mask
          regs := s.regs.store (0x8c / 4) ((s.ib_put + 1) &&& s.ib_mask)
          pushed := s.pushed ++ [⟨d.base, d.len, d.flags⟩] } (j + 1) hmask ha hget hnext
        (by show j + 1 + ds.length ≤ s.ib_mask; omega)
    dsimp only at hfr hp' hslots hrest hnil hregs
    refine ⟨s', hdone, ?_, ?_, ?_, ?_, by simp, ?_⟩
    · rw [hfr]; simp
    · rw [hp']; simp only [List.length_cons]; congr 1; omega
    · have hfirst : s'.ib_map (2 * s.ib_put) = d.lo ∧ s'.ib_map (2 * s.ib_put + 1) = d.hi := by
        have hne : ∀ i, i < ds.length →
            (s.ib_get + (j + 1) + i) % (s.ib_mask + 1) ≠ s.ib_put := by
          intro i hi
          rw [hput]
          have e : s.ib_get + (j + 1) + i = s.ib_get + j + (1 + i) := by omega
          rw [e]
          exact mod_add_ne (s.ib_get + j) (1 + i) (s.ib_mask + 1) (by omega) (by omega)
        constructor
        · rw [hrest (2 * s.ib_put) (fun i hi => by have := hne i hi; omega)]
          rw [Mem.store_other _ _ _ _ (by omega), Mem.store_same]
        · rw [hrest (2 * s.ib_put + 1) (fun i hi => by have := hne i hi; omega)]
          rw [Mem.store_same]
      intro i hi
      cases i with
      | zero =>
        simp only [Nat.add_zero, List.get_eq_getElem, List.getElem_cons_zero]
        rw [← hput]
        exact hfirst
      | succ i =>
        simp only [List.length_cons, Nat.add_lt_add_iff_right] at hi
        have := hslots i hi
        simp only [List.get_eq_getElem, List.getElem_cons_succ]
        simp only [List.get_eq_getElem] at this
        have e : s.ib_get + j + (i + 1) = s.ib_get + (j + 1) + i := by omega
        rw [e]
        exact this
    · intro x hx
      rw [hrest x]
      · have h0 := hx 0 (by simp)
        simp only [Nat.add_zero] at h0
        rw [← hput] at h0
        rw [Mem.store_other _ _ _ _ h0.2, Mem.store_other _ _ _ _ h0.1]
      · intro i hi
        have := hx (i + 1) (by simpa using hi)
        have e : s.ib_get + j + (i + 1) = s.ib_get + (j + 1) + i := by omega
        rw [e] at this
        exact this
    · intro _
      cases ds with
      | nil =>
        have := hnil rfl
        rw [this]
        simp
      | cons d2 ds2 => exact hregs (by simp)

/-- While the get register reads back the cached `ib_get` of a full ring, the
wait loop of `__gdev_push_fifo` only counts reads and yields. -/
theorem ib_wait_stale (hw : Hw) (k : Nat) :
    ∀ (m : Nat) (s : gdev_ctx), ib_full s = true →
      (∀ j, j < k → hw (s.reads + j) (0x88 / 4) % 2 ^ 32 = s.ib_get) →
      ib_wait hw (k + m) s
        = ib_wait hw m { s with reads := s.reads + k, yields := s.yields + k } := by
  induction k with
  | zero =>
    intro m s _ _
    simp
  | succ k ih =>
    intro m s hfull hsame
    have h0 := hsame 0 (by omega)
    rw [Nat.add_zero] at h0
    have hbody : ib_wait_body hw s
        = { s with reads := s.reads + 1, yields := s.yields + 1 } := by
      unfold ib_wait_body readl __gdev_relax_fifo
      simp only [h0, if_true]
    have e : k + 1 + m = (k + m) + 1 := by omega
    have hrec := ih m { s with reads := s.reads + 1, yields := s.yields + 1 } hfull
      (fun j hj => by
        have := hsame (1 + j) (by omega)
        rw [← Nat.add_assoc] at this
        exact this)
    rw [e, ib_wait, if_pos hfull, hbody, hrec]
    simp only [Nat.add_assoc, Nat.add_comm 1 k]

theorem push_frame_trans {s s1 s2 : gdev_ctx} {ds1 ds2 : List Desc} (h1 : push_frame s s1 ds1)
    (h2 : push_frame s1 s2 ds2) : push_frame s s2 (ds1 ++ ds2) := by
  unfold push_frame at *
  rw [h2, h1]
  simp

theorem push_fifo_done_frame (hw : Hw) (fuel : Nat) (s s' : gdev_ctx) (base len : Nat)
    (flags : Int) (h : __gdev_push_fifo hw fuel s base len flags = .done s') :
    push_frame s s' [⟨base, len, flags⟩] := by
  obtain ⟨s1, -, hfr, -, rfl⟩ := push_fifo_done hw fuel s s' base len flags h
  unfold ib_wait_frame at hfr
  unfold push_frame
  rw [hfr]
  simp [ib_write]

theorem push_fifo_spinning_frame (hw : Hw) (fuel : Nat) (s s' : gdev_ctx) (base len : Nat)
    (flags : Int) (h : __gdev_push_fifo hw fuel s base len flags = .spinning s') :
    push_frame s s' [] := by
  unfold __gdev_push_fifo at h
  cases hw1 : ib_wait hw fuel s with
  | done s1 =>
    rw [hw1] at h
    simp [Outcome.andThen] at h
  | spinning s1 =>
    have hf : ib_wait_frame s s1 := by
      have := ib_wait_state_frame hw fuel s
      rw [hw1] at this
      exact this
    rw [hw1] at h
    simp only [Outcome.andThen, Outcome.spinning.injEq] at h
    subst h
    unfold ib_wait_frame at hf
    unfold push_frame
    rw [hf]
    simp

/-- A returned `__gdev_fire_ring` has pushed `fire_list` and set `pb_put` to
`pb_pos`; of the rest it changed the indirect-buffer state only. -/
theorem fire_ring_done (hw : Hw) (fuel : Nat) (s s' : gdev_ctx)
    (h : __gdev_fire_ring hw fuel s = .done s') :
    ∃ s2, push_frame s s2 (fire_list s) ∧ s' = { s2 with pb_put := s.pb_pos } := by
  unfold __gdev_fire_ring at h
  unfold fire_list
  by_cases hne : s.pb_pos ≠ s.pb_put
  · rw [if_pos hne] at h
    rw [if_pos hne]
    by_cases hgt : s.pb_pos > s.pb_put
    · rw [if_pos hgt] at h
      rw [if_pos hgt]
      cases h1 : __gdev_push_fifo hw fuel s ((s.pb_base + s.pb_put) % 2 ^ 64)
          ((s.pb_pos + (2 ^ 32 - s.pb_put % 2 ^ 32)) % 2 ^ 32) 0 with
      | done s1 =>
        rw [h1] at h
        simp only [Outcome.andThen, Outcome.done.injEq] at h
        have hf := push_fifo_done_frame hw fuel s s1 _ _ _ h1
        have hpos : s1.pb_pos = s.pb_pos := by rw [hf]
        exact ⟨s1, hf, by rw [← h, hpos]⟩
      | spinning s1 =>
        rw [h1] at h
        simp [Outcome.andThen] at h
    · rw [if_neg hgt] at h
      rw [if_neg hgt]
      dsimp only at h
      cases h1 : __gdev_push_fifo hw fuel s ((s.pb_base + s.pb_put) % 2 ^ 64)
          ((s.pb_size + (2 ^ 32 - s.pb_put % 2 ^ 32)) % 2 ^ 32) 0 with
      | done s1 =>
        rw [h1] at h
        have hf := push_fifo_done_frame hw fuel s s1 _ _ _ h1
        have hpos : s1.pb_pos = s.pb_pos := by rw [hf]
        have hbase : s1.pb_base = s.pb_base := by rw [hf]
        simp only [Outcome.andThen] at h
        by_cases hz : s.pb_pos ≠ 0
        · rw [hpos, hbase, if_pos hz] at h
          rw [if_pos hz]
          cases h2 : __gdev_push_fifo hw fuel s1 s.pb_base s.pb_pos 0 with
          | done s2 =>
            rw [h2] at h
            simp only [Outcome.done.injEq] at h
            have hf2 := push_fifo_done_frame hw fuel s1 s2 _ _ _ h2
            have hpos2 : s2.pb_pos = s.pb_pos := by rw [hf2, hpos]
            exact ⟨s2, push_frame_trans hf hf2, by rw [← h, hpos2]⟩
          | spinning s2 =>
            rw [h2] at h
            simp at h
        · rw [hpos, if_neg hz] at h
          rw [if_neg hz]
          simp only [Outcome.done.injEq] at h
          exact ⟨s1, hf, by rw [← h, hpos]⟩
      | spinning s1 =>
        rw [h1] at h
        simp [Outcome.andThen] at h
  · rw [if_neg hne] at h
    rw [if_neg hne]
    simp only [Outcome.done.injEq] at h
    subst h
    refine ⟨s, by simp [push_frame], ?_⟩
    have : s.pb_pos = s.pb_put := by simpa using hne
    cases s
    simp_all

theorem succ_mod_cases (p m : Nat) (hp : p ≤ m) :
    (p + 1) % (m + 1) = if p = m then 0 else p + 1 := by
  split
  · next h => rw [h, Nat.mod_self]
  · next h => exact Nat.mod_eq_of_lt (by omega)

theorem ring_free_cases (m put get : Nat) (hp : put ≤ m) (hg : get ≤ m) :
    (get + m - put) % (m + 1) = if put < get then get - put - 1 else get + m - put := by
  split
  · next h =>
    have e : get + m - put = (get - put - 1) + (m + 1) := by omega
    rw [e, Nat.add_mod_right]
    exact Nat.mod_eq_of_lt (by omega)
  · next h => exact Nat.mod_eq_of_lt (by omega)

theorem ib_ring_mask32 {a : Nat} {s : gdev_ctx} (h : ib_ring a s) : s.ib_mask < 2 ^ 32 := by
  obtain ⟨ha, hm, -, -⟩ := h
  have : 2 ^ a ≤ 2 ^ 31 := Nat.pow_le_pow_right (by norm_num) ha
  omega

theorem ib_ring_put31 {a : Nat} {s : gdev_ctx} (h : ib_ring a s) : s.ib_put < 2 ^ 31 := by
  obtain ⟨ha, hm, hp, -⟩ := h
  have : 2 ^ a ≤ 2 ^ 31 := Nat.pow_le_pow_right (by norm_num) ha
  omega

/-- A ring with a free slot is not full. -/
theorem ib_free_room {a : Nat} {s : gdev_ctx} (h : ib_ring a s) (hfree : 1 ≤ ib_free s) :
    ib_full s = false := by
  have hm32 := ib_ring_mask32 h
  obtain ⟨ha, hm, hp, hg⟩ := h
  rw [Bool.eq_false_iff]
  intro hc
  have h1 := (ib_full_iff s hm32).1 hc
  rw [mask_eq_mod _ _ a hm, succ_mod_cases _ _ hp] at h1
  unfold ib_free at hfree
  rw [ring_free_cases _ _ _ hp hg] at hfree
  split at h1 <;> split at hfree <;> omega

/-- A push takes one free slot and keeps the ring well formed. -/
theorem ib_free_write {a : Nat} {s : gdev_ctx} (h : ib_ring a s) (hfree : 1 ≤ ib_free s)
    (base len : Nat) (flags : Int) :
    ib_ring a (ib_write s base len flags) ∧
      ib_free (ib_write s base len flags) = ib_free s - 1 := by
  have hm32 := ib_ring_mask32 h
  have hp31 := ib_ring_put31 h
  obtain ⟨ha, hm, hp, hg⟩ := h
  rw [ib_write_eq s base len flags hm32 hp31]
  unfold ib_ring ib_free at *
  dsimp only
  rw [mask_eq_mod _ _ a hm, succ_mod_cases _ _ hp]
  rw [ring_free_cases _ _ _ hp hg] at hfree ⊢
  have hp' : (if s.ib_put = s.ib_mask then 0 else s.ib_put + 1) ≤ s.ib_mask := by
    split <;> omega
  rw [ring_free_cases _ _ _ hp' hg]
  refine ⟨⟨ha, hm, hp', hg⟩, ?_⟩
  split at hfree <;> split <;> split <;> omega

/-- With two free slots `__gdev_fire_ring` returns without entering a wait
loop. -/
theorem fire_ring_room (hw : Hw) (fuel a : Nat) (s : gdev_ctx) (h : ib_ring a s)
    (hfree : 2 ≤ ib_free s) :
    ∃ s', __gdev_fire_ring hw fuel s = .done s' ∧ s'.reads = s.reads ∧ s'.yields = s.yields ∧
      s'.ib_get = s.ib_get := by
  have hroom := ib_free_room h (by omega)
  unfold __gdev_fire_ring
  by_cases hne : s.pb_pos ≠ s.pb_put
  · rw [if_pos hne]
    by_cases hgt : s.pb_pos > s.pb_put
    · rw [if_pos hgt]
      dsimp only
      rw [push_fifo_of_room hw fuel s _ _ _ hroom]
      exact ⟨_, rfl, rfl, rfl, rfl⟩
    · rw [if_neg hgt]
      dsimp only
      rw [push_fifo_of_room hw fuel s _ _ _ hroom]
      simp only [Outcome.andThen]
      by_cases hz : (ib_write s ((s.pb_base + s.pb_put) % 2 ^ 64)
          ((s.pb_size + (2 ^ 32 - s.pb_put % 2 ^ 32)) % 2 ^ 32) 0).pb_pos ≠ 0
      · rw [if_pos hz]
        obtain ⟨hr1, hf1⟩ := ib_free_write h (by omega) ((s.pb_base + s.pb_put) % 2 ^ 64)
          ((s.pb_size + (2 ^ 32 - s.pb_put % 2 ^ 32)) % 2 ^ 32) 0
        have hroom1 := ib_free_room hr1 (by omega)
        rw [push_fifo_of_room hw fuel _ _ _ _ hroom1]
        exact ⟨_, rfl, rfl, rfl, rfl⟩
      · rw [if_neg hz]
        exact ⟨_, rfl, rfl, rfl, rfl⟩
  · rw [if_neg hne]
    exact ⟨s, rfl, rfl, rfl, rfl⟩

theorem fire_list_forward (s : gdev_ctx) (h32 : s.pb_pos < 2 ^ 32) (hlt : s.pb_put < s.pb_pos) :
    fire_list s = [⟨(s.pb_base + s.pb_put) % 2 ^ 64, s.pb_pos - s.pb_put, 0⟩] := by
  have e : (s.pb_pos + (2 ^ 32 - s.pb_put % 2 ^ 32)) % 2 ^ 32 = s.pb_pos - s.pb_put := by
    omega
  have hne : s.pb_pos ≠ s.pb_put := by omega
  unfold fire_list
  rw [if_pos hne, if_pos hlt, e]

theorem fire_list_wrap (s : gdev_ctx) (h32 : s.pb_size < 2 ^ 32) (hput : s.pb_put < s.pb_size)
    (hlt : s.pb_pos < s.pb_put) :
    fire_list s = ⟨(s.pb_base + s.pb_put) % 2 ^ 64, s.pb_size - s.pb_put, 0⟩
      :: (if s.pb_pos ≠ 0 then [⟨s.pb_base, s.pb_pos, 0⟩] else []) := by
  have e : (s.pb_size + (2 ^ 32 - s.pb_put % 2 ^ 32)) % 2 ^ 32 = s.pb_size - s.pb_put := by
    omega
  have hne : s.pb_pos ≠ s.pb_put := by omega
  have hgt : ¬ s.pb_pos > s.pb_put := by omega
  unfold fire_list
  rw [if_pos hne, if_neg hgt, e]

theorem update_get_clear (hw : Hw) (s : gdev_ctx)
    (hbit : (hw (s.reads + 1) (0x5c / 4) % 2 ^ 32).testBit 31 = false) :
    __gdev_update_get hw s = { s with pb_get := 0, reads := s.reads + 2 } := by
  unfold __gdev_update_get readl
  dsimp only
  rw [and_bit31, hbit]
  simp

theorem pb_wait_body_done (hw : Hw) (fuel : Nat) (s sf : gdev_ctx)
    (h : __gdev_fire_ring hw fuel s = .done sf) :
    pb_wait_body hw fuel s
      = .done (if s.pb_get = (__gdev_update_get hw sf).pb_get
          then __gdev_relax_fifo (__gdev_update_get hw sf) else __gdev_update_get hw sf) := by
  unfold pb_wait_body
  rw [h]
  rfl

/-- A returned `__gdev_fire_ring` leaves the push buffer and its position as
they were. -/
theorem fire_ring_done_pb (hw : Hw) (fuel : Nat) (s s' : gdev_ctx)
    (h : __gdev_fire_ring hw fuel s = .done s') :
    s'.pb_pos = s.pb_pos ∧ s'.pb_mask = s.pb_mask ∧ s'.pb_map = s.pb_map ∧
      s'.pb_get = s.pb_get ∧ s'.pb_base = s.pb_base ∧ s'.pb_size = s.pb_size ∧
      s'.pb_put = s.pb_pos := by
  obtain ⟨s2, hf, rfl⟩ := fire_ring_done hw fuel s s' h
  unfold push_frame at hf
  dsimp only
  rw [hf]
  exact ⟨rfl, rfl, rfl, rfl, rfl, rfl, rfl⟩

theorem pb_write_eq (s : gdev_ctx) (word : Nat) (hmask : s.pb_mask < 2 ^ 32)
    (hword : word < 2 ^ 32) :
    pb_write s word
      = { s with
          pb_map := s.pb_map.store (s.pb_pos / 4) word
          pb_pos := (s.pb_pos + 4) &&& s.pb_mask } := by
  simp only [pb_write, and_mod32 _ _ hmask, Nat.mod_eq_of_lt hword]

theorem four_dvd_two_pow (b : Nat) (hb : 2 ≤ b) : 4 ∣ 2 ^ b := by
  obtain ⟨c, rfl⟩ : ∃ c, b = 2 + c := ⟨b - 2, by omega⟩
  rw [Nat.pow_add]
  exact ⟨2 ^ c, by norm_num⟩

/-- Two distinct byte offsets of a ring of words lie in distinct words. -/
theorem ring_word_ne (x i C : Nat) (h4 : 4 ∣ C) (hx : x % 4 = 0) (h0 : 0 < i) (hC : 4 * i < C) :
    ((x + 4 * i) % C) / 4 ≠ (x % C) / 4 := by
  have hne := mod_add_ne x (4 * i) C (by omega) hC
  have ha : (x % C) % 4 = 0 := by rw [Nat.mod_mod_of_dvd _ h4]; exact hx
  have hb : ((x + 4 * i) % C) % 4 = 0 := by rw [Nat.mod_mod_of_dvd _ h4]; omega
  omega

/-- Words written into a push buffer with enough room: `j` words after the
cached `pb_get` are in use and `j + ws.length` stays below the capacity. -/
theorem out_all_spec (hw : Hw) (fuel b : Nat) (ws : List Nat) :
    ∀ (s : gdev_ctx) (j : Nat), s.pb_mask + 1 = 2 ^ b → 2 ≤ b → b ≤ 32 →
      s.pb_get % 4 = 0 → s.pb_get ≤ s.pb_mask →
      s.pb_pos = (s.pb_get + 4 * j) % (s.pb_mask + 1) →
      4 * (j + ws.length) + 4 ≤ s.pb_mask + 1 → (∀ w ∈ ws, w < 2 ^ 32) →
      ∃ s', out_all hw fuel s ws = .done s' ∧
        s' = { s with
          pb_map := s'.pb_map
          pb_pos := (s.pb_get + 4 * (j + ws.length)) % (s.pb_mask + 1) } ∧
        (∀ i (hi : i < ws.length),
          s'.pb_map (((s.pb_get + 4 * (j + i)) % (s.pb_mask + 1)) / 4) = ws.get ⟨i, hi⟩) ∧
        (∀ x, (∀ i, i < ws.length → x ≠ ((s.pb_get + 4 * (j + i)) % (s.pb_mask + 1)) / 4) →
          s'.pb_map x = s.pb_map x) := by
  induction ws with
  | nil =>
    intro s j _ _ _ _ _ hpos _ _
    refine ⟨s, rfl, ?_, ?_, fun _ _ => rfl⟩
    · simp only [List.length_nil, Nat.add_zero]
      rw [← hpos]
    · intro i hi
      simp at hi
  | cons w ws ih =>
    intro s j hmask hb2 hb32 hg4 hg hpos hlen hws
    simp only [List.length_cons] at hlen
    have hC : s.pb_mask + 1 ≤ 2 ^ 32 := by
      rw [hmask]; exact Nat.pow_le_pow_right (by norm_num) hb32
    have hm32 : s.pb_mask < 2 ^ 32 := by omega
    have h4 : 4 ∣ s.pb_mask + 1 := by rw [hmask]; exact four_dvd_two_pow b hb2
    have hw32 : w < 2 ^ 32 := hws w (by simp)
    have hnext : (s.pb_pos + 4) &&& s.pb_mask
        = (s.pb_get + 4 * (j + 1)) % (s.pb_mask + 1) := by
      rw [mask_eq_mod _ _ b hmask, hpos, Nat.mod_add_mod]
      congr 1
    have hroom : pb_full s = false := by
      rw [Bool.eq_false_iff]
      intro h
      have h1 := (pb_full_iff s hm32).1 h
      rw [hnext] at h1
      have h2 := mod_add_ne s.pb_get (4 * (j + 1)) (s.pb_mask + 1) (by omega) (by omega)
      rw [Nat.mod_eq_of_lt (by omega : s.pb_get < s.pb_mask + 1)] at h2
      exact h2 h1
    have hstep : out_all hw fuel s (w :: ws) = out_all hw fuel (pb_write s w) ws := by
      simp only [out_all, out_ring_of_room hw fuel s _ hroom, Outcome.andThen]
    rw [hstep, pb_write_eq s w hm32 hw32]
    obtain ⟨s', hdone, hfr, hslots, hrest⟩ :=
      ih { s with
          pb_map := s.pb_map.store (s.pb_pos / 4) w
          pb_pos := (s.pb_pos + 4) &&& s.pb_mask } (j + 1) hmask hb2 hb32 hg4 hg hnext
        (by show 4 * (j + 1 + ws.length) + 4 ≤ s.pb_mask + 1; omega)
        (fun w' hw' => hws w' (by simp [hw']))
    dsimp only at hfr hslots hrest
    have hne : ∀ i, i < ws.length →
        s.pb_pos / 4 ≠ ((s.pb_get + 4 * (j + 1 + i)) % (s.pb_mask + 1)) / 4 := by
      intro i hi
      rw [hpos]
      have e : s.pb_get + 4 * (j + 1 + i) = (s.pb_get + 4 * j) + 4 * (1 + i) := by omega
      rw [e]
      exact Ne.symm (ring_word_ne (s.pb_get + 4 * j) (1 + i) (s.pb_mask + 1) h4 (by omega)
        (by omega) (by omega))
    refine ⟨s', hdone, ?_, ?_, ?_⟩
    · rw [hfr]
      simp only [List.length_cons]
      have e : j + 1 + ws.length = j + (ws.length + 1) := by omega
      rw [e]
    · intro i hi
      cases i with
      | zero =>
        simp only [Nat.add_zero, List.get_eq_getElem, List.getElem_cons_zero]
        rw [← hpos, hrest _ hne, Mem.store_same]
      | succ i =>
        simp only [List.length_cons, Nat.add_lt_add_iff_right] at hi
        have := hslots i hi
        simp only [List.get_eq_getElem, List.getElem_cons_succ]
        simp only [List.get_eq_getElem] at this
        have e : j + (i + 1) = j + 1 + i := by omega
        rw [e]
        exact this
    · intro x hx
      rw [hrest x]
      · have h0 := hx 0 (by simp)
        simp only [Nat.add_zero] at h0
        rw [← hpos] at h0
        rw [Mem.store_other _ _ _ _ h0]
      · intro i hi
        have := hx (i + 1) (by simpa using hi)
        have e : j + (i + 1) = j + 1 + i := by omega
        rw [e] at this
        exact this

theorem get_frame_refl (s : gdev_ctx) : get_frame s s := ⟨rfl, Nat.le_refl _⟩

theorem get_frame_trans {s s1 s2 : gdev_ctx} (h1 : get_frame s s1) (h2 : get_frame s1 s2) :
    get_frame s s2 := by
  obtain ⟨e1, l1⟩ := h1
  obtain ⟨e2, l2⟩ := h2
  refine ⟨?_, Nat.le_trans l1 l2⟩
  rw [e2, e1]

theorem update_get_frame (hw : Hw) (s : gdev_ctx) :
    __gdev_update_get hw s
      = { s with pb_get := (__gdev_update_get hw s).pb_get, reads := s.reads + 2 } := by
  unfold __gdev_update_get readl
  dsimp only
  split <;> rfl

theorem update_get_congr (hw : Hw) (s s' : gdev_ctx) (hr : s'.reads = s.reads)
    (hb : s'.pb_base = s.pb_base) :
    (__gdev_update_get hw s').pb_get = (__gdev_update_get hw s).pb_get := by
  unfold __gdev_update_get readl
  dsimp only
  rw [hr, hb]
  split <;> rfl

theorem fire_ring_idle (hw : Hw) (fuel : Nat) (s : gdev_ctx) (h : s.pb_pos = s.pb_put) :
    __gdev_fire_ring hw fuel s = .done s := by
  unfold __gdev_fire_ring
  rw [if_neg (by simpa using h)]

theorem pb_wait_body_idle (hw : Hw) (fuel : Nat) (s : gdev_ctx) (h : s.pb_pos = s.pb_put) :
    ∃ s1, pb_wait_body hw fuel s = .done s1 ∧ get_frame s s1 := by
  rw [pb_wait_body_done hw fuel s s (fire_ring_idle hw fuel s h)]
  refine ⟨_, rfl, ?_⟩
  have hu := update_get_frame hw s
  split
  · constructor
    · rw [hu]; rfl
    · rw [hu]; show s.reads ≤ s.reads + 2; omega
  · constructor
    · rw [hu]
    · rw [hu]; show s.reads ≤ s.reads + 2; omega

/-- With nothing pending, the wait loop of `__gdev_out_ring` changes only the
cached `pb_get` and the counters of reads and yields. -/
theorem pb_wait_idle (hw : Hw) (fuel : Nat) :
    ∀ (n : Nat) (s : gdev_ctx), s.pb_pos = s.pb_put →
      get_frame s (pb_wait hw fuel n s).state := by
  intro n
  induction n with
  | zero =>
    intro s _
    unfold pb_wait
    split <;> exact get_frame_refl s
  | succ n ih =>
    intro s h
    unfold pb_wait
    split
    · obtain ⟨s1, hb, hf⟩ := pb_wait_body_idle hw fuel s h
      rw [hb]
      simp only [Outcome.andThen]
      have h1 : s1.pb_pos = s1.pb_put := by
        obtain ⟨e, -⟩ := hf
        rw [e]
        exact h
      exact get_frame_trans hf (ih s1 h1)
    · exact get_frame_refl s

/-- The words a consumer reads for a descriptor, given the contents of
`pb_map` over its span. -/
theorem words_eq_of_get (m : Mem) (pb_base : Nat) (d : Desc) (off : Nat) (l : List Nat)
    (hoff : ((d.base + (2 ^ 64 - pb_base % 2 ^ 64)) % 2 ^ 64) / 4 = off)
    (hl : l.length = d.len / 4)
    (h : ∀ i (hi : i < l.length), m (off + i) = l.get ⟨i, hi⟩) :
    Desc.words pb_base m d = l := by
  unfold Desc.words
  rw [hoff]
  apply List.ext_getElem
  · simp [hl]
  · intro i h1 h2
    simp only [List.getElem_map, List.getElem_range]
    have := h i h2
    simpa using this

theorem ib_free_congr (s s' : gdev_ctx) (h1 : s'.ib_get = s.ib_get) (h2 : s'.ib_mask = s.ib_mask)
    (h3 : s'.ib_put = s.ib_put) : ib_free s' = ib_free s := by
  unfold ib_free
  rw [h1, h2, h3]

theorem ib_ring_congr (a : Nat) (s s' : gdev_ctx) (h1 : s'.ib_get = s.ib_get)
    (h2 : s'.ib_mask = s.ib_mask) (h3 : s'.ib_put = s.ib_put) (h : ib_ring a s) :
    ib_ring a s' := by
  unfold ib_ring at *
  rw [h1, h2, h3]
  exact h

/-- The words read back, in push order, over the descriptors that
`__gdev_fire_ring` pushes for a pending span of `n` words starting at `p`. -/
theorem fire_list_words (s : gdev_ctx) (ws : List Nat) (p : Nat) (h32 : s.pb_size < 2 ^ 32)
    (h4 : 4 ∣ s.pb_size) (hp4 : p % 4 = 0) (hp : p < s.pb_size) (hput : s.pb_put = p)
    (hpos : s.pb_pos = (p + 4 * ws.length) % s.pb_size) (hn1 : 1 ≤ ws.length)
    (hn : 4 * ws.length + 4 ≤ s.pb_size)
    (hslots : ∀ i (hi : i < ws.length),
      s.pb_map (((p + 4 * i) % s.pb_size) / 4) = ws.get ⟨i, hi⟩) :
    ((fire_list s).length = 1 ∨ (fire_list s).length = 2) ∧
      ((fire_list s).map (Desc.words s.pb_base s.pb_map)).flatten = ws := by
  by_cases hcase : p + 4 * ws.length < s.pb_size
  · -- the span does not wrap
    have hq : s.pb_pos = p + 4 * ws.length := by rw [hpos, Nat.mod_eq_of_lt hcase]
    rw [fire_list_forward s (by omega) (by omega)]
    refine ⟨Or.inl rfl, ?_⟩
    simp only [List.map_cons, List.map_nil, List.flatten_cons, List.flatten_nil,
      List.append_nil]
    apply words_eq_of_get _ _ _ (p / 4)
    · show ((s.pb_base + s.pb_put) % 2 ^ 64 + (2 ^ 64 - s.pb_base % 2 ^ 64)) % 2 ^ 64 / 4 = p / 4
      rw [hput]
      congr 1
      omega
    · show ws.length = (s.pb_pos - s.pb_put) / 4
      omega
    · intro i hi
      have := hslots i hi
      rw [Nat.mod_eq_of_lt (by omega)] at this
      rw [← this]
      congr 1
      omega
  · -- the span wraps
    have hge : s.pb_size ≤ p + 4 * ws.length := by omega
    have hq : s.pb_pos = p + 4 * ws.length - s.pb_size := by
      rw [hpos, Nat.mod_eq_sub_mod hge, Nat.mod_eq_of_lt (by omega)]
    obtain ⟨c, hc⟩ := h4
    have hn1' : (s.pb_size - p) / 4 ≤ ws.length := by omega
    rw [fire_list_wrap s h32 (by omega) (by omega)]
    have hfirst : Desc.words s.pb_base s.pb_map
        ⟨(s.pb_base + s.pb_put) % 2 ^ 64, s.pb_size - s.pb_put, 0⟩
        = ws.take ((s.pb_size - p) / 4) := by
      apply words_eq_of_get _ _ _ (p / 4)
      · show ((s.pb_base + s.pb_put) % 2 ^ 64 + (2 ^ 64 - s.pb_base % 2 ^ 64)) % 2 ^ 64 / 4
          = p / 4
        rw [hput]
        congr 1
        omega
      · show (ws.take ((s.pb_size - p) / 4)).length = (s.pb_size - s.pb_put) / 4
        rw [List.length_take, hput]
        omega
      · intro i hi
        rw [List.length_take] at hi
        have hi' : i < ws.length := by omega
        have := hslots i hi'
        rw [Nat.mod_eq_of_lt (by omega)] at this
        simp only [List.get_eq_getElem, List.getElem_take]
        simp only [List.get_eq_getElem] at this
        rw [← this]
        congr 1
        omega
    by_cases hz : s.pb_pos = 0
    · rw [if_neg (by simpa using hz)]
      refine ⟨Or.inl rfl, ?_⟩
      simp only [List.map_cons, List.map_nil, List.flatten_cons, List.flatten_nil,
        List.append_nil]
      rw [hfirst]
      exact List.take_of_length_le (by omega)
    · rw [if_pos hz]
      refine ⟨Or.inr rfl, ?_⟩
      simp only [List.map_cons, List.map_nil, List.flatten_cons, List.flatten_nil,
        List.append_nil]
      have hsecond : Desc.words s.pb_base s.pb_map ⟨s.pb_base, s.pb_pos, 0⟩
          = ws.drop ((s.pb_size - p) / 4) := by
        apply words_eq_of_get _ _ _ 0
        · show (s.pb_base + (2 ^ 64 - s.pb_base % 2 ^ 64)) % 2 ^ 64 / 4 = 0
          omega
        · show (ws.drop ((s.pb_size - p) / 4)).length = s.pb_pos / 4
          rw [List.length_drop]
          omega
        · intro i hi
          rw [List.length_drop] at hi
          have hi' : (s.pb_size - p) / 4 + i < ws.length := by omega
          have := hslots ((s.pb_size - p) / 4 + i) hi'
          have e : p + 4 * ((s.pb_size - p) / 4 + i) = s.pb_size + 4 * i := by omega
          rw [e, Nat.add_mod_left, Nat.mod_eq_of_lt (by omega)] at this
          simp only [List.get_eq_getElem, List.getElem_drop]
          simp only [List.get_eq_getElem] at this
          rw [← this]
          congr 1
          omega
      rw [hfirst, hsecond, List.take_append_drop]

theorem andThen_eq_done (o : Outcome) (f : gdev_ctx → Outcome) (s' : gdev_ctx)
    (h : o.andThen f = .done s') : ∃ s1, o = .done s1 ∧ f s1 = .done s' := by
  cases o with
  | done s1 => exact ⟨s1, rfl, h⟩
  | spinning s1 => simp [Outcome.andThen] at h

theorem pb_wait_done_room (hw : Hw) (fuel : Nat) :
    ∀ (n : Nat) (s s1 : gdev_ctx), pb_wait hw fuel n s = .done s1 → pb_full s1 = false := by
  intro n
  induction n with
  | zero =>
    intro s s1 h
    unfold pb_wait at h
    split at h
    · cases h
    · rename_i hn
      cases h
      simpa using hn
  | succ n ih =>
    intro s s1 h
    unfold pb_wait at h
    split at h
    · obtain ⟨s2, -, h2⟩ := andThen_eq_done _ _ _ h
      exact ih s2 s1 h2
    · rename_i hn
      cases h
      simpa using hn

/-- A returned `__gdev_out_ring` is the write part applied to a state in which
the push buffer is not full. -/
theorem out_ring_done (hw : Hw) (fuel : Nat) (s s' : gdev_ctx) (word : Nat)
    (h : __gdev_out_ring hw fuel s word = .done s') :
    ∃ s1, pb_wait hw fuel fuel s = .done s1 ∧ pb_full s1 = false ∧ s' = pb_write s1 word := by
  unfold __gdev_out_ring at h
  obtain ⟨s1, h1, h2⟩ := andThen_eq_done _ _ _ h
  simp only [Outcome.done.injEq] at h2
  exact ⟨s1, h1, pb_wait_done_room hw fuel fuel s s1 h1, h2.symm⟩

theorem ib_write_put_ne (s : gdev_ctx) (base len : Nat) (flags : Int) (h : ib_full s = false) :
    (ib_write s base len flags).ib_put ≠ (ib_write s base len flags).ib_get := by
  intro heq
  have hf : ib_full s = true := by
    unfold ib_full
    rw [beq_iff_eq]
    exact heq
  rw [h] at hf
  cases hf

theorem pb_write_pos_ne (s : gdev_ctx) (word : Nat) (h : pb_full s = false) :
    (pb_write s word).pb_pos ≠ (pb_write s word).pb_get := by
  intro heq
  have hf : pb_full s = true := by
    unfold pb_full
    rw [beq_iff_eq]
    exact heq
  rw [h] at hf
  cases hf

theorem push_fifo_done_ne (hw : Hw) (fuel : Nat) (s s' : gdev_ctx) (base len : Nat)
    (flags : Int) (h : __gdev_push_fifo hw fuel s base len flags = .done s') :
    s'.ib_put ≠ s'.ib_get := by
  obtain ⟨s1, -, -, hroom, rfl⟩ := push_fifo_done hw fuel s s' base len flags h
  exact ib_write_put_ne s1 base len flags hroom

theorem out_ring_done_ne (hw : Hw) (fuel : Nat) (s s' : gdev_ctx) (word : Nat)
    (h : __gdev_out_ring hw fuel s word = .done s') : s'.pb_pos ≠ s'.pb_get := by
  obtain ⟨s1, -, hroom, rfl⟩ := out_ring_done hw fuel s s' word h
  exact pb_write_pos_ne s1 word hroom

theorem push_all_done_ne (hw : Hw) (fuel : Nat) (ds : List Desc) :
    ∀ (s s' : gdev_ctx), ds ≠ [] → push_all hw fuel s ds = .done s' →
      s'.ib_put ≠ s'.ib_get := by
  induction ds with
  | nil => intro s s' h; exact absurd rfl h
  | cons d ds ih =>
    intro s s' _ h
    unfold push_all at h
    obtain ⟨s1, h1, h2⟩ := andThen_eq_done _ _ _ h
    cases ds with
    | nil =>
      simp only [push_all, Outcome.done.injEq] at h2
      rw [← h2]
      exact push_fifo_done_ne hw fuel s s1 _ _ _ h1
    | cons d2 ds2 => exact ih s1 s' (by simp) h2

theorem out_all_done_ne (hw : Hw) (fuel : Nat) (ws : List Nat) :
    ∀ (s s' : gdev_ctx), ws ≠ [] → out_all hw fuel s ws = .done s' →
      s'.pb_pos ≠ s'.pb_get := by
  induction ws with
  | nil => intro s s' h; exact absurd rfl h
  | cons w ws ih =>
    intro s s' _ h
    unfold out_all at h
    obtain ⟨s1, h1, h2⟩ := andThen_eq_done _ _ _ h
    cases ws with
    | nil =>
      simp only [out_all, Outcome.done.injEq] at h2
      rw [← h2]
      exact out_ring_done_ne hw fuel s s1 _ h1
    | cons w2 ws2 => exact ih s1 s' (by simp) h2

theorem andThen_state_inv (P : gdev_ctx → Prop) (o : Outcome) (f : gdev_ctx → Outcome)
    (ho : P o.state) (hf : ∀ s, P s → P (f s).state) : P (o.andThen f).state := by
  cases o with
  | done s => exact hf s ho
  | spinning s => exact ho

theorem ib_wait_inv (hw : Hw) (P : gdev_ctx → Prop) (hP : step_invariant hw P) :
    ∀ (fuel : Nat) (s : gdev_ctx), P s → P (ib_wait hw fuel s).state := by
  intro fuel
  induction fuel with
  | zero =>
    intro s h
    unfold ib_wait
    split <;> exact h
  | succ n ih =>
    intro s h
    unfold ib_wait
    split
    · exact ih _ (hP.1 s h)
    · exact h

theorem push_fifo_inv (hw : Hw) (P : gdev_ctx → Prop) (hP : step_invariant hw P) (fuel : Nat)
    (s : gdev_ctx) (base len : Nat) (flags : Int) (h : P s) :
    P (__gdev_push_fifo hw fuel s base len flags).state := by
  unfold __gdev_push_fifo
  exact andThen_state_inv P _ _ (ib_wait_inv hw P hP fuel s h)
    (fun s1 h1 => hP.2.1 s1 base len flags h1)

theorem fire_ring_inv (hw : Hw) (P : gdev_ctx → Prop) (hP : step_invariant hw P) (fuel : Nat)
    (s : gdev_ctx) (h : P s) : P (__gdev_fire_ring hw fuel s).state := by
  unfold __gdev_fire_ring
  split
  · refine andThen_state_inv P _ _ ?_ (fun s2 h2 => hP.2.2.2.2.2 s2 h2)
    split
    · exact push_fifo_inv hw P hP fuel s _ _ _ h
    · refine andThen_state_inv P _ _ (push_fifo_inv hw P hP fuel s _ _ _ h) ?_
      intro s1 h1
      split
      · exact push_fifo_inv hw P hP fuel s1 _ _ _ h1
      · exact h1
  · exact h

theorem pb_wait_body_inv (hw : Hw) (P : gdev_ctx → Prop) (hP : step_invariant hw P)
    (fuel : Nat) (s : gdev_ctx) (h : P s) : P (pb_wait_body hw fuel s).state := by
  unfold pb_wait_body
  refine andThen_state_inv P _ _ (fire_ring_inv hw P hP fuel s h) ?_
  intro s1 h1
  show P (if s.pb_get = (__gdev_update_get hw s1).pb_get
    then __gdev_relax_fifo (__gdev_update_get hw s1) else __gdev_update_get hw s1)
  split
  · exact hP.2.2.2.1 _ (hP.2.2.1 s1 h1)
  · exact hP.2.2.1 s1 h1

theorem pb_wait_inv (hw : Hw) (P : gdev_ctx → Prop) (hP : step_invariant hw P) (fuel : Nat) :
    ∀ (n : Nat) (s : gdev_ctx), P s → P (pb_wait hw fuel n s).state := by
  intro n
  induction n with
  | zero =>
    intro s h
    unfold pb_wait
    split <;> exact h
  | succ n ih =>
    intro s h
    unfold pb_wait
    split
    · exact andThen_state_inv P _ _ (pb_wait_body_inv hw P hP fuel s h) (fun s1 h1 => ih s1 h1)
    · exact h

theorem out_ring_inv (hw : Hw) (P : gdev_ctx → Prop) (hP : step_invariant hw P) (fuel : Nat)
    (s : gdev_ctx) (word : Nat) (h : P s) : P (__gdev_out_ring hw fuel s word).state := by
  unfold __gdev_out_ring
  exact andThen_state_inv P _ _ (pb_wait_inv hw P hP fuel fuel s h)
    (fun s1 h1 => hP.2.2.2.2.1 s1 word h1)

theorem producer_ok_steps (hw : Hw) (a b : Nat) : step_invariant hw (producer_ok a b) := by
  refine ⟨?_, ?_, ?_, ?_, ?_, ?_⟩
  · intro s h
    have hf := ib_wait_body_frame hw s
    unfold ib_wait_frame at hf
    rw [hf]
    exact h
  · intro s base len flags h
    obtain ⟨h1, h2, h3, h4, h5, h6, h7, h8⟩ := h
    refine ⟨h1, h2, h3, ?_, h5, h6, h7, h8⟩
    show ((s.ib_put + 1) % 2 ^ 32) &&& s.ib_mask ≤ s.ib_mask
    exact Nat.and_le_right
  · intro s h
    rw [update_get_frame hw s]
    exact h
  · intro s h
    exact h
  · intro s word h
    obtain ⟨h1, h2, h3, h4, h5, h6, h7, h8⟩ := h
    refine ⟨h1, h2, h3, h4, ?_, h6, ?_, h8⟩
    · show ((s.pb_pos + 4) % 2 ^ 32) &&& s.pb_mask ≤ s.pb_mask
      exact Nat.and_le_right
    · show (((s.pb_pos + 4) % 2 ^ 32) &&& s.pb_mask) % 4 = 0
      rw [mask_eq_mod _ _ b h2, h2, Nat.mod_mod_of_dvd _ (four_dvd_two_pow b h3)]
      omega
  · intro s h
    obtain ⟨h1, h2, h3, h4, h5, h6, h7, h8⟩ := h
    exact ⟨h1, h2, h3, h4, h5, h5, h7, h7⟩

/-- The value `__gdev_update_get` computes when the presence bit is set. -/
theorem update_get_set (hw : Hw) (s : gdev_ctx)
    (hbit : (hw (s.reads + 1) (0x5c / 4) % 2 ^ 32).testBit 31 = true) :
    (__gdev_update_get hw s).pb_get
      = ((((hw (s.reads + 1) (0x5c / 4) % 2 ^ 32) * 2 ^ 32 + hw s.reads (0x58 / 4) % 2 ^ 32)
            &&& 0xffffffffff) + (2 ^ 64 - s.pb_base % 2 ^ 64)) % 2 ^ 64 % 2 ^ 32 := by
  have hor : ∀ hi lo : Nat, lo < 2 ^ 32 → hi < 2 ^ 32 →
      (hi <<< 32) % 2 ^ 64 ||| lo = hi * 2 ^ 32 + lo := by
    intro hi lo hlo hhi
    have h := shl_or_disjoint hi lo 32 hlo
    have e : (hi <<< 32) % 2 ^ 64 = hi <<< 32 := by
      simp only [Nat.shiftLeft_eq]; omega
    rw [e, h]
  unfold __gdev_update_get readl
  dsimp only
  rw [and_bit31, hbit]
  simp only [if_true]
  rw [if_pos (by norm_num), hor _ _ (Nat.mod_lt _ (by norm_num)) (Nat.mod_lt _ (by norm_num))]

theorem consumer_ok_steps (hw : Hw) (s0 : gdev_ctx) (hr : hw_in_range hw s0) :
    step_invariant hw (consumer_ok s0) := by
  refine ⟨?_, ?_, ?_, ?_, ?_, ?_⟩
  · intro s h
    obtain ⟨h1, h2, h3, h4, h5⟩ := h
    have hv := (hr s.reads).1
    unfold ib_wait_body readl __gdev_relax_fifo
    dsimp only
    split
    · exact ⟨h1, h2, h3, by show hw s.reads (0x88 / 4) % 2 ^ 32 ≤ s.ib_mask; rw [h1]; exact hv,
        h5⟩
    · exact ⟨h1, h2, h3, by show hw s.reads (0x88 / 4) % 2 ^ 32 ≤ s.ib_mask; rw [h1]; exact hv,
        h5⟩
  · intro s base len flags h
    exact h
  · intro s h
    obtain ⟨h1, h2, h3, h4, h5⟩ := h
    have hfr := update_get_frame hw s
    refine ⟨by rw [hfr]; exact h1, by rw [hfr]; exact h2, by rw [hfr]; exact h3,
      by rw [hfr]; exact h4, ?_⟩
    have hm : (__gdev_update_get hw s).pb_mask = s.pb_mask := by rw [hfr]
    rw [hm]
    cases hbit : (hw (s.reads + 1) (0x5c / 4) % 2 ^ 32).testBit 31
    · rw [update_get_clear hw s hbit]
      exact Nat.zero_le _
    · obtain ⟨hlo, hhi⟩ := (hr s.reads).2 hbit
      rw [update_get_set hw s hbit, h3, h2]
      have hA : ((hw (s.reads + 1) (0x5c / 4) % 2 ^ 32) * 2 ^ 32 + hw s.reads (0x58 / 4) % 2 ^ 32)
          &&& 0xffffffffff < 2 ^ 40 := by
        have hmask : (0xffffffffff : Nat) = 2 ^ 40 - 1 := by norm_num
        rw [hmask, Nat.and_pow_two_sub_one_eq_mod]
        exact Nat.mod_lt _ (by norm_num)
      omega
  · intro s h
    exact h
  · intro s word h
    exact h
  · intro s h
    exact h

theorem hw_ranged_in_range : hw_in_range hw_ranged ctx_empty := by
  intro t
  constructor
  · show (2 : Nat) % 2 ^ 32 ≤ ctx_empty.ib_mask
    decide
  · intro _
    show ctx_empty.pb_base ≤ ((0x80000001 % 2 ^ 32) * 2 ^ 32 + 0x20000008 % 2 ^ 32) &&& 0xffffffffff ∧
      ((0x80000001 % 2 ^ 32) * 2 ^ 32 + 0x20000008 % 2 ^ 32) &&& 0xffffffffff
        ≤ ctx_empty.pb_base + ctx_empty.pb_mask
    decide

theorem or_eq_add_shl (x a k : Nat) (hx : x < 2 ^ k) : x ||| a <<< k = x + a * 2 ^ k := by
  rw [Nat.or_comm, shl_or_disjoint a x k hx, Nat.add_comm]

theorem toU32_small (i : Int) (h0 : 0 ≤ i) (h : i < 2 ^ 32) : toU32 i = i.toNat := by
  unfold toU32
  omega

/-- The nv50 header as a sum of its fields. -/
theorem nv50_word_eq (m c l : Nat) (hm : m < 2 ^ 13) (hc : c < 8) (hl : l < 2 ^ 11) :
    m ||| (c <<< 13) % 2 ^ 32 ||| (l <<< 18) % 2 ^ 32 = m + c * 2 ^ 13 + l * 2 ^ 18 := by
  have e1 : (c <<< 13) % 2 ^ 32 = c <<< 13 := by rw [Nat.shiftLeft_eq]; omega
  have e2 : (l <<< 18) % 2 ^ 32 = l <<< 18 := by rw [Nat.shiftLeft_eq]; omega
  rw [e1, e2, or_eq_add_shl m c 13 hm, or_eq_add_shl _ l 18 (by omega)]

/-- The nvc0 header with tag `t` in bits 29 and up, as a sum of its fields. -/
theorem nvc0_word_eq (t l c q : Nat) (hl : l < 2 ^ 13) (hc : c < 8) (hq : q < 2 ^ 13) :
    (t <<< 29) ||| (l <<< 16) % 2 ^ 32 ||| (c <<< 13) % 2 ^ 32 ||| q
      = ((t * 2 ^ 13 + l) * 8 + c) * 2 ^ 13 + q := by
  have e1 : (l <<< 16) % 2 ^ 32 = l <<< 16 := by rw [Nat.shiftLeft_eq]; omega
  have e2 : (c <<< 13) % 2 ^ 32 = c <<< 13 := by rw [Nat.shiftLeft_eq]; omega
  have e3 : t <<< 29 = (t <<< 13) <<< 16 := by rw [← Nat.shiftLeft_add]
  have e4 : t <<< 13 ||| l = t * 2 ^ 13 + l := shl_or_disjoint t l 13 hl
  have e5 : (t * 2 ^ 13 + l) <<< 16 = ((t * 2 ^ 13 + l) <<< 3) <<< 13 := by
    rw [← Nat.shiftLeft_add]
  have e6 : (t * 2 ^ 13 + l) <<< 3 ||| c = (t * 2 ^ 13 + l) * 8 + c :=
    shl_or_disjoint _ c 3 (by omega)
  rw [e1, e2, e3, shl_or_shl, e4, e5, shl_or_shl, e6, shl_or_disjoint _ q 13 hq]

/-- With room in the push buffer, a call of `__gdev_out_ring` returns and
its word is found at the old `pb_pos`. -/
theorem out_ring_emitted (hw : Hw) (fuel : Nat) (s : gdev_ctx) (word : Nat)
    (hroom : pb_full s = false) (hword : word < 2 ^ 32) :
    (__gdev_out_ring hw fuel s word).returned = true ∧
      emitted (__gdev_out_ring hw fuel s word) s = word := by
  rw [out_ring_of_room hw fuel s word hroom]
  refine ⟨rfl, ?_⟩
  show (s.pb_map.store (s.pb_pos / 4) (word % 2 ^ 32)) (s.pb_pos / 4) = word
  rw [Mem.store_same, Nat.mod_eq_of_lt hword]

/-- The words of the two nv50 headers for in-range fields. -/
theorem begin_ring_nv50_emitted (hw : Hw) (fuel : Nat) (s : gdev_ctx) (c m l : Nat)
    (hroom : pb_full s = false) (hm : m < 2 ^ 13) (hc : c < 8) (hl : l < 2 ^ 11) :
    ((__gdev_begin_ring_nv50 hw fuel s c m l).returned = true ∧
      emitted (__gdev_begin_ring_nv50 hw fuel s c m l) s = m + c * 2 ^ 13 + l * 2 ^ 18) ∧
    ((__gdev_begin_ring_nv50_const hw fuel s c m l).returned = true ∧
      emitted (__gdev_begin_ring_nv50_const hw fuel s c m l) s
        = m + c * 2 ^ 13 + l * 2 ^ 18 + 2 ^ 30) := by
  have em : toU32 (m : Int) = m := by rw [toU32_small _ (by omega) (by omega)]; rfl
  have ec : toU32 (c : Int) = c := by rw [toU32_small _ (by omega) (by omega)]; rfl
  have el : toU32 (l : Int) = l := by rw [toU32_small _ (by omega) (by omega)]; rfl
  have e4 : (0x4 <<< 28 : Nat) = 1 <<< 30 := by decide
  unfold __gdev_begin_ring_nv50 __gdev_begin_ring_nv50_const
  rw [em, ec, el, nv50_word_eq m c l hm hc hl, e4,
    or_eq_add_shl _ 1 30 (by omega), Nat.one_mul]
  exact ⟨out_ring_emitted hw fuel s _ hroom (by omega),
    out_ring_emitted hw fuel s _ hroom (by omega)⟩

/-- The words of the two nvc0 headers for in-range fields. -/
theorem begin_ring_nvc0_emitted (hw : Hw) (fuel : Nat) (s : gdev_ctx) (c m l : Nat)
    (hroom : pb_full s = false) (hm : m < 2 ^ 15) (hc : c < 8) (hl : l < 2 ^ 13) :
    ((__gdev_begin_ring_nvc0 hw fuel s c m l).returned = true ∧
      emitted (__gdev_begin_ring_nvc0 hw fuel s c m l) s
        = ((1 * 2 ^ 13 + l) * 8 + c) * 2 ^ 13 + m / 4) ∧
    ((__gdev_begin_ring_nvc0_const hw fuel s c m l).returned = true ∧
      emitted (__gdev_begin_ring_nvc0_const hw fuel s c m l) s
        = ((3 * 2 ^ 13 + l) * 8 + c) * 2 ^ 13 + m / 4) := by
  have hsh : ((m : Int) >>> 2) = ((m >>> 2 : Nat) : Int) := rfl
  have em : toU32 ((m : Int) >>> 2) = m / 4 := by
    rw [hsh, toU32_small _ (by omega) (by rw [Nat.shiftRight_eq_div_pow]; omega),
      Nat.shiftRight_eq_div_pow]
    rfl
  have ec : toU32 (c : Int) = c := by rw [toU32_small _ (by omega) (by omega)]; rfl
  have el : toU32 (l : Int) = l := by rw [toU32_small _ (by omega) (by omega)]; rfl
  have e2 : (0x2 <<< 28 : Nat) = 1 <<< 29 := by decide
  have e6 : (0x6 <<< 28 : Nat) = 3 <<< 29 := by decide
  unfold __gdev_begin_ring_nvc0 __gdev_begin_ring_nvc0_const
  rw [em, ec, el, e2, e6, nvc0_word_eq 1 l c (m / 4) hl hc (by omega),
    nvc0_word_eq 3 l c (m / 4) hl hc (by omega)]
  exact ⟨out_ring_emitted hw fuel s _ hroom (by omega),
    out_ring_emitted hw fuel s _ hroom (by omega)⟩

theorem and_1fff (x : Nat) : x &&& 0x1fff = x % 2 ^ 13 := by
  have : (0x1fff : Nat) = 2 ^ 13 - 1 := by norm_num
  rw [this, Nat.and_pow_two_sub_one_eq_mod]

theorem and_7ff (x : Nat) : x &&& 0x7ff = x % 2 ^ 11 := by
  have : (0x7ff : Nat) = 2 ^ 11 - 1 := by norm_num
  rw [this, Nat.and_pow_two_sub_one_eq_mod]

theorem and_7 (x : Nat) : x &&& 7 = x % 2 ^ 3 := by
  have : (7 : Nat) = 2 ^ 3 - 1 := by norm_num
  rw [this, Nat.and_pow_two_sub_one_eq_mod]

theorem testBit29_eq_false (x : Nat) (h : x / 2 ^ 29 % 2 = 0) : x.testBit 29 = false := by
  rw [Nat.testBit_to_div_mod, decide_eq_false_iff_not]
  omega

theorem testBit29_eq_true (x : Nat) (h : x / 2 ^ 29 % 2 = 1) : x.testBit 29 = true := by
  rw [Nat.testBit_to_div_mod, decide_eq_true_eq]
  exact h

theorem or_mod_two_pow_eq (a b n : Nat) : (a ||| b) % 2 ^ n = a % 2 ^ n ||| b % 2 ^ n := by
  apply Nat.eq_of_testBit_eq
  intro i
  simp only [Nat.testBit_mod_two_pow, Nat.testBit_or]
  cases decide (i < n) <;> simp

/-- The descriptor word does not tell flags from length bits. -/
theorem ib_word_flags_alias (base len : Nat) (flags : Int) (hf : 0 ≤ flags) :
    ib_word base len flags = ib_word base (len ||| flags.toNat) 0 := by
  have e0 : (toU64 0 <<< 40) % 2 ^ 64 = 0 := by decide
  have e1 : (toU64 flags <<< 40) % 2 ^ 64 = (flags.toNat <<< 40) % 2 ^ 64 := by
    unfold toU64
    simp only [Nat.shiftLeft_eq]
    omega
  unfold ib_word
  rw [e0, e1, ← shl_or_shl, or_mod_two_pow_eq, Nat.or_assoc]
  simp

theorem ib_write_congr (s : gdev_ctx) (b1 l1 : Nat) (f1 : Int) (b2 l2 : Nat) (f2 : Int)
    (h : ib_word b1 l1 f1 = ib_word b2 l2 f2) :
    { ib_write s b1 l1 f1 with pushed := [] } = { ib_write s b2 l2 f2 with pushed := [] } := by
  unfold ib_write
  simp only [h]

theorem ib_write_map_congr (s : gdev_ctx) (b1 l1 : Nat) (f1 : Int) (b2 l2 : Nat) (f2 : Int)
    (h : ib_word b1 l1 f1 = ib_word b2 l2 f2) :
    (ib_write s b1 l1 f1).ib_map = (ib_write s b2 l2 f2).ib_map := by
  unfold ib_write
  simp only [h]

/-- A `__gdev_fire_ring` that is still waiting has pushed a proper prefix of
`fire_list`. -/
theorem fire_ring_spinning (hw : Hw) (fuel : Nat) (s s' : gdev_ctx)
    (h : __gdev_fire_ring hw fuel s = .spinning s') :
    ∃ ds, push_frame s s' ds ∧ ds <+: fire_list s := by
  unfold __gdev_fire_ring at h
  unfold fire_list
  by_cases hne : s.pb_pos ≠ s.pb_put
  · rw [if_pos hne] at h
    rw [if_pos hne]
    by_cases hgt : s.pb_pos > s.pb_put
    · rw [if_pos hgt] at h
      rw [if_pos hgt]
      dsimp only at h
      cases h1 : __gdev_push_fifo hw fuel s ((s.pb_base + s.pb_put) % 2 ^ 64)
          ((s.pb_pos + (2 ^ 32 - s.pb_put % 2 ^ 32)) % 2 ^ 32) 0 with
      | done s1 =>
        rw [h1] at h
        simp [Outcome.andThen] at h
      | spinning s1 =>
        rw [h1] at h
        simp only [Outcome.andThen, Outcome.spinning.injEq] at h
        subst h
        exact ⟨[], push_fifo_spinning_frame hw fuel s s1 _ _ _ h1, List.nil_prefix⟩
    · rw [if_neg hgt] at h
      rw [if_neg hgt]
      dsimp only at h
      cases h1 : __gdev_push_fifo hw fuel s ((s.pb_base + s.pb_put) % 2 ^ 64)
          ((s.pb_size + (2 ^ 32 - s.pb_put % 2 ^ 32)) % 2 ^ 32) 0 with
      | done s1 =>
        rw [h1] at h
        have hf := push_fifo_done_frame hw fuel s s1 _ _ _ h1
        have hpos : s1.pb_pos = s.pb_pos := by rw [hf]
        have hbase : s1.pb_base = s.pb_base := by rw [hf]
        simp only [Outcome.andThen] at h
        by_cases hz : s.pb_pos ≠ 0
        · rw [hpos, hbase, if_pos hz] at h
          rw [if_pos hz]
          cases h2 : __gdev_push_fifo hw fuel s1 s.pb_base s.pb_pos 0 with
          | done s2 =>
            rw [h2] at h
            simp at h
          | spinning s2 =>
            rw [h2] at h
            simp only [Outcome.spinning.injEq] at h
            subst h
            have hf2 := push_fifo_spinning_frame hw fuel s1 s2 _ _ _ h2
            have := push_frame_trans hf hf2
            rw [List.append_nil] at this
            exact ⟨_, this, ⟨_, rfl⟩⟩
        · rw [hpos, if_neg hz] at h
          simp at h
      | spinning s1 =>
        rw [h1] at h
        simp only [Outcome.andThen, Outcome.spinning.injEq] at h
        subst h
        exact ⟨[], push_fifo_spinning_frame hw fuel s s1 _ _ _ h1, List.nil_prefix⟩
  · rw [if_neg hne] at h
    cases h

/-- Whatever its outcome, `__gdev_fire_ring` has pushed a prefix of
`fire_list`, and all of it when it has returned. -/
theorem fire_ring_pushed (hw : Hw) (fuel : Nat) (s : gdev_ctx) :
    ∃ ds, (__gdev_fire_ring hw fuel s).state.pushed = s.pushed ++ ds ∧ ds <+: fire_list s ∧
      ((__gdev_fire_ring hw fuel s).returned = true → ds = fire_list s) := by
  cases h : __gdev_fire_ring hw fuel s with
  | done s' =>
    obtain ⟨s2, hf, rfl⟩ := fire_ring_done hw fuel s s' h
    refine ⟨fire_list s, ?_, List.prefix_refl _, fun _ => rfl⟩
    show s2.pushed = _
    rw [hf]
  | spinning s' =>
    obtain ⟨ds, hf, hpre⟩ := fire_ring_spinning hw fuel s s' h
    refine ⟨ds, ?_, hpre, fun hr => by simp [Outcome.returned] at hr⟩
    show s'.pushed = _
    rw [hf]

theorem fire_list_length_le (s : gdev_ctx) : (fire_list s).length ≤ 2 := by
  unfold fire_list
  split
  · split
    · simp
    · split <;> simp
  · simp

/-- The descriptors of `fire_list` are well-formed spans of the push buffer. -/
theorem fire_list_well_formed (s : gdev_ctx) (b : Nat) (hpow : s.pb_size = 2 ^ b) (hb : 2 ≤ b)
    (hb31 : b ≤ 31) (hput : s.pb_put < s.pb_size) (hpos : s.pb_pos < s.pb_size)
    (hput4 : s.pb_put % 4 = 0) (hpos4 : s.pb_pos % 4 = 0)
    (h40 : s.pb_base + s.pb_size ≤ 2 ^ 40) :
    ∀ d ∈ fire_list s, s.pb_base ≤ d.base ∧ d.base + d.len ≤ s.pb_base + s.pb_size ∧
      0 < d.len ∧ d.len % 4 = 0 ∧ d.flags = 0 := by
  have hp32 : (2 : Nat) ^ b ≤ 2 ^ 31 := Nat.pow_le_pow_right (by norm_num) hb31
  have h32 : s.pb_size < 2 ^ 32 := by omega
  obtain ⟨c, hc⟩ := four_dvd_two_pow b hb
  rw [← hpow] at hc
  have eb : (s.pb_base + s.pb_put) % 2 ^ 64 = s.pb_base + s.pb_put :=
    Nat.mod_eq_of_lt (by omega)
  intro d hd
  by_cases heq : s.pb_pos = s.pb_put
  · have : fire_list s = [] := by
      unfold fire_list
      rw [if_neg (by simpa using heq)]
    rw [this] at hd
    simp at hd
  · by_cases hlt : s.pb_put < s.pb_pos
    · rw [fire_list_forward s (by omega) hlt, eb, List.mem_singleton] at hd
      subst hd
      dsimp only
      refine ⟨by omega, by omega, by omega, by omega, rfl⟩
    · have hgt : s.pb_pos < s.pb_put := by omega
      rw [fire_list_wrap s h32 hput hgt, eb, List.mem_cons] at hd
      rcases hd with hd | hd
      · subst hd
        dsimp only
        refine ⟨by omega, by omega, by omega, by omega, rfl⟩
      · by_cases hz : s.pb_pos ≠ 0
        · rw [if_pos hz, List.mem_singleton] at hd
          subst hd
          dsimp only
          refine ⟨by omega, by omega, by omega, by omega, rfl⟩
        · rw [if_neg hz] at hd
          simp at hd

theorem fire_list_length (s : gdev_ctx) :
    (s.pb_put = s.pb_pos → (fire_list s).length = 0) ∧
    (s.pb_put ≠ s.pb_pos → (s.pb_put < s.pb_pos ∨ s.pb_pos = 0) → (fire_list s).length = 1) ∧
    (s.pb_pos < s.pb_put → s.pb_pos ≠ 0 → (fire_list s).length = 2) := by
  unfold fire_list
  refine ⟨?_, ?_, ?_⟩
  · intro h
    rw [if_neg (by simpa using h.symm)]
    rfl
  · intro hne hor
    rw [if_pos (Ne.symm hne)]
    by_cases hgt : s.pb_pos > s.pb_put
    · rw [if_pos hgt]; rfl
    · rw [if_neg hgt]
      have hz : s.pb_pos = 0 := by
        rcases hor with h | h
        · exact absurd h hgt
        · exact h
      rw [if_neg (by simpa using hz)]
      rfl
  · intro hlt hz
    rw [if_pos (by omega), if_neg (by omega), if_pos hz]
    rfl

theorem pb_refresh_frame (hw : Hw) (s : gdev_ctx) : get_frame s (pb_refresh hw s) := by
  have hu := update_get_frame hw s
  unfold pb_refresh
  split
  · constructor
    · rw [hu]; rfl
    · rw [hu]; show s.reads ≤ s.reads + 2; omega
  · constructor
    · rw [hu]
    · rw [hu]; show s.reads ≤ s.reads + 2; omega

theorem get_frame_idle {s s' : gdev_ctx} (h : get_frame s s') (hi : s.pb_pos = s.pb_put) :
    s'.pb_pos = s'.pb_put := by
  obtain ⟨e, -⟩ := h
  rw [e]
  exact hi

theorem pb_refresh_iterate_frame (hw : Hw) (k : Nat) :
    ∀ s : gdev_ctx, get_frame s ((pb_refresh hw)^[k] s) := by
  induction k with
  | zero => intro s; exact get_frame_refl s
  | succ k ih =>
    intro s
    rw [Function.iterate_succ_apply]
    exact get_frame_trans (pb_refresh_frame hw s) (ih _)

theorem pb_wait_body_refresh (hw : Hw) (fuel : Nat) (s : gdev_ctx) (h : s.pb_pos = s.pb_put) :
    pb_wait_body hw fuel s = .done (pb_refresh hw s) := by
  rw [pb_wait_body_done hw fuel s s (fire_ring_idle hw fuel s h)]
  rfl

/-- With nothing pending, the wait loop of `__gdev_out_ring` runs the refresh
for as long as the buffer is treated as full. -/
theorem pb_wait_iterate (hw : Hw) (fuel : Nat) (k : Nat) :
    ∀ (s : gdev_ctx) (n : Nat), s.pb_pos = s.pb_put →
      (∀ j, j < k → pb_full ((pb_refresh hw)^[j] s) = true) →
      pb_wait hw fuel (k + n) s = pb_wait hw fuel n ((pb_refresh hw)^[k] s) := by
  induction k with
  | zero =>
    intro s n _ _
    simp
  | succ k ih =>
    intro s n hi hfull
    have h0 : pb_full s = true := hfull 0 (by omega)
    have e : k + 1 + n = (k + n) + 1 := by omega
    rw [e, pb_wait, if_pos h0, pb_wait_body_refresh hw fuel s hi]
    simp only [Outcome.andThen]
    rw [ih (pb_refresh hw s) n (get_frame_idle (pb_refresh_frame hw s) hi)
      (fun j hj => by
        have := hfull (j + 1) (by omega)
        rw [Function.iterate_succ_apply] at this
        exact this), Function.iterate_succ_apply]

/-- Whatever its outcome, the wait loop of `__gdev_out_ring` has pushed a
prefix of the `fire_list` of its first iteration. -/
theorem pb_wait_pushed (hw : Hw) (fuel n : Nat) (s : gdev_ctx) :
    ∃ ds, (pb_wait hw fuel n s).state.pushed = s.pushed ++ ds ∧ ds <+: fire_list s := by
  cases n with
  | zero =>
    refine ⟨[], ?_, List.nil_prefix⟩
    unfold pb_wait
    split <;> simp [Outcome.state]
  | succ n =>
    unfold pb_wait
    split
    · cases hf : __gdev_fire_ring hw fuel s with
      | done sf =>
        rw [pb_wait_body_done hw fuel s sf hf]
        simp only [Outcome.andThen]
        obtain ⟨s2, hpf, hsf⟩ := fire_ring_done hw fuel s sf hf
        have hsf_pushed : sf.pushed = s.pushed ++ fire_list s := by
          rw [hsf]
          show s2.pushed = _
          rw [hpf]
        obtain ⟨hpos, -, -, -, -, -, hput⟩ := fire_ring_done_pb hw fuel s sf hf
        have hu := update_get_frame hw sf
        have hfr1 : get_frame sf (if s.pb_get = (__gdev_update_get hw sf).pb_get
            then __gdev_relax_fifo (__gdev_update_get hw sf) else __gdev_update_get hw sf) := by
          split
          · constructor
            · rw [hu]; rfl
            · rw [hu]; show sf.reads ≤ sf.reads + 2; omega
          · constructor
            · rw [hu]
            · rw [hu]; show sf.reads ≤ sf.reads + 2; omega
        have hidle := get_frame_idle hfr1 (by rw [hpos, hput])
        have hfr2 := get_frame_trans hfr1 (pb_wait_idle hw fuel n _ hidle)
        refine ⟨fire_list s, ?_, List.prefix_refl _⟩
        rw [hfr2.1]
        exact hsf_pushed
      | spinning sf =>
        obtain ⟨ds, hpf, hpre⟩ := fire_ring_spinning hw fuel s sf hf
        refine ⟨ds, ?_, hpre⟩
        unfold pb_wait_body
        rw [hf]
        show sf.pushed = _
        rw [hpf]
    · exact ⟨[], by simp [Outcome.state], List.nil_prefix⟩

theorem out_ring_pushed (hw : Hw) (fuel : Nat) (s : gdev_ctx) (word : Nat) :
    (__gdev_out_ring hw fuel s word).state.pushed = (pb_wait hw fuel fuel s).state.pushed := by
  unfold __gdev_out_ring
  cases pb_wait hw fuel fuel s with
  | done s1 => rfl
  | spinning s1 => rfl

theorem andThen_done_id (o : Outcome) : (o.andThen fun s => .done s) = o := by
  cases o <;> rfl

/-- `__gdev_fire_ring` is the sequence of pushes of `fire_list` followed by
`pb_put = pb_pos`. -/
theorem fire_ring_push_all (hw : Hw) (fuel : Nat) (s : gdev_ctx) :
    __gdev_fire_ring hw fuel s
      = if s.pb_pos ≠ s.pb_put then
          (push_all hw fuel s (fire_list s)).andThen fun s2 =>
            .done { s2 with pb_put := s2.pb_pos }
        else .done s := by
  unfold __gdev_fire_ring fire_list
  by_cases hne : s.pb_pos ≠ s.pb_put
  · rw [if_pos hne, if_pos hne, if_pos hne]
    by_cases hgt : s.pb_pos > s.pb_put
    · rw [if_pos hgt, if_pos hgt]
      dsimp only
      simp only [push_all, andThen_done_id]
    · rw [if_neg hgt, if_neg hgt]
      dsimp only
      simp only [push_all]
      cases h1 : __gdev_push_fifo hw fuel s ((s.pb_base + s.pb_put) % 2 ^ 64)
          ((s.pb_size + (2 ^ 32 - s.pb_put % 2 ^ 32)) % 2 ^ 32) 0 with
      | done s1 =>
        have hf := push_fifo_done_frame hw fuel s s1 _ _ _ h1
        have hpos : s1.pb_pos = s.pb_pos := by rw [hf]
        have hbase : s1.pb_base = s.pb_base := by rw [hf]
        simp only [Outcome.andThen, hpos, hbase]
        by_cases hz : s.pb_pos ≠ 0
        · rw [if_pos hz, if_pos hz]
          simp only [push_all, andThen_done_id]
        · rw [if_neg hz, if_neg hz]
          simp only [push_all]
      | spinning s1 => rfl
  · rw [if_neg hne, if_neg hne]

/-- Pushes of at most as many descriptors as the ring has free slots never
wait; they fill the slots from the old `ib_put` on. -/
theorem push_all_free (hw : Hw) (fuel a : Nat) (s : gdev_ctx) (ds : List Desc)
    (h : ib_ring a s) (hfree : ds.length ≤ ib_free s) :
    ∃ s', push_all hw fuel s ds = .done s' ∧
      s' = { s with ib_map := s'.ib_map, ib_put := s'.ib_put, regs := s'.regs,
                    pushed := s.pushed ++ ds } ∧
      s'.ib_put = (s.ib_put + ds.length) &&& s.ib_mask ∧
      (∀ i (hi : i < ds.length),
        s'.ib_map (2 * ((s.ib_put + i) &&& s.ib_mask)) = (ds.get ⟨i, hi⟩).lo ∧
        s'.ib_map (2 * ((s.ib_put + i) &&& s.ib_mask) + 1) = (ds.get ⟨i, hi⟩).hi) ∧
      (ds ≠ [] → s'.regs (0x8c / 4) = s'.ib_put) := by
  obtain ⟨ha, hm, hp, hg⟩ := h
  unfold ib_free at hfree
  rw [ring_free_cases _ _ _ hp hg] at hfree
  have key : ∃ j, s.ib_put = (s.ib_get + j) % (s.ib_mask + 1) ∧ j + ds.length ≤ s.ib_mask := by
    by_cases hlt : s.ib_put < s.ib_get
    · rw [if_pos hlt] at hfree
      refine ⟨s.ib_put + (s.ib_mask + 1) - s.ib_get, ?_, by omega⟩
      have e : s.ib_get + (s.ib_put + (s.ib_mask + 1) - s.ib_get) = s.ib_put + (s.ib_mask + 1) := by
        omega
      rw [e, Nat.add_mod_right, Nat.mod_eq_of_lt (by omega)]
    · rw [if_neg hlt] at hfree
      refine ⟨s.ib_put - s.ib_get, ?_, by omega⟩
      have e : s.ib_get + (s.ib_put - s.ib_get) = s.ib_put := by omega
      rw [e, Nat.mod_eq_of_lt (by omega)]
  obtain ⟨j, hj, hlen⟩ := key
  obtain ⟨s', hdone, hfr, hp', hslots, -, -, hregs⟩ :=
    push_all_spec hw fuel a ds s j hm ha hg hj hlen
  have hidx : ∀ i, (s.ib_get + j + i) % (s.ib_mask + 1) = (s.ib_put + i) &&& s.ib_mask := by
    intro i
    rw [mask_eq_mod _ _ a hm, hj, Nat.mod_add_mod]
  refine ⟨s', hdone, hfr, ?_, ?_, hregs⟩
  · rw [hp', hidx]
  · intro i hi
    have := hslots i hi
    rw [hidx] at this
    exact this

/-- The two ring words of a descriptor in range decode to the descriptor. -/
theorem decode_lo_hi (d : Desc) (hbase : d.base < 2 ^ 40) (hlen : d.len < 2 ^ 24)
    (hal : d.len % 4 = 0) (hf : d.flags = 0) : Desc.decode d.lo d.hi = d := by
  obtain ⟨base, len, flags⟩ := d
  dsimp only at hbase hlen hal hf
  subst hf
  have hlo : (⟨base, len, 0⟩ : Desc).lo = ib_word base len 0 % 2 ^ 32 :=
    (ib_word_lo base len 0).symm
  have hhi : (⟨base, len, 0⟩ : Desc).hi = (ib_word base len 0 >>> 32) % 2 ^ 32 :=
    (ib_word_hi base len 0).symm
  have hw := ib_word_small base len 0 hbase hlen hal (by omega) (by omega)
  have hff : (0xff : Nat) = 2 ^ 8 - 1 := by norm_num
  have h3 : (3 : Nat) = 2 ^ 2 - 1 := by norm_num
  unfold Desc.decode
  rw [hlo, hhi, hw, hff, h3, Nat.and_pow_two_sub_one_eq_mod, Nat.and_pow_two_sub_one_eq_mod,
    and_clear_low2 _ (by rw [Nat.shiftRight_eq_div_pow]; omega)]
  simp only [Nat.shiftRight_eq_div_pow, Desc.mk.injEq]
  refine ⟨by omega, by omega, by omega⟩

theorem fire_list_len_lt (s : gdev_ctx) (h32 : s.pb_size < 2 ^ 32) (hput : s.pb_put < s.pb_size)
    (hpos : s.pb_pos < s.pb_size) : ∀ d ∈ fire_list s, d.len < s.pb_size := by
  intro d hd
  by_cases heq : s.pb_pos = s.pb_put
  · have : fire_list s = [] := by
      unfold fire_list
      rw [if_neg (by simpa using heq)]
    rw [this] at hd
    simp at hd
  · by_cases hlt : s.pb_put < s.pb_pos
    · rw [fire_list_forward s (by omega) hlt, List.mem_singleton] at hd
      subst hd
      dsimp only
      omega
    · have hgt : s.pb_pos < s.pb_put := by omega
      rw [fire_list_wrap s h32 hput hgt, List.mem_cons] at hd
      rcases hd with hd | hd
      · subst hd
        dsimp only
        omega
      · by_cases hz : s.pb_pos ≠ 0
        · rw [if_pos hz, List.mem_singleton] at hd
          subst hd
          exact hpos
        · rw [if_neg hz] at hd
          simp at hd

theorem map_range_eq_map {α : Type} (ds : List Desc) (D : Nat → Desc) (g : Desc → α)
    (h : ∀ i (hi : i < ds.length), D i = ds.get ⟨i, hi⟩) :
    (List.range ds.length).map (fun i => g (D i)) = ds.map g := by
  apply List.ext_getElem
  · simp
  · intro i h1 h2
    have hi : i < ds.length := by simpa using h2
    simp only [List.getElem_map, List.getElem_range]
    rw [h i hi]
    rfl

theorem update_get_eq_readback (hw : Hw) (s : gdev_ctx) :
    __gdev_update_get hw s
      = { s with pb_get := pb_get_readback hw s.reads s.pb_base, reads := s.reads + 2 } := by
  have hv : (__gdev_update_get hw s).pb_get = pb_get_readback hw s.reads s.pb_base := by
    unfold pb_get_readback
    cases hbit : (hw (s.reads + 1) (0x5c / 4) % 2 ^ 32).testBit 31
    · rw [update_get_clear hw s hbit]
      rfl
    · rw [update_get_set hw s hbit]
      rfl
  rw [update_get_frame hw s, hv]

theorem pb_refresh_stale (hw : Hw) (x : gdev_ctx) (hget : x.pb_get = 0)
    (hr : pb_get_readback hw x.reads x.pb_base = 0) :
    pb_refresh hw x = { x with reads := x.reads + 2, yields := x.yields + 1 } := by
  unfold pb_refresh
  rw [update_get_eq_readback hw x, hr]
  dsimp only
  rw [if_pos hget]
  unfold __gdev_relax_fifo
  dsimp only
  cases x
  simp_all

theorem pb_refresh_fresh (hw : Hw) (x : gdev_ctx) (hget : x.pb_get = 0)
    (hr : pb_get_readback hw x.reads x.pb_base ≠ 0) :
    pb_refresh hw x
      = { x with pb_get := pb_get_readback hw x.reads x.pb_base, reads := x.reads + 2 } := by
  unfold pb_refresh
  rw [update_get_eq_readback hw x]
  dsimp only
  rw [if_neg (by rw [hget]; exact Ne.symm hr)]

/-- While the get pair reads back as 0 and the cached `pb_get` is 0, the
refreshes only count reads and yields. -/
theorem pb_refresh_iterate_stale (hw : Hw) (j : Nat) :
    ∀ x : gdev_ctx, x.pb_get = 0 →
      (∀ i, i < j → pb_get_readback hw (x.reads + 2 * i) x.pb_base = 0) →
      (pb_refresh hw)^[j] x = { x with reads := x.reads + 2 * j, yields := x.yields + j } := by
  induction j with
  | zero =>
    intro x _ _
    rfl
  | succ j ih =>
    intro x hget hz
    have h0 := hz 0 (by omega)
    rw [Nat.mul_zero, Nat.add_zero] at h0
    rw [Function.iterate_succ_apply, pb_refresh_stale hw x hget h0,
      ih { x with reads := x.reads + 2, yields := x.yields + 1 } hget
        (fun i hi => by
          have := hz (i + 1) (by omega)
          have e : x.reads + 2 * (i + 1) = x.reads + 2 + 2 * i := by omega
          rw [e] at this
          exact this)]
    have e1 : x.reads + 2 + 2 * j = x.reads + 2 * (j + 1) := by omega
    have e2 : x.yields + 1 + j = x.yields + (j + 1) := by omega
    simp only [e1, e2]

/-- The wait loop of `__gdev_out_ring` on an idle full push buffer whose
cached `pb_get` is 0 and equals `(pb_pos + 4) & pb_mask`: it spins while the get
pair reads back as 0 and is left at the first other readback. -/
theorem pb_wait_idle_exact (hw : Hw) (fuel : Nat) (x : gdev_ctx) (hidle : x.pb_pos = x.pb_put)
    (hfull : pb_full x = true) (hget : x.pb_get = 0) (k : Nat)
    (hz : ∀ j, j < k → pb_get_readback hw (x.reads + 2 * j) x.pb_base = 0) :
    (∀ n, n ≤ k →
      pb_wait hw fuel n x = .spinning { x with reads := x.reads + 2 * n, yields := x.yields + n }) ∧
    (pb_get_readback hw (x.reads + 2 * k) x.pb_base ≠ 0 → ∀ n, k < n →
      pb_wait hw fuel n x
        = .done { x with
            pb_get := pb_get_readback hw (x.reads + 2 * k) x.pb_base
            reads := x.reads + 2 * (k + 1)
            yields := x.yields + k }) := by
  have hstale : ∀ j, j ≤ k →
      (pb_refresh hw)^[j] x = { x with reads := x.reads + 2 * j, yields := x.yields + j } :=
    fun j hj => pb_refresh_iterate_stale hw j x hget (fun i hi => hz i (by omega))
  have hfulls : ∀ j, j ≤ k → pb_full ((pb_refresh hw)^[j] x) = true := by
    intro j hj
    rw [hstale j hj]
    exact hfull
  constructor
  · intro n hn
    have h := pb_wait_iterate hw fuel n x 0 hidle (fun j hj => hfulls j (by omega))
    rw [Nat.add_zero] at h
    rw [h, hstale n hn, pb_wait, if_pos (by exact hfull)]
  · intro hr n hn
    obtain ⟨m, rfl⟩ : ∃ m, n = (k + 1) + m := ⟨n - (k + 1), by omega⟩
    have h := pb_wait_iterate hw fuel (k + 1) x m hidle (fun j hj => hfulls j (by omega))
    have hlast : (pb_refresh hw)^[k + 1] x
        = { x with
            pb_get := pb_get_readback hw (x.reads + 2 * k) x.pb_base
            reads := x.reads + 2 * (k + 1)
            yields := x.yields + k } := by
      rw [Function.iterate_succ_apply', hstale k (Nat.le_refl k)]
      exact pb_refresh_fresh hw { x with reads := x.reads + 2 * k, yields := x.yields + k }
        hget hr
    have hroom : pb_full ((pb_refresh hw)^[k + 1] x) = false := by
      rw [hlast, Bool.eq_false_iff]
      intro hc
      unfold pb_full at hc hfull
      rw [beq_iff_eq] at hc hfull
      dsimp only at hc
      rw [hfull, hget] at hc
      exact hr hc.symm
    rw [h, pb_wait_of_room _ _ _ _ hroom, hlast]

/-- The call of `__gdev_out_ring` on a push buffer filled up to its last
word, readback by readback: the pending span is pushed once, then the call
waits while the get pair reads back as 0 and writes its word after the first
other readback. -/
theorem out_ring_filled_exact (hw : Hw) (a : Nat) (s : gdev_ctx) (word : Nat)
    (hpow : s.pb_mask + 1 = 2 ^ a) (hsz : s.pb_size = s.pb_mask + 1) (h32 : s.pb_size < 2 ^ 32)
    (hpos : s.pb_pos + 4 = s.pb_size) (hput : s.pb_put = 0) (hget : s.pb_get = 0)
    (h8 : 8 ≤ s.pb_size) (hbase : s.pb_base < 2 ^ 64) (hib : ib_full s = false)
    (hibm : s.ib_mask < 2 ^ 32) (hput31 : s.ib_put < 2 ^ 31) (hword : word < 2 ^ 32) :
    __gdev_out_ring hw 0 s word = .spinning s ∧
    ∀ k, (∀ j, j < k → pb_get_readback hw (s.reads + 2 * j) s.pb_base = 0) →
      (∀ n, n < k →
        __gdev_out_ring hw (n + 1) s word
          = .spinning { s with
              ib_map := (s.ib_map.store (2 * s.ib_put)
                (Desc.lo ⟨s.pb_base, s.pb_size - 4, 0⟩)).store
                (2 * s.ib_put + 1) (Desc.hi ⟨s.pb_base, s.pb_size - 4, 0⟩)
              ib_put := (s.ib_put + 1) &&& s.ib_mask
              regs := s.regs.store (0x8c / 4) ((s.ib_put + 1) &&& s.ib_mask)
              pushed := s.pushed ++ [⟨s.pb_base, s.pb_size - 4, 0⟩]
              pb_put := s.pb_pos
              reads := s.reads + 2 * (n + 1)
              yields := s.yields + (n + 1) }) ∧
      (pb_get_readback hw (s.reads + 2 * k) s.pb_base ≠ 0 → ∀ n, k ≤ n →
        __gdev_out_ring hw (n + 1) s word
          = .done { s with
              ib_map := (s.ib_map.store (2 * s.ib_put)
                (Desc.lo ⟨s.pb_base, s.pb_size - 4, 0⟩)).store
                (2 * s.ib_put + 1) (Desc.hi ⟨s.pb_base, s.pb_size - 4, 0⟩)
              ib_put := (s.ib_put + 1) &&& s.ib_mask
              regs := s.regs.store (0x8c / 4) ((s.ib_put + 1) &&& s.ib_mask)
              pushed := s.pushed ++ [⟨s.pb_base, s.pb_size - 4, 0⟩]
              pb_put := s.pb_pos
              pb_get := pb_get_readback hw (s.reads + 2 * k) s.pb_base
              reads := s.reads + 2 * (k + 1)
              yields := s.yields + k
              pb_map := s.pb_map.store (s.pb_pos / 4) word
              pb_pos := 0 }) := by
  have hm32 : s.pb_mask < 2 ^ 32 := by omega
  have hwrap : (s.pb_pos + 4) &&& s.pb_mask = 0 := by
    rw [mask_eq_mod _ _ a hpow, hpos, hsz, Nat.mod_self]
  have hfull : pb_full s = true := by
    apply (pb_full_iff s hm32).2
    rw [hwrap, hget]
  constructor
  · rw [__gdev_out_ring, pb_wait, if_pos hfull]
    rfl
  have hfire : ∀ f, __gdev_fire_ring hw f s
      = .done { s with
          ib_map := (s.ib_map.store (2 * s.ib_put)
            (Desc.lo ⟨s.pb_base, s.pb_size - 4, 0⟩)).store
            (2 * s.ib_put + 1) (Desc.hi ⟨s.pb_base, s.pb_size - 4, 0⟩)
          ib_put := (s.ib_put + 1) &&& s.ib_mask
          regs := s.regs.store (0x8c / 4) ((s.ib_put + 1) &&& s.ib_mask)
          pushed := s.pushed ++ [⟨s.pb_base, s.pb_size - 4, 0⟩]
          pb_put := s.pb_pos } := by
    intro f
    have e : (s.pb_pos + (2 ^ 32 - s.pb_put % 2 ^ 32)) % 2 ^ 32 = s.pb_size - 4 := by omega
    have eb : (s.pb_base + s.pb_put) % 2 ^ 64 = s.pb_base := by
      rw [hput, Nat.add_zero, Nat.mod_eq_of_lt hbase]
    unfold __gdev_fire_ring
    rw [if_pos (by omega), if_pos (by omega)]
    dsimp only
    rw [e, eb, push_fifo_of_room hw _ s _ _ _ hib, ib_write_eq s _ _ _ hibm hput31]
    rfl
  generalize hF : ({ s with
      ib_map := (s.ib_map.store (2 * s.ib_put)
        (Desc.lo ⟨s.pb_base, s.pb_size - 4, 0⟩)).store
        (2 * s.ib_put + 1) (Desc.hi ⟨s.pb_base, s.pb_size - 4, 0⟩)
      ib_put := (s.ib_put + 1) &&& s.ib_mask
      regs := s.regs.store (0x8c / 4) ((s.ib_put + 1) &&& s.ib_mask)
      pushed := s.pushed ++ [⟨s.pb_base, s.pb_size - 4, 0⟩]
      pb_put := s.pb_pos } : gdev_ctx) = F at hfire
  have hF_idle : F.pb_pos = F.pb_put := by rw [← hF]
  have hF_get : F.pb_get = 0 := by rw [← hF]; exact hget
  have hF_full : pb_full F = true := by rw [← hF]; exact hfull
  have hF_reads : F.reads = s.reads := by rw [← hF]
  have hF_base : F.pb_base = s.pb_base := by rw [← hF]
  have hF_yields : F.yields = s.yields := by rw [← hF]
  have hF_geteq : s.pb_get = F.pb_get := by rw [← hF]
  have hloop : ∀ n, pb_wait hw (n + 1) (n + 1) s = pb_wait hw (n + 1) (n + 1) F := by
    intro n
    have hb : pb_wait_body hw (n + 1) s = .done (pb_refresh hw F) := by
      rw [pb_wait_body_done hw (n + 1) s F (hfire (n + 1)), hF_geteq]
      rfl
    rw [pb_wait, if_pos hfull, hb, pb_wait, if_pos hF_full,
      pb_wait_body_refresh hw (n + 1) F hF_idle]
  intro k hz
  constructor
  · intro n hn
    obtain ⟨hspin, -⟩ := pb_wait_idle_exact hw (n + 1) F hF_idle hF_full hF_get k
      (fun j hj => by rw [hF_reads, hF_base]; exact hz j hj)
    rw [__gdev_out_ring, hloop n, hspin (n + 1) (by omega), ← hF]
    rfl
  · intro hr n hn
    obtain ⟨-, hdone⟩ := pb_wait_idle_exact hw (n + 1) F hF_idle hF_full hF_get k
      (fun j hj => by rw [hF_reads, hF_base]; exact hz j hj)
    rw [__gdev_out_ring, hloop n,
      hdone (by rw [hF_reads, hF_base]; exact hr) (n + 1) (by omega)]
    simp only [Outcome.andThen]
    rw [pb_write_eq _ word (by rw [← hF]; exact hm32) hword]
    subst hF
    dsimp only
    rw [hwrap]

theorem first_nonzero (f : Nat → Nat) (n : Nat) :
    (∀ j, j ≤ n → f j = 0) ∨ ∃ k, k ≤ n ∧ (∀ j, j < k → f j = 0) ∧ f k ≠ 0 := by
  induction n with
  | zero =>
    by_cases h : f 0 = 0
    · left
      intro j hj
      have : j = 0 := by omega
      rw [this]
      exact h
    · exact Or.inr ⟨0, Nat.le_refl 0, fun j hj => absurd hj (Nat.not_lt_zero j), h⟩
  | succ n ih =>
    rcases ih with h | ⟨k, hk, hz, hne⟩
    · by_cases h1 : f (n + 1) = 0
      · left
        intro j hj
        rcases Nat.lt_or_ge j (n + 1) with hlt | hge
        · exact h j (by omega)
        · have : j = n + 1 := by omega
          rw [this]
          exact h1
      · exact Or.inr ⟨n + 1, Nat.le_refl _, fun j hj => h j (by omega), h1⟩
    · exact Or.inr ⟨k, by omega, hz, hne⟩

/-- The call of `__gdev_out_ring` on a push buffer filled up to its last
word, for every readback and every number of loop iterations from one on. -/
theorem out_ring_filled_any (hw : Hw) (a : Nat) (s : gdev_ctx) (word : Nat)
    (hpow : s.pb_mask + 1 = 2 ^ a) (hsz : s.pb_size = s.pb_mask + 1) (h32 : s.pb_size < 2 ^ 32)
    (hpos : s.pb_pos + 4 = s.pb_size) (hput : s.pb_put = 0) (hget : s.pb_get = 0)
    (h8 : 8 ≤ s.pb_size) (hbase : s.pb_base < 2 ^ 64) (hib : ib_full s = false)
    (hibm : s.ib_mask < 2 ^ 32) (hput31 : s.ib_put < 2 ^ 31) (hword : word < 2 ^ 32) (n : Nat) :
    (__gdev_out_ring hw (n + 1) s word).state.pushed
      = s.pushed ++ [⟨s.pb_base, s.pb_size - 4, 0⟩] ∧
    (__gdev_out_ring hw (n + 1) s word).state.ib_put = (s.ib_put + 1) &&& s.ib_mask ∧
    (__gdev_out_ring hw (n + 1) s word).state.ib_map
      = (s.ib_map.store (2 * s.ib_put) (Desc.lo ⟨s.pb_base, s.pb_size - 4, 0⟩)).store
          (2 * s.ib_put + 1) (Desc.hi ⟨s.pb_base, s.pb_size - 4, 0⟩) ∧
    (__gdev_out_ring hw (n + 1) s word).state.regs
      = s.regs.store (0x8c / 4) ((s.ib_put + 1) &&& s.ib_mask) ∧
    (__gdev_out_ring hw (n + 1) s word).state.pb_put = s.pb_pos ∧
    (∃ j, j ≤ n ∧
      (__gdev_out_ring hw (n + 1) s word).state.reads = s.reads + 2 * (j + 1) ∧
      (__gdev_out_ring hw (n + 1) s word).state.pb_get
        = pb_get_readback hw (s.reads + 2 * j) s.pb_base) ∧
    ((__gdev_out_ring hw (n + 1) s word).returned = true →
      (__gdev_out_ring hw (n + 1) s word).state.pb_map = s.pb_map.store (s.pb_pos / 4) word ∧
      (__gdev_out_ring hw (n + 1) s word).state.pb_pos = 0 ∧
      (__gdev_out_ring hw (n + 1) s word).state.pb_get ≠ 0) ∧
    ((__gdev_out_ring hw (n + 1) s word).returned = false →
      (__gdev_out_ring hw (n + 1) s word).state.pb_map = s.pb_map ∧
      (__gdev_out_ring hw (n + 1) s word).state.pb_pos = s.pb_pos ∧
      (__gdev_out_ring hw (n + 1) s word).state.pb_get = 0) := by
  obtain ⟨-, key⟩ := out_ring_filled_exact hw a s word hpow hsz h32 hpos hput hget h8 hbase hib
    hibm hput31 hword
  rcases first_nonzero (fun j => pb_get_readback hw (s.reads + 2 * j) s.pb_base) n with
    hz | ⟨k, hk, hz, hne⟩
  · obtain ⟨hspin, -⟩ := key (n + 1) (fun j hj => hz j (by omega))
    rw [hspin n (by omega)]
    refine ⟨rfl, rfl, rfl, rfl, rfl, ⟨n, Nat.le_refl n, rfl, ?_⟩, ?_, ?_⟩
    · rw [hget]
      exact (hz n (Nat.le_refl n)).symm
    · intro h
      exact absurd h (by simp [Outcome.returned])
    · intro _
      exact ⟨rfl, rfl, hget⟩
  · obtain ⟨-, hdone⟩ := key k hz
    rw [hdone hne n hk]
    refine ⟨rfl, rfl, rfl, rfl, rfl, ⟨k, hk, rfl, rfl⟩, ?_, ?_⟩
    · intro _
      exact ⟨rfl, rfl, hne⟩
    · intro h
      exact absurd h (by simp [Outcome.returned])

/-! ## The claims -/

/-- C1: indirect-buffer pushes are stored in submission order.  In a ring of
`C = ib_mask + 1 = 2^a` slots with `ib_put = ib_get = s <= ib_mask`, pushing a
list of `n <= C - 1` descriptors returns whatever the iteration bound of the
wait loop (even 0) and without a register read or a yield: the wait loop is
never entered.  Afterwards slot `(s + i) & ib_mask` (words `2k`, `2k + 1` of
`ib_map`) holds the two words of the `i`-th descriptor, `ib_put` is
`(s + n) & ib_mask`, and, when at least one descriptor was pushed, the put
register `regs[0x8c/4]` equals `ib_put`.  Word indices are computed in 32
bits, hence `a <= 31`. -/
theorem push_fifo_submission_order (hw : Hw) (fuel a : Nat) (s : gdev_ctx) (ds : List Desc)
    (hmask : s.ib_mask + 1 = 2 ^ a) (ha : a ≤ 31) (hput : s.ib_put ≤ s.ib_mask)
    (hget : s.ib_get = s.ib_put) (hn : ds.length ≤ s.ib_mask) :
    ∃ s', push_all hw fuel s ds = .done s' ∧
      s'.reads = s.reads ∧ s'.yields = s.yields ∧ s'.ib_get = s.ib_get ∧
      (∀ i (hi : i < ds.length),
        s'.ib_map (2 * ((s.ib_put + i) &&& s.ib_mask)) = (ds.get ⟨i, hi⟩).lo ∧
        s'.ib_map (2 * ((s.ib_put + i) &&& s.ib_mask) + 1) = (ds.get ⟨i, hi⟩).hi) ∧
      s'.ib_put = (s.ib_put + ds.length) &&& s.ib_mask ∧
      (ds ≠ [] → s'.regs (0x8c / 4) = s'.ib_put) ∧
      s'.pushed = s.pushed ++ ds := by
  obtain ⟨s', hdone, hfr, hp', hslots, -, -, hregs⟩ :=
    push_all_spec hw fuel a ds s 0 hmask ha (by omega)
      (by rw [hget, Nat.add_zero, Nat.mod_eq_of_lt (by omega)]) (by omega)
  refine ⟨s', hdone, by rw [hfr], by rw [hfr], by rw [hfr], ?_, ?_, hregs, by rw [hfr]⟩
  · intro i hi
    have := hslots i hi
    rw [hget, Nat.add_zero] at this
    rw [mask_eq_mod _ _ a hmask]
    exact this
  · rw [hp', hget, Nat.add_zero, mask_eq_mod _ _ a hmask]

/-- C1, witness: two descriptors pushed into the empty 8-slot ring of `ctx_empty`. -/
theorem push_fifo_submission_order_witness :
    ∃ s', push_all hw_zero 0 ctx_empty two_descs = .done s' ∧
      s'.reads = ctx_empty.reads ∧ s'.yields = ctx_empty.yields ∧
      s'.ib_get = ctx_empty.ib_get ∧
      (∀ i (hi : i < two_descs.length),
        s'.ib_map (2 * ((ctx_empty.ib_put + i) &&& ctx_empty.ib_mask))
          = (two_descs.get ⟨i, hi⟩).lo ∧
        s'.ib_map (2 * ((ctx_empty.ib_put + i) &&& ctx_empty.ib_mask) + 1)
          = (two_descs.get ⟨i, hi⟩).hi) ∧
      s'.ib_put = (ctx_empty.ib_put + two_descs.length) &&& ctx_empty.ib_mask ∧
      (two_descs ≠ [] → s'.regs (0x8c / 4) = s'.ib_put) ∧
      s'.pushed = ctx_empty.pushed ++ two_descs :=
  push_fifo_submission_order hw_zero 0 3 ctx_empty two_descs
    (by decide) (by decide) (by decide) (by decide) (by decide)

/-- C2: a full indirect buffer blocks and is never overwritten.  On a context
with `(ib_put + 1) & ib_mask == ib_get`, as long as the get register
`regs[0x88/4]` reads back the cached `ib_get` (the first `k` readbacks),
`__gdev_push_fifo` is still waiting after any number `fuel <= k` of
iterations and has changed nothing but the read and yield counters: `ib_map`,
`ib_put` and the put register are untouched.  If the next readback differs,
the call returns at that readback, having written the slot at the old
`ib_put`, the new `ib_put` and the put register. -/
theorem push_fifo_full_blocks (hw : Hw) (s : gdev_ctx) (base len : Nat) (flags : Int) (k : Nat)
    (hmask : s.ib_mask < 2 ^ 32) (hput : s.ib_put < 2 ^ 31)
    (hfull : (s.ib_put + 1) &&& s.ib_mask = s.ib_get)
    (hsame : ∀ j, j < k → hw (s.reads + j) (0x88 / 4) % 2 ^ 32 = s.ib_get) :
    (∀ fuel, fuel ≤ k →
      __gdev_push_fifo hw fuel s base len flags
        = .spinning { s with reads := s.reads + fuel, yields := s.yields + fuel }) ∧
    (hw (s.reads + k) (0x88 / 4) % 2 ^ 32 ≠ s.ib_get →
      ∀ fuel, k < fuel →
        __gdev_push_fifo hw fuel s base len flags
          = .done { s with
              ib_get := hw (s.reads + k) (0x88 / 4) % 2 ^ 32
              reads := s.reads + k + 1
              yields := s.yields + k
              ib_map := (s.ib_map.store (2 * s.ib_put) (Desc.lo ⟨base, len, flags⟩)).store
                (2 * s.ib_put + 1) (Desc.hi ⟨base, len, flags⟩)
              ib_put := (s.ib_put + 1) &&& s.ib_mask
              regs := s.regs.store (0x8c / 4) ((s.ib_put + 1) &&& s.ib_mask)
              pushed := s.pushed ++ [⟨base, len, flags⟩] }) := by
  have hf : ib_full s = true := (ib_full_iff s hmask).2 hfull
  constructor
  · intro fuel hfuel
    have h := ib_wait_stale hw fuel 0 s hf (fun j hj => hsame j (by omega))
    rw [Nat.add_zero] at h
    have hf' : ib_full { s with reads := s.reads + fuel, yields := s.yields + fuel } = true := hf
    rw [__gdev_push_fifo, h, ib_wait, if_pos hf']
    rfl
  · intro hnew fuel hfuel
    obtain ⟨m, rfl⟩ : ∃ m, fuel = k + (m + 1) := ⟨fuel - k - 1, by omega⟩
    have h := ib_wait_stale hw k (m + 1) s hf hsame
    have hf' : ib_full { s with reads := s.reads + k, yields := s.yields + k } = true := hf
    have hbody : ib_wait_body hw { s with reads := s.reads + k, yields := s.yields + k }
        = { s with
            ib_get := hw (s.reads + k) (0x88 / 4) % 2 ^ 32
            reads := s.reads + k + 1
            yields := s.yields + k } := by
      unfold ib_wait_body readl __gdev_relax_fifo
      simp only [if_neg (Ne.symm hnew)]
    generalize hw (s.reads + k) (0x88 / 4) % 2 ^ 32 = v at hnew hbody ⊢
    have hroom : ib_full { s with ib_get := v, reads := s.reads + k + 1, yields := s.yields + k }
        = false := by
      rw [Bool.eq_false_iff]
      intro hc
      have := (ib_full_iff
        { s with
          ib_get := v
          reads := s.reads + k + 1
          yields := s.yields + k } hmask).1 hc
      exact hnew (this.symm.trans hfull)
    have hwr := ib_write_eq
      { s with
        ib_get := v
        reads := s.reads + k + 1
        yields := s.yields + k } base len flags hmask hput
    rw [__gdev_push_fifo, h, ib_wait, if_pos hf', hbody, ib_wait_of_room _ _ _ hroom]
    simp only [Outcome.andThen]
    rw [hwr]

/-- C2, witness: the full ring of `ctx_ib_full` with two stale readbacks and a fresh one. -/
theorem push_fifo_full_blocks_witness :
    (∀ fuel, fuel ≤ 2 →
      __gdev_push_fifo hw_late fuel ctx_ib_full 0x120000000 8 0
        = .spinning { ctx_ib_full with
            reads := ctx_ib_full.reads + fuel, yields := ctx_ib_full.yields + fuel }) ∧
    (hw_late (ctx_ib_full.reads + 2) (0x88 / 4) % 2 ^ 32 ≠ ctx_ib_full.ib_get →
      ∀ fuel, 2 < fuel →
        __gdev_push_fifo hw_late fuel ctx_ib_full 0x120000000 8 0
          = .done { ctx_ib_full with
              ib_get := hw_late (ctx_ib_full.reads + 2) (0x88 / 4) % 2 ^ 32
              reads := ctx_ib_full.reads + 2 + 1
              yields := ctx_ib_full.yields + 2
              ib_map := (ctx_ib_full.ib_map.store (2 * ctx_ib_full.ib_put)
                (Desc.lo ⟨0x120000000, 8, 0⟩)).store
                (2 * ctx_ib_full.ib_put + 1) (Desc.hi ⟨0x120000000, 8, 0⟩)
              ib_put := (ctx_ib_full.ib_put + 1) &&& ctx_ib_full.ib_mask
              regs := ctx_ib_full.regs.store (0x8c / 4)
                ((ctx_ib_full.ib_put + 1) &&& ctx_ib_full.ib_mask)
              pushed := ctx_ib_full.pushed ++ [⟨0x120000000, 8, 0⟩] }) :=
  push_fifo_full_blocks hw_late ctx_ib_full 0x120000000 8 0 2 (by decide) (by decide)
    (by decide) (by decide)

/-- C3: a wrapping push-buffer span delivers the same words as a non-wrapping
one.  In a push buffer of `pb_size = pb_mask + 1 = 2^b >= 8` bytes with
`pb_pos = pb_put = pb_get = p` (`p` a multiple of 4 below `pb_size`) and two
free indirect-buffer slots, writing `1 <= n <= pb_size/4 - 1` words with
`__gdev_out_ring` and then calling `__gdev_fire_ring` returns without a
register read, having pushed one or two descriptors `ds`: their two words are
in the ring slots from the old `ib_put` on, `ib_put` is advanced by their
number and the put register `regs[0x8c/4]` equals the new `ib_put`.  Reading
`pb_map` over their byte spans `(base - pb_base, len)` in push order yields
exactly the words written, whether or not `p + 4n` exceeds `pb_size`; and when
the push buffer lies below `2^40` and is at most `2^24` bytes long, so that
base and length fit their descriptor fields, a consumer that decodes these
ring slots and reads the spans gets exactly the words written. -/
theorem out_ring_fire_delivers_words (hw : Hw) (fuel a b : Nat) (s : gdev_ctx) (ws : List Nat)
    (hsize : s.pb_size = s.pb_mask + 1) (hpow : s.pb_size = 2 ^ b) (hb3 : 3 ≤ b)
    (hb31 : b ≤ 31) (hpos : s.pb_pos = s.pb_put) (hget : s.pb_get = s.pb_put)
    (hal : s.pb_put % 4 = 0) (hlt : s.pb_put < s.pb_size) (hring : ib_ring a s)
    (hfree : 2 ≤ ib_free s) (hn1 : 1 ≤ ws.length) (hn : ws.length ≤ s.pb_size / 4 - 1)
    (hws : ∀ w ∈ ws, w < 2 ^ 32) :
    ∃ s1 s2 ds, out_all hw fuel s ws = .done s1 ∧ __gdev_fire_ring hw fuel s1 = .done s2 ∧
      s2.pushed = s.pushed ++ ds ∧ (ds.length = 1 ∨ ds.length = 2) ∧
      (ds.map (Desc.words s.pb_base s2.pb_map)).flatten = ws ∧
      s2.ib_put = (s.ib_put + ds.length) &&& s.ib_mask ∧
      s2.regs (0x8c / 4) = s2.ib_put ∧
      (∀ i (hi : i < ds.length),
        s2.ib_map (2 * ((s.ib_put + i) &&& s.ib_mask)) = (ds.get ⟨i, hi⟩).lo ∧
        s2.ib_map (2 * ((s.ib_put + i) &&& s.ib_mask) + 1) = (ds.get ⟨i, hi⟩).hi) ∧
      s2.ib_get = s.ib_get ∧ s2.ib_mask = s.ib_mask ∧ s2.reads = s.reads ∧
      s2.pb_put = s2.pb_pos ∧
      (s.pb_base + s.pb_size ≤ 2 ^ 40 → s.pb_size ≤ 2 ^ 24 →
        consume s2 s.ib_put ds.length = ws) := by
  have hp32 : (2 : Nat) ^ b ≤ 2 ^ 31 := Nat.pow_le_pow_right (by norm_num) hb31
  have hp8 : (2 : Nat) ^ 3 ≤ 2 ^ b := Nat.pow_le_pow_right (by norm_num) hb3
  have hmask : s.pb_mask + 1 = 2 ^ b := by omega
  have h4 : 4 ∣ s.pb_size := by rw [hpow]; exact four_dvd_two_pow b (by omega)
  obtain ⟨c, hc⟩ := h4
  obtain ⟨s1, hdone, hfr, hslots, -⟩ := out_all_spec hw fuel b ws s 0 hmask (by omega)
    (by omega) (by omega) (by omega)
    (by rw [hpos, hget, Nat.mul_zero, Nat.add_zero, Nat.mod_eq_of_lt (by omega)])
    (by omega) hws
  have e_ibget : s1.ib_get = s.ib_get := by rw [hfr]
  have e_ibmask : s1.ib_mask = s.ib_mask := by rw [hfr]
  have e_ibput : s1.ib_put = s.ib_put := by rw [hfr]
  have e_base : s1.pb_base = s.pb_base := by rw [hfr]
  have e_size : s1.pb_size = s.pb_size := by rw [hfr]
  have e_put : s1.pb_put = s.pb_put := by rw [hfr]
  have e_reads : s1.reads = s.reads := by rw [hfr]
  have e_pushed1 : s1.pushed = s.pushed := by rw [hfr]
  have e_pos : s1.pb_pos = (s.pb_put + 4 * ws.length) % s.pb_size := by
    rw [hfr]
    show (s.pb_get + 4 * (0 + ws.length)) % (s.pb_mask + 1)
      = (s.pb_put + 4 * ws.length) % s.pb_size
    rw [hget, Nat.zero_add, hsize]
  have hring1 := ib_ring_congr a s s1 e_ibget e_ibmask e_ibput hring
  have hfree1 : 2 ≤ ib_free s1 := by rw [ib_free_congr s s1 e_ibget e_ibmask e_ibput]; exact hfree
  have key := fire_list_words s1 ws s.pb_put (by rw [e_size]; omega)
    (by rw [e_size]; exact ⟨c, hc⟩) hal (by rw [e_size]; exact hlt) e_put
    (by rw [e_pos, e_size]) hn1 (by rw [e_size]; omega)
    (by
      intro i hi
      have := hslots i hi
      rw [hget, Nat.zero_add, ← hsize] at this
      rw [e_size]
      exact this)
  have hne : s1.pb_pos ≠ s1.pb_put := by
    intro h
    have hnil : fire_list s1 = [] := by
      unfold fire_list
      rw [if_neg (by simpa using h)]
    have hk := key.1
    rw [hnil] at hk
    simp at hk
  have hlen2 : (fire_list s1).length ≤ ib_free s1 := by
    rcases key.1 with h | h <;> omega
  obtain ⟨s', hpa, hfr', hput', hslots', hregs'⟩ :=
    push_all_free hw fuel a s1 (fire_list s1) hring1 hlen2
  have hfire : __gdev_fire_ring hw fuel s1 = .done { s' with pb_put := s'.pb_pos } := by
    rw [fire_ring_push_all, if_pos hne, hpa]
    rfl
  have e_map : s'.pb_map = s1.pb_map := by rw [hfr']
  have hnonempty : fire_list s1 ≠ [] := by
    intro hnil
    have hk := key.1
    rw [hnil] at hk
    simp at hk
  refine ⟨s1, { s' with pb_put := s'.pb_pos }, fire_list s1, hdone, hfire, ?_, key.1, ?_, ?_,
    hregs' hnonempty, ?_, ?_, ?_, ?_, rfl, ?_⟩
  · show s'.pushed = _
    rw [hfr']
    show s1.pushed ++ fire_list s1 = _
    rw [e_pushed1]
  · show ((fire_list s1).map (Desc.words s.pb_base s'.pb_map)).flatten = ws
    rw [e_map, ← e_base]
    exact key.2
  · show s'.ib_put = _
    rw [hput', e_ibput, e_ibmask]
  · intro i hi
    have := hslots' i hi
    rw [e_ibput, e_ibmask] at this
    exact this
  · show s'.ib_get = _
    rw [hfr']
    exact e_ibget
  · show s'.ib_mask = _
    rw [hfr']
    exact e_ibmask
  · show s'.reads = _
    rw [hfr']
    exact e_reads
  · intro h40 h24
    have hpos1 : s1.pb_pos < s1.pb_size := by
      rw [e_pos, e_size]
      exact Nat.mod_lt _ (by omega)
    have hpos4 : s1.pb_pos % 4 = 0 := by
      rw [e_pos, Nat.mod_mod_of_dvd _ ⟨c, hc⟩]
      omega
    have hwf := fire_list_well_formed s1 b (by rw [e_size]; exact hpow) (by omega) hb31
      (by rw [e_put, e_size]; exact hlt) hpos1 (by rw [e_put]; exact hal) hpos4
      (by rw [e_base, e_size]; exact h40)
    have hlenlt := fire_list_len_lt s1 (by rw [e_size]; omega) (by rw [e_put, e_size]; exact hlt)
      hpos1
    have hdec : ∀ i (hi : i < (fire_list s1).length),
        Desc.decode (s'.ib_map (2 * ((s.ib_put + i) &&& s'.ib_mask)))
            (s'.ib_map (2 * ((s.ib_put + i) &&& s'.ib_mask) + 1))
          = (fire_list s1).get ⟨i, hi⟩ := by
      intro i hi
      have hm' : s'.ib_mask = s.ib_mask := by rw [hfr']; exact e_ibmask
      have hsl := hslots' i hi
      rw [e_ibput, e_ibmask] at hsl
      rw [hm', hsl.1, hsl.2]
      have hmem : (fire_list s1).get ⟨i, hi⟩ ∈ fire_list s1 := List.get_mem _ _ _
      obtain ⟨w1, w2, w3, w4, w5⟩ := hwf _ hmem
      have w6 := hlenlt _ hmem
      rw [e_base, e_size] at w2
      rw [e_size] at w6
      exact decode_lo_hi _ (by omega) (by omega) w4 w5
    unfold consume
    show ((List.range (fire_list s1).length).map fun i =>
      Desc.words s'.pb_base s'.pb_map
        (Desc.decode (s'.ib_map (2 * ((s.ib_put + i) &&& s'.ib_mask)))
          (s'.ib_map (2 * ((s.ib_put + i) &&& s'.ib_mask) + 1)))).flatten = ws
    rw [map_range_eq_map (fire_list s1) _ (Desc.words s'.pb_base s'.pb_map) hdec]
    have eb' : s'.pb_base = s1.pb_base := by rw [hfr']
    rw [eb', e_map]
    exact key.2

/-- C3, witness: three words written from offset 8 of a 16-byte push buffer, a span that wraps. -/
theorem out_ring_fire_delivers_words_witness :
    ∃ s1 s2 ds, out_all hw_zero 0 ctx_at8 [1, 2, 3] = .done s1 ∧
      __gdev_fire_ring hw_zero 0 s1 = .done s2 ∧
      s2.pushed = ctx_at8.pushed ++ ds ∧ (ds.length = 1 ∨ ds.length = 2) ∧
      (ds.map (Desc.words ctx_at8.pb_base s2.pb_map)).flatten = [1, 2, 3] ∧
      s2.ib_put = (ctx_at8.ib_put + ds.length) &&& ctx_at8.ib_mask ∧
      s2.regs (0x8c / 4) = s2.ib_put ∧
      (∀ i (hi : i < ds.length),
        s2.ib_map (2 * ((ctx_at8.ib_put + i) &&& ctx_at8.ib_mask)) = (ds.get ⟨i, hi⟩).lo ∧
        s2.ib_map (2 * ((ctx_at8.ib_put + i) &&& ctx_at8.ib_mask) + 1) = (ds.get ⟨i, hi⟩).hi) ∧
      s2.ib_get = ctx_at8.ib_get ∧ s2.ib_mask = ctx_at8.ib_mask ∧ s2.reads = ctx_at8.reads ∧
      s2.pb_put = s2.pb_pos ∧
      (ctx_at8.pb_base + ctx_at8.pb_size ≤ 2 ^ 40 → ctx_at8.pb_size ≤ 2 ^ 24 →
        consume s2 ctx_at8.ib_put ds.length = [1, 2, 3]) :=
  out_ring_fire_delivers_words hw_zero 0 3 4 ctx_at8 [1, 2, 3] (by decide) (by decide)
    (by decide) (by decide) (by decide) (by decide) (by decide) (by decide) (by decide)
    (by decide) (by decide) (by decide) (by decide)

/-- C4: filling the push buffer forces a fire before the next word.  From
`pb_pos = pb_put = pb_get = 0` in a push buffer of `pb_size = pb_mask + 1 = 2^b
>= 8` bytes with a non-full indirect buffer, up to `pb_size/4 - 1` calls of
`__gdev_out_ring` return without a push: only `pb_map` and `pb_pos` change, the
words are in `pb_map[0 ..]`, and `ib_put`, `ib_map`, the registers and the list
of pushed descriptors are as before, with no register read.  After exactly
`pb_size/4 - 1` calls the next call does nothing before its first loop
iteration.  From the first iteration on, for every readback of the registers,
it has written the descriptor `(pb_base, pb_size - 4, 0)` into the two words of
slot `ib_put`, advanced `ib_put`, written it to the put register `0x8c`, set
`pb_put = pb_size - 4`, and its cached `pb_get` is the value decoded from the
last of the get pairs it has read; while it is still waiting `pb_map` is
untouched and `pb_get` is 0, and once it has returned its word is in
`pb_map[(pb_size - 4)/4]`, `pb_pos` is 0 and `pb_get` is not 0.  Readback by
readback: while the first `k` get pairs decode to 0 the call is still waiting
after up to `k` iterations, in the state after the push with `2` reads and one
yield per iteration; when the next pair decodes to another value, every call
with more than `k` iterations returns in the state with that `pb_get`,
`2 * (k + 1)` reads, `k` yields and the word written. -/
theorem out_ring_fill_forces_fire (hw : Hw) (fuel b : Nat) (s : gdev_ctx) (ws : List Nat)
    (word : Nat) (hsize : s.pb_size = s.pb_mask + 1) (hpow : s.pb_size = 2 ^ b) (hb3 : 3 ≤ b)
    (hb31 : b ≤ 31) (hbase : s.pb_base < 2 ^ 64) (hpos : s.pb_pos = 0) (hput : s.pb_put = 0)
    (hget : s.pb_get = 0) (hib : s.ib_mask < 2 ^ 32) (hput31 : s.ib_put < 2 ^ 31)
    (hroom : (s.ib_put + 1) &&& s.ib_mask ≠ s.ib_get)
    (hlen : ws.length ≤ s.pb_size / 4 - 1) (hws : ∀ w ∈ ws, w < 2 ^ 32)
    (hword : word < 2 ^ 32) :
    ∃ s1, out_all hw fuel s ws = .done s1 ∧
      s1.ib_put = s.ib_put ∧ s1.ib_map = s.ib_map ∧ s1.regs = s.regs ∧
      s1.pushed = s.pushed ∧ s1.reads = s.reads ∧
      s1 = { s with pb_map := s1.pb_map, pb_pos := 4 * ws.length } ∧
      (∀ i (hi : i < ws.length), s1.pb_map i = ws.get ⟨i, hi⟩) ∧
      (ws.length = s.pb_size / 4 - 1 →
        __gdev_out_ring hw 0 s1 word = .spinning s1 ∧
        (∀ n,
          (__gdev_out_ring hw (n + 1) s1 word).state.pushed
            = s.pushed ++ [⟨s.pb_base, s.pb_size - 4, 0⟩] ∧
          (__gdev_out_ring hw (n + 1) s1 word).state.ib_put
            = (s.ib_put + 1) &&& s.ib_mask ∧
          (__gdev_out_ring hw (n + 1) s1 word).state.ib_map
            = (s.ib_map.store (2 * s.ib_put) (Desc.lo ⟨s.pb_base, s.pb_size - 4, 0⟩)).store
                (2 * s.ib_put + 1) (Desc.hi ⟨s.pb_base, s.pb_size - 4, 0⟩) ∧
          (__gdev_out_ring hw (n + 1) s1 word).state.regs
            = s.regs.store (0x8c / 4) ((s.ib_put + 1) &&& s.ib_mask) ∧
          (__gdev_out_ring hw (n + 1) s1 word).state.pb_put = s.pb_size - 4 ∧
          (∃ j, j ≤ n ∧
            (__gdev_out_ring hw (n + 1) s1 word).state.reads = s.reads + 2 * (j + 1) ∧
            (__gdev_out_ring hw (n + 1) s1 word).state.pb_get
              = pb_get_readback hw (s.reads + 2 * j) s.pb_base) ∧
          ((__gdev_out_ring hw (n + 1) s1 word).returned = true →
            (__gdev_out_ring hw (n + 1) s1 word).state.pb_map
              = s1.pb_map.store ((s.pb_size - 4) / 4) word ∧
            (__gdev_out_ring hw (n + 1) s1 word).state.pb_pos = 0 ∧
            (__gdev_out_ring hw (n + 1) s1 word).state.pb_get ≠ 0) ∧
          ((__gdev_out_ring hw (n + 1) s1 word).returned = false →
            (__gdev_out_ring hw (n + 1) s1 word).state.pb_map = s1.pb_map ∧
            (__gdev_out_ring hw (n + 1) s1 word).state.pb_pos = s.pb_size - 4 ∧
            (__gdev_out_ring hw (n + 1) s1 word).state.pb_get = 0)) ∧
        ∀ k, (∀ j, j < k → pb_get_readback hw (s.reads + 2 * j) s.pb_base = 0) →
          (∀ n, n < k →
            __gdev_out_ring hw (n + 1) s1 word
              = .spinning { s1 with
                  ib_map := (s.ib_map.store (2 * s.ib_put)
                    (Desc.lo ⟨s.pb_base, s.pb_size - 4, 0⟩)).store
                    (2 * s.ib_put + 1) (Desc.hi ⟨s.pb_base, s.pb_size - 4, 0⟩)
                  ib_put := (s.ib_put + 1) &&& s.ib_mask
                  regs := s.regs.store (0x8c / 4) ((s.ib_put + 1) &&& s.ib_mask)
                  pushed := s.pushed ++ [⟨s.pb_base, s.pb_size - 4, 0⟩]
                  pb_put := s.pb_size - 4
                  reads := s.reads + 2 * (n + 1)
                  yields := s.yields + (n + 1) }) ∧
          (pb_get_readback hw (s.reads + 2 * k) s.pb_base ≠ 0 → ∀ n, k ≤ n →
            __gdev_out_ring hw (n + 1) s1 word
              = .done { s1 with
                  ib_map := (s.ib_map.store (2 * s.ib_put)
                    (Desc.lo ⟨s.pb_base, s.pb_size - 4, 0⟩)).store
                    (2 * s.ib_put + 1) (Desc.hi ⟨s.pb_base, s.pb_size - 4, 0⟩)
                  ib_put := (s.ib_put + 1) &&& s.ib_mask
                  regs := s.regs.store (0x8c / 4) ((s.ib_put + 1) &&& s.ib_mask)
                  pushed := s.pushed ++ [⟨s.pb_base, s.pb_size - 4, 0⟩]
                  pb_put := s.pb_size - 4
                  pb_get := pb_get_readback hw (s.reads + 2 * k) s.pb_base
                  reads := s.reads + 2 * (k + 1)
                  yields := s.yields + k
                  pb_map := s1.pb_map.store ((s.pb_size - 4) / 4) word
                  pb_pos := 0 })) := by
  have hp32 : (2 : Nat) ^ b ≤ 2 ^ 31 := Nat.pow_le_pow_right (by norm_num) hb31
  have hp8 : (2 : Nat) ^ 3 ≤ 2 ^ b := Nat.pow_le_pow_right (by norm_num) hb3
  have hmask : s.pb_mask + 1 = 2 ^ b := by omega
  have h4 : 4 ∣ s.pb_size := by rw [hpow]; exact four_dvd_two_pow b (by omega)
  obtain ⟨s1, hdone, hfr, hwords, -⟩ := out_all_spec hw fuel b ws s 0 hmask (by omega) (by omega)
    (by omega) (by omega) (by rw [hpos, hget]; simp) (by omega) hws
  have hP : (s.pb_get + 4 * (0 + ws.length)) % (s.pb_mask + 1) = 4 * ws.length := by
    rw [hget, Nat.zero_add, Nat.zero_add, Nat.mod_eq_of_lt (by omega)]
  rw [hP] at hfr
  have hib1 : ib_full s = false := by
    rw [Bool.eq_false_iff]
    intro hc
    exact hroom ((ib_full_iff s hib).1 hc)
  refine ⟨s1, hdone, by rw [hfr], by rw [hfr], by rw [hfr], by rw [hfr], by rw [hfr], hfr,
    ?_, ?_⟩
  · intro i hi
    have h := hwords i hi
    have e : (s.pb_get + 4 * (0 + i)) % (s.pb_mask + 1) / 4 = i := by
      rw [hget, Nat.zero_add, Nat.zero_add, Nat.mod_eq_of_lt (by omega)]
      omega
    rw [e] at h
    exact h
  intro hfill
  have hL : 4 * ws.length = s.pb_size - 4 := by omega
  rw [hL] at hfr
  generalize s1.pb_map = m at hfr ⊢
  subst hfr
  obtain ⟨h0, hexact⟩ := out_ring_filled_exact hw b
    { s with pb_map := m, pb_pos := s.pb_size - 4 } word hmask hsize
    (by show s.pb_size < 2 ^ 32; omega)
    (by show s.pb_size - 4 + 4 = s.pb_size; omega) hput hget (by show 8 ≤ s.pb_size; omega)
    hbase hib1 hib hput31 hword
  refine ⟨h0, fun n => ?_, fun k hz => hexact k hz⟩
  exact out_ring_filled_any hw b
    { s with pb_map := m, pb_pos := s.pb_size - 4 } word hmask hsize
    (by show s.pb_size < 2 ^ 32; omega)
    (by show s.pb_size - 4 + 4 = s.pb_size; omega) hput hget (by show 8 ≤ s.pb_size; omega)
    hbase hib1 hib hput31 hword n

/-- C4, witness: the 16-byte push buffer of `ctx_empty` filled with three words, the get
pair reading back offset 8. -/
theorem out_ring_fill_forces_fire_witness :
    ∃ s1, out_all hw_get8 0 ctx_empty [1, 2, 3] = .done s1 ∧
      s1.ib_put = ctx_empty.ib_put ∧ s1.ib_map = ctx_empty.ib_map ∧ s1.regs = ctx_empty.regs ∧
      s1.pushed = ctx_empty.pushed ∧ s1.reads = ctx_empty.reads ∧
      s1 = { ctx_empty with pb_map := s1.pb_map, pb_pos := 4 * [1, 2, 3].length } ∧
      (∀ i (hi : i < [1, 2, 3].length), s1.pb_map i = [1, 2, 3].get ⟨i, hi⟩) ∧
      ([1, 2, 3].length = ctx_empty.pb_size / 4 - 1 →
        __gdev_out_ring hw_get8 0 s1 4 = .spinning s1 ∧
        (∀ n,
          (__gdev_out_ring hw_get8 (n + 1) s1 4).state.pushed
            = ctx_empty.pushed ++ [⟨ctx_empty.pb_base, ctx_empty.pb_size - 4, 0⟩] ∧
          (__gdev_out_ring hw_get8 (n + 1) s1 4).state.ib_put
            = (ctx_empty.ib_put + 1) &&& ctx_empty.ib_mask ∧
          (__gdev_out_ring hw_get8 (n + 1) s1 4).state.ib_map
            = (ctx_empty.ib_map.store (2 * ctx_empty.ib_put) (Desc.lo ⟨ctx_empty.pb_base, ctx_empty.pb_size - 4, 0⟩)).store
                (2 * ctx_empty.ib_put + 1) (Desc.hi ⟨ctx_empty.pb_base, ctx_empty.pb_size - 4, 0⟩) ∧
          (__gdev_out_ring hw_get8 (n + 1) s1 4).state.regs
            = ctx_empty.regs.store (0x8c / 4) ((ctx_empty.ib_put + 1) &&& ctx_empty.ib_mask) ∧
          (__gdev_out_ring hw_get8 (n + 1) s1 4).state.pb_put = ctx_empty.pb_size - 4 ∧
          (∃ j, j ≤ n ∧
            (__gdev_out_ring hw_get8 (n + 1) s1 4).state.reads = ctx_empty.reads + 2 * (j + 1) ∧
            (__gdev_out_ring hw_get8 (n + 1) s1 4).state.pb_get
              = pb_get_readback hw_get8 (ctx_empty.reads + 2 * j) ctx_empty.pb_base) ∧
          ((__gdev_out_ring hw_get8 (n + 1) s1 4).returned = true →
            (__gdev_out_ring hw_get8 (n + 1) s1 4).state.pb_map
              = s1.pb_map.store ((ctx_empty.pb_size - 4) / 4) 4 ∧
            (__gdev_out_ring hw_get8 (n + 1) s1 4).state.pb_pos = 0 ∧
            (__gdev_out_ring hw_get8 (n + 1) s1 4).state.pb_get ≠ 0) ∧
          ((__gdev_out_ring hw_get8 (n + 1) s1 4).returned = false →
            (__gdev_out_ring hw_get8 (n + 1) s1 4).state.pb_map = s1.pb_map ∧
            (__gdev_out_ring hw_get8 (n + 1) s1 4).state.pb_pos = ctx_empty.pb_size - 4 ∧
            (__gdev_out_ring hw_get8 (n + 1) s1 4).state.pb_get = 0)) ∧
        ∀ k, (∀ j, j < k → pb_get_readback hw_get8 (ctx_empty.reads + 2 * j) ctx_empty.pb_base = 0) →
          (∀ n, n < k →
            __gdev_out_ring hw_get8 (n + 1) s1 4
              = .spinning { s1 with
                  ib_map := (ctx_empty.ib_map.store (2 * ctx_empty.ib_put)
                    (Desc.lo ⟨ctx_empty.pb_base, ctx_empty.pb_size - 4, 0⟩)).store
                    (2 * ctx_empty.ib_put + 1) (Desc.hi ⟨ctx_empty.pb_base, ctx_empty.pb_size - 4, 0⟩)
                  ib_put := (ctx_empty.ib_put + 1) &&& ctx_empty.ib_mask
                  regs := ctx_empty.regs.store (0x8c / 4) ((ctx_empty.ib_put + 1) &&& ctx_empty.ib_mask)
                  pushed := ctx_empty.pushed ++ [⟨ctx_empty.pb_base, ctx_empty.pb_size - 4, 0⟩]
                  pb_put := ctx_empty.pb_size - 4
                  reads := ctx_empty.reads + 2 * (n + 1)
                  yields := ctx_empty.yields + (n + 1) }) ∧
          (pb_get_readback hw_get8 (ctx_empty.reads + 2 * k) ctx_empty.pb_base ≠ 0 → ∀ n, k ≤ n →
            __gdev_out_ring hw_get8 (n + 1) s1 4
              = .done { s1 with
                  ib_map := (ctx_empty.ib_map.store (2 * ctx_empty.ib_put)
                    (Desc.lo ⟨ctx_empty.pb_base, ctx_empty.pb_size - 4, 0⟩)).store
                    (2 * ctx_empty.ib_put + 1) (Desc.hi ⟨ctx_empty.pb_base, ctx_empty.pb_size - 4, 0⟩)
                  ib_put := (ctx_empty.ib_put + 1) &&& ctx_empty.ib_mask
                  regs := ctx_empty.regs.store (0x8c / 4) ((ctx_empty.ib_put + 1) &&& ctx_empty.ib_mask)
                  pushed := ctx_empty.pushed ++ [⟨ctx_empty.pb_base, ctx_empty.pb_size - 4, 0⟩]
                  pb_put := ctx_empty.pb_size - 4
                  pb_get := pb_get_readback hw_get8 (ctx_empty.reads + 2 * k) ctx_empty.pb_base
                  reads := ctx_empty.reads + 2 * (k + 1)
                  yields := ctx_empty.yields + k
                  pb_map := s1.pb_map.store ((ctx_empty.pb_size - 4) / 4) 4
                  pb_pos := 0 })) :=
  out_ring_fill_forces_fire hw_get8 0 4 ctx_empty [1, 2, 3] 4 (by decide) (by decide)
    (by decide) (by decide) (by decide) (by decide) (by decide) (by decide) (by decide)
    (by decide) (by decide) (by decide) (by decide) (by decide)

/-- C5, counterexample: with `pb_put = 8`, `pb_pos = 0` in a 16-byte push
buffer, `__gdev_fire_ring` returns having pushed the single descriptor
`(pb_base + 8, 8, 0)`, not that descriptor followed by `(pb_base, pb_pos, 0)`. -/
theorem fire_ring_wrap_to_zero_pushes_one :
    ctx_wrap0.pb_size = ctx_wrap0.pb_mask + 1 ∧ ctx_wrap0.pb_put < ctx_wrap0.pb_size ∧
    ctx_wrap0.pb_pos < ctx_wrap0.pb_put ∧
    (__gdev_fire_ring hw_zero 0 ctx_wrap0).returned = true ∧
    (__gdev_fire_ring hw_zero 0 ctx_wrap0).state.pushed = [⟨0x120000008, 8, 0⟩] ∧
    ¬ ((__gdev_fire_ring hw_zero 0 ctx_wrap0).state.pushed
        = ctx_wrap0.pushed ++
          [⟨ctx_wrap0.pb_base + ctx_wrap0.pb_put, ctx_wrap0.pb_size - ctx_wrap0.pb_put, 0⟩,
           ⟨ctx_wrap0.pb_base, ctx_wrap0.pb_pos, 0⟩]) := by
  decide

/-- C5, amended: `__gdev_fire_ring` flushes exactly the pending span.  With
`pb_put, pb_pos < pb_size` and `pb_put != pb_pos`, a returned call has pushed
`(pb_base + pb_put, pb_pos - pb_put, 0)` if `pb_pos > pb_put`; if
`pb_pos < pb_put` it has pushed `(pb_base + pb_put, pb_size - pb_put, 0)` and
then, only when `pb_pos != 0`, `(pb_base, pb_pos, 0)`.  The lengths pushed sum
to `(pb_pos - pb_put) mod pb_size`, `pb_put` is `pb_pos` afterwards and
`pb_pos` is unchanged.  The call returns at once when the indirect buffer has
two free slots.  Base addresses are computed in 64 bits. -/
theorem fire_ring_flushes_pending (hw : Hw) (fuel : Nat) (s : gdev_ctx)
    (h32 : s.pb_size < 2 ^ 32) (hput : s.pb_put < s.pb_size) (hpos : s.pb_pos < s.pb_size)
    (hne : s.pb_put ≠ s.pb_pos) :
    (∀ s', __gdev_fire_ring hw fuel s = .done s' →
      (s.pb_put < s.pb_pos →
        s'.pushed = s.pushed ++
          [⟨(s.pb_base + s.pb_put) % 2 ^ 64, s.pb_pos - s.pb_put, 0⟩]) ∧
      (s.pb_pos < s.pb_put → s.pb_pos ≠ 0 →
        s'.pushed = s.pushed ++
          [⟨(s.pb_base + s.pb_put) % 2 ^ 64, s.pb_size - s.pb_put, 0⟩,
           ⟨s.pb_base, s.pb_pos, 0⟩]) ∧
      (s.pb_pos < s.pb_put → s.pb_pos = 0 →
        s'.pushed = s.pushed ++
          [⟨(s.pb_base + s.pb_put) % 2 ^ 64, s.pb_size - s.pb_put, 0⟩]) ∧
      ((s'.pushed.drop s.pushed.length).map Desc.len).sum
        = (s.pb_pos + s.pb_size - s.pb_put) % s.pb_size ∧
      s'.pb_put = s.pb_pos ∧ s'.pb_pos = s.pb_pos) ∧
    (∀ a, ib_ring a s → 2 ≤ ib_free s → ∃ s', __gdev_fire_ring hw fuel s = .done s') := by
  constructor
  · intro s' hdone
    obtain ⟨s2, hf, rfl⟩ := fire_ring_done hw fuel s s' hdone
    have hpushed : s2.pushed = s.pushed ++ fire_list s := by rw [hf]
    have hpos2 : s2.pb_pos = s.pb_pos := by rw [hf]
    dsimp only
    rw [hpushed, hpos2]
    refine ⟨?_, ?_, ?_, ?_, rfl, rfl⟩
    · intro hlt
      rw [fire_list_forward s (by omega) hlt]
    · intro hlt hz
      rw [fire_list_wrap s h32 hput hlt, if_pos hz]
    · intro hlt hz
      rw [fire_list_wrap s h32 hput hlt, if_neg (by simpa using hz)]
    · rw [List.drop_left]
      by_cases hlt : s.pb_put < s.pb_pos
      · have em : (s.pb_pos + s.pb_size - s.pb_put) % s.pb_size = s.pb_pos - s.pb_put := by
          have : s.pb_pos + s.pb_size - s.pb_put = (s.pb_pos - s.pb_put) + s.pb_size := by
            omega
          rw [this, Nat.add_mod_right]
          exact Nat.mod_eq_of_lt (by omega)
        rw [fire_list_forward s (by omega) hlt, em]
        simp
      · have hgt : s.pb_pos < s.pb_put := by omega
        have em : (s.pb_pos + s.pb_size - s.pb_put) % s.pb_size
            = s.pb_pos + s.pb_size - s.pb_put := Nat.mod_eq_of_lt (by omega)
        rw [fire_list_wrap s h32 hput hgt, em]
        by_cases hz : s.pb_pos = 0
        · rw [if_neg (by simpa using hz)]
          simp
          omega
        · rw [if_pos hz]
          simp
          omega
  · intro a hring hfree
    obtain ⟨s', h, -⟩ := fire_ring_room hw fuel a s hring hfree
    exact ⟨s', h⟩

/-- C5, witness: the wrapping span of `ctx_wrap4` is flushed at once. -/
theorem fire_ring_flushes_pending_witness :
    ∃ s', __gdev_fire_ring hw_zero 0 ctx_wrap4 = .done s' :=
  (fire_ring_flushes_pending hw_zero 0 ctx_wrap4 (by decide) (by decide) (by decide)
    (by decide)).2 3 (by decide) (by decide)

/-- C6: when the indirect buffer is not full, `__gdev_push_fifo` returns
without waiting, having written the low and the high 32 bits of
`w = base | len * 2^40 | flags * 2^40 (mod 2^64)` to words `2 * p` and
`2 * p + 1` of `ib_map` (`p` the old `ib_put`), set `ib_put` to
`(p + 1) & ib_mask`, and left the put register `regs[0x8c/4]` equal to the new
`ib_put`.  The word indices are computed in 32 bits, hence `p < 2^31`. -/
theorem push_fifo_writes_descriptor (hw : Hw) (fuel : Nat) (s : gdev_ctx) (base len : Nat)
    (flags : Int) (hmask : s.ib_mask < 2 ^ 32) (hput : s.ib_put < 2 ^ 31)
    (hroom : (s.ib_put + 1) &&& s.ib_mask ≠ s.ib_get) :
    ∃ s', __gdev_push_fifo hw fuel s base len flags = .done s' ∧
      s'.ib_map (2 * s.ib_put)
        = ((base ||| len * 2 ^ 40 ||| toU64 flags * 2 ^ 40) % 2 ^ 64) % 2 ^ 32 ∧
      s'.ib_map (2 * s.ib_put + 1)
        = ((base ||| len * 2 ^ 40 ||| toU64 flags * 2 ^ 40) % 2 ^ 64) / 2 ^ 32 ∧
      s'.ib_put = (s.ib_put + 1) &&& s.ib_mask ∧
      s'.regs (0x8c / 4) = s'.ib_put ∧
      s'.reads = s.reads := by
  have hfull : ib_full s = false := by
    rw [Bool.eq_false_iff]
    intro h
    exact hroom ((ib_full_iff s hmask).1 h)
  refine ⟨ib_write s base len flags, push_fifo_of_room hw fuel s base len flags hfull, ?_⟩
  have e0 : s.ib_put * 2 % 2 ^ 32 = 2 * s.ib_put := by omega
  have e1 : (s.ib_put * 2 + 1) % 2 ^ 32 = 2 * s.ib_put + 1 := by omega
  simp only [ib_write, Mem.store_self, e0, e1, and_mod32 _ _ hmask, Mem.store_same]
  refine ⟨?_, ib_word_hi base len flags, trivial, trivial, trivial⟩
  rw [Mem.store_other _ _ _ _ (by omega), Mem.store_same]
  exact ib_word_lo base len flags

/-- C6, witness: a push into the empty ring of `ctx_empty`. -/
theorem push_fifo_writes_descriptor_witness :
    ∃ s', __gdev_push_fifo hw_zero 0 ctx_empty 0x120000000 8 2 = .done s' ∧
      s'.ib_map (2 * ctx_empty.ib_put)
        = ((0x120000000 ||| 8 * 2 ^ 40 ||| toU64 2 * 2 ^ 40) % 2 ^ 64) % 2 ^ 32 ∧
      s'.ib_map (2 * ctx_empty.ib_put + 1)
        = ((0x120000000 ||| 8 * 2 ^ 40 ||| toU64 2 * 2 ^ 40) % 2 ^ 64) / 2 ^ 32 ∧
      s'.ib_put = (ctx_empty.ib_put + 1) &&& ctx_empty.ib_mask ∧
      s'.regs (0x8c / 4) = s'.ib_put ∧
      s'.reads = ctx_empty.reads :=
  push_fifo_writes_descriptor hw_zero 0 ctx_empty 0x120000000 8 2
    (by decide) (by decide) (by decide)

/-- C7: the descriptor packing of `__gdev_push_fifo` is lossless.  For
`base < 2^40`, `len < 2^24` a multiple of 4 and `flags` in `{0,1,2,3}`, the two
words `(lo, hi)` that a returned `__gdev_push_fifo` has written to the slot at
the old `ib_put` satisfy `base = lo + (hi & 0xff) * 2^32`,
`len = (hi >> 8) & ~3` and `flags = (hi >> 8) & 3`; so two pushes from the same
context that leave the same two words were given the same triple. -/
theorem push_fifo_packing_lossless (hw : Hw) (fuel : Nat) (s : gdev_ctx)
    (hput : s.ib_put < 2 ^ 31) :
    (∀ (base len : Nat) (flags : Int) (s' : gdev_ctx),
      base < 2 ^ 40 → len < 2 ^ 24 → len % 4 = 0 → 0 ≤ flags → flags ≤ 3 →
      __gdev_push_fifo hw fuel s base len flags = .done s' →
        base = s'.ib_map (2 * s.ib_put) + (s'.ib_map (2 * s.ib_put + 1) &&& 0xff) * 2 ^ 32 ∧
        len = (s'.ib_map (2 * s.ib_put + 1) >>> 8) &&& 0xfffffffc ∧
        flags = (((s'.ib_map (2 * s.ib_put + 1) >>> 8) &&& 3 : Nat) : Int)) ∧
    (∀ (b1 l1 : Nat) (f1 : Int) (b2 l2 : Nat) (f2 : Int) (s1 s2 : gdev_ctx),
      b1 < 2 ^ 40 → l1 < 2 ^ 24 → l1 % 4 = 0 → 0 ≤ f1 → f1 ≤ 3 →
      b2 < 2 ^ 40 → l2 < 2 ^ 24 → l2 % 4 = 0 → 0 ≤ f2 → f2 ≤ 3 →
      __gdev_push_fifo hw fuel s b1 l1 f1 = .done s1 →
      __gdev_push_fifo hw fuel s b2 l2 f2 = .done s2 →
      s1.ib_map (2 * s.ib_put) = s2.ib_map (2 * s.ib_put) →
      s1.ib_map (2 * s.ib_put + 1) = s2.ib_map (2 * s.ib_put + 1) →
        b1 = b2 ∧ l1 = l2 ∧ f1 = f2) := by
  have key : ∀ (base len : Nat) (flags : Int) (s' : gdev_ctx),
      base < 2 ^ 40 → len < 2 ^ 24 → len % 4 = 0 → 0 ≤ flags → flags ≤ 3 →
      __gdev_push_fifo hw fuel s base len flags = .done s' →
        base = s'.ib_map (2 * s.ib_put) + (s'.ib_map (2 * s.ib_put + 1) &&& 0xff) * 2 ^ 32 ∧
        len = (s'.ib_map (2 * s.ib_put + 1) >>> 8) &&& 0xfffffffc ∧
        flags = (((s'.ib_map (2 * s.ib_put + 1) >>> 8) &&& 3 : Nat) : Int) := by
    intro base len flags s' hbase hlen hal hf0 hf3 hdone
    obtain ⟨s1, -, hfr, -, rfl⟩ := push_fifo_done hw fuel s s' base len flags hdone
    have hp : s1.ib_put = s.ib_put := by rw [hfr]
    have e0 : s.ib_put * 2 % 2 ^ 32 = 2 * s.ib_put := by omega
    have e1 : (s.ib_put * 2 + 1) % 2 ^ 32 = 2 * s.ib_put + 1 := by omega
    have hlo : (ib_write s1 base len flags).ib_map (2 * s.ib_put)
        = ib_word base len flags % 2 ^ 32 := by
      simp only [ib_write, Mem.store_self, hp, e0, e1]
      rw [Mem.store_other _ _ _ _ (by omega), Mem.store_same]
    have hhi : (ib_write s1 base len flags).ib_map (2 * s.ib_put + 1)
        = (ib_word base len flags >>> 32) % 2 ^ 32 := by
      simp only [ib_write, Mem.store_self, hp, e0, e1, Mem.store_same]
    rw [hlo, hhi, ib_word_small base len flags hbase hlen hal hf0 hf3]
    have hff : (0xff : Nat) = 2 ^ 8 - 1 := by norm_num
    have h3 : (3 : Nat) = 2 ^ 2 - 1 := by norm_num
    rw [hff, h3, Nat.and_pow_two_sub_one_eq_mod, Nat.and_pow_two_sub_one_eq_mod,
      and_clear_low2 _ (by rw [Nat.shiftRight_eq_div_pow]; omega)]
    simp only [Nat.shiftRight_eq_div_pow]
    refine ⟨by omega, by omega, by omega⟩
  refine ⟨key, ?_⟩
  intro b1 l1 f1 b2 l2 f2 s1 s2 hb1 hl1 ha1 h01 h31 hb2 hl2 ha2 h02 h32 hd1 hd2 elo ehi
  obtain ⟨k1, k2, k3⟩ := key b1 l1 f1 s1 hb1 hl1 ha1 h01 h31 hd1
  obtain ⟨j1, j2, j3⟩ := key b2 l2 f2 s2 hb2 hl2 ha2 h02 h32 hd2
  rw [elo, ehi] at k1
  rw [ehi] at k2 k3
  exact ⟨k1.trans j1.symm, k2.trans j2.symm, k3.trans j3.symm⟩

/-- C7, witness: the descriptor `(0x120000000, 8, 2)` decoded from its two words. -/
theorem push_fifo_packing_lossless_witness :
    0x120000000
        = (ib_write ctx_empty 0x120000000 8 2).ib_map (2 * ctx_empty.ib_put)
          + ((ib_write ctx_empty 0x120000000 8 2).ib_map (2 * ctx_empty.ib_put + 1) &&& 0xff)
            * 2 ^ 32 ∧
      8 = ((ib_write ctx_empty 0x120000000 8 2).ib_map (2 * ctx_empty.ib_put + 1) >>> 8)
            &&& 0xfffffffc ∧
      (2 : Int) = ((((ib_write ctx_empty 0x120000000 8 2).ib_map (2 * ctx_empty.ib_put + 1) >>> 8)
            &&& 3 : Nat) : Int) :=
  (push_fifo_packing_lossless hw_zero 0 ctx_empty (by decide)).1 0x120000000 8 2
    (ib_write ctx_empty 0x120000000 8 2) (by decide) (by decide) (by decide) (by decide)
    (by decide) rfl

/-- C8: with room in the push buffer (`(pb_pos + 4) & pb_mask != pb_get`),
`__gdev_out_ring` returns without waiting; it sets `pb_map[pb_pos/4]` to the
word and `pb_pos` to `(pb_pos + 4) & pb_mask` and changes nothing else: the
rest of `pb_map`, `pb_put`, `pb_get`, the indirect buffer, the registers, the
read and yield counters and the list of pushed descriptors are the same. -/
theorem out_ring_only_buffers (hw : Hw) (fuel : Nat) (s : gdev_ctx) (word : Nat)
    (hmask : s.pb_mask < 2 ^ 32) (hword : word < 2 ^ 32)
    (hroom : (s.pb_pos + 4) &&& s.pb_mask ≠ s.pb_get) :
    __gdev_out_ring hw fuel s word
      = .done { s with
          pb_map := s.pb_map.store (s.pb_pos / 4) word
          pb_pos := (s.pb_pos + 4) &&& s.pb_mask } := by
  have hfull : pb_full s = false := by
    rw [Bool.eq_false_iff]
    intro h
    exact hroom ((pb_full_iff s hmask).1 h)
  rw [out_ring_of_room hw fuel s word hfull]
  simp only [pb_write, and_mod32 _ _ hmask, Nat.mod_eq_of_lt hword]

/-- C8, witness: a word buffered into the empty push buffer of `ctx_empty`. -/
theorem out_ring_only_buffers_witness :
    __gdev_out_ring hw_zero 0 ctx_empty 0xdeadbeef
      = .done { ctx_empty with
          pb_map := ctx_empty.pb_map.store (ctx_empty.pb_pos / 4) 0xdeadbeef
          pb_pos := (ctx_empty.pb_pos + 4) &&& ctx_empty.pb_mask } :=
  out_ring_only_buffers hw_zero 0 ctx_empty 0xdeadbeef (by decide) (by decide) (by decide)

/-- C9: `__gdev_update_get` reads `lo = regs[0x58/4]` and `hi = regs[0x5c/4]`
and changes `pb_get` only: to 0 when bit 31 of `hi` is clear, else to
`(((hi * 2^32 + lo) & 0xffffffffff) - pb_base) mod 2^32`.  For an address `a`
with `pb_base <= a < pb_base + pb_size <= 2^40`, the readback `lo = a mod 2^32`,
`hi = 0x80000000 | (a >> 32)` gives `pb_get = a - pb_base`. -/
theorem update_get_decodes (hw : Hw) (s : gdev_ctx) :
    __gdev_update_get hw s
        = { s with pb_get := (__gdev_update_get hw s).pb_get, reads := s.reads + 2 } ∧
    ((hw (s.reads + 1) (0x5c / 4) % 2 ^ 32).testBit 31 = false →
      (__gdev_update_get hw s).pb_get = 0) ∧
    ((hw (s.reads + 1) (0x5c / 4) % 2 ^ 32).testBit 31 = true →
      (((__gdev_update_get hw s).pb_get : Nat) : Int)
        = ((((hw (s.reads + 1) (0x5c / 4) % 2 ^ 32) * 2 ^ 32 + hw s.reads (0x58 / 4) % 2 ^ 32)
              &&& 0xffffffffff : Nat) - (s.pb_base : Int)) % 2 ^ 32) ∧
    (∀ a : Nat, s.pb_size < 2 ^ 32 → s.pb_base ≤ a → a < s.pb_base + s.pb_size →
      s.pb_base + s.pb_size ≤ 2 ^ 40 →
      hw s.reads (0x58 / 4) = a % 2 ^ 32 →
      hw (s.reads + 1) (0x5c / 4) = 0x80000000 ||| (a >>> 32) →
      (__gdev_update_get hw s).pb_get = a - s.pb_base) := by
  have hor : ∀ hi lo : Nat, lo < 2 ^ 32 →
      (hi <<< 32) % 2 ^ 64 ||| lo = (hi * 2 ^ 32) % 2 ^ 64 + lo := by
    intro hi lo hlo
    have h := shl_or_disjoint (hi % 2 ^ 32) lo 32 hlo
    have e : (hi <<< 32) % 2 ^ 64 = (hi % 2 ^ 32) <<< 32 := by
      simp only [Nat.shiftLeft_eq]; omega
    rw [e, h]; omega
  refine ⟨?_, ?_, ?_, ?_⟩
  · unfold __gdev_update_get readl
    dsimp only
    split <;> rfl
  · intro hbit
    unfold __gdev_update_get readl
    dsimp only
    rw [and_bit31, hbit]
    simp
  · intro hbit
    unfold __gdev_update_get readl
    dsimp only
    rw [and_bit31, hbit]
    simp only [if_true]
    rw [if_pos (by norm_num), hor _ _ (Nat.mod_lt _ (by norm_num))]
    have e : (hw (s.reads + 1) (92 / 4) % 2 ^ 32 * 2 ^ 32) % 2 ^ 64
        = hw (s.reads + 1) (92 / 4) % 2 ^ 32 * 2 ^ 32 := by omega
    rw [e]
    dsimp only
    omega
  · intro a hsize hlo hhi h40 hrlo hrhi
    have ha32 : a >>> 32 < 2 ^ 8 := by rw [Nat.shiftRight_eq_div_pow]; omega
    have hhiv : (0x80000000 : Nat) ||| (a >>> 32) = 2 ^ 31 + a / 2 ^ 32 := by
      have h := shl_or_disjoint 1 (a >>> 32) 31 (by omega)
      have e : (1 : Nat) <<< 31 = 0x80000000 := by decide
      rw [e] at h
      rw [h, Nat.shiftRight_eq_div_pow]; omega
    have hbit : (hw (s.reads + 1) (0x5c / 4) % 2 ^ 32).testBit 31 = true := by
      rw [testBit31_iff _ (Nat.mod_lt _ (by norm_num)), hrhi, hhiv]; omega
    unfold __gdev_update_get readl
    dsimp only
    rw [and_bit31, hbit]
    simp only [if_true]
    rw [if_pos (by norm_num), hor _ _ (Nat.mod_lt _ (by norm_num)), hrlo, hrhi, hhiv]
    have hmask : (0xffffffffff : Nat) = 2 ^ 40 - 1 := by norm_num
    rw [hmask, Nat.and_pow_two_sub_one_eq_mod]
    dsimp only
    omega

/-- C9, witness: the readback of address `0x120000008` gives `pb_get = 8`. -/
theorem update_get_decodes_witness :
    (__gdev_update_get hw_get8 ctx_empty).pb_get = 0x120000008 - ctx_empty.pb_base :=
  (update_get_decodes hw_get8 ctx_empty).2.2.2 0x120000008
    (by decide) (by decide) (by decide) (by decide) (by decide) (by decide)

/-- C10, counterexample: a 16-byte push buffer with `pb_pos = 4` and cached
`pb_get = 8` is full; a readback with the presence bit clear sets `pb_get` to
0, after which the buffer is no longer treated as full: `__gdev_out_ring`
returns after that iteration and has written its word to `pb_map[1]`. -/
theorem out_ring_presence_clear_writes :
    pb_full ctx_pb_full = true ∧
    (hw_zero (ctx_pb_full.reads + 1) (0x5c / 4) % 2 ^ 32).testBit 31 = false ∧
    (__gdev_out_ring hw_zero 1 ctx_pb_full 0xdeadbeef).returned = true ∧
    (__gdev_out_ring hw_zero 1 ctx_pb_full 0xdeadbeef).state.pb_get = 0 ∧
    ctx_pb_full.pb_map (ctx_pb_full.pb_pos / 4) = 0 ∧
    (__gdev_out_ring hw_zero 1 ctx_pb_full 0xdeadbeef).state.pb_map (ctx_pb_full.pb_pos / 4)
      = 0xdeadbeef := by
  decide

/-- C10, amended: when `__gdev_out_ring` finds the push buffer full and the
get-register readback of that iteration has bit 31 of its high word clear, the
refresh sets `pb_get` to 0.  The buffer is still treated as full afterwards
exactly when `(pb_pos + 4) & pb_mask == 0`: then the loop goes on with the
next iteration and `pb_map` is as on entry; otherwise the loop is left after
this iteration and the word is written to `pb_map[pb_pos/4]`. -/
theorem out_ring_presence_clear (hw : Hw) (fuel : Nat) (s sf : gdev_ctx) (word : Nat)
    (hmask : s.pb_mask < 2 ^ 32) (hfull : (s.pb_pos + 4) &&& s.pb_mask = s.pb_get)
    (hfire : __gdev_fire_ring hw fuel s = .done sf)
    (hbit : (hw (sf.reads + 1) (0x5c / 4) % 2 ^ 32).testBit 31 = false) :
    ((s.pb_pos + 4) &&& s.pb_mask = 0 →
      pb_full { sf with pb_get := 0, reads := sf.reads + 2, yields := sf.yields + 1 } = true ∧
      sf.pb_map = s.pb_map ∧
      ∀ n, pb_wait hw fuel (n + 1) s
        = pb_wait hw fuel n
            { sf with pb_get := 0, reads := sf.reads + 2, yields := sf.yields + 1 }) ∧
    ((s.pb_pos + 4) &&& s.pb_mask ≠ 0 →
      pb_full { sf with pb_get := 0, reads := sf.reads + 2 } = false ∧
      (1 ≤ fuel →
        __gdev_out_ring hw fuel s word
          = .done { sf with
              pb_get := 0
              reads := sf.reads + 2
              pb_map := s.pb_map.store (s.pb_pos / 4) (word % 2 ^ 32)
              pb_pos := (s.pb_pos + 4) &&& s.pb_mask })) := by
  have hf : pb_full s = true := (pb_full_iff s hmask).2 hfull
  obtain ⟨hpos, hmk, hmap, -, -, -, -⟩ := fire_ring_done_pb hw fuel s sf hfire
  have hbody := pb_wait_body_done hw fuel s sf hfire
  rw [update_get_clear hw sf hbit] at hbody
  dsimp only at hbody
  constructor
  · intro hz
    have hg : s.pb_get = 0 := by rw [← hfull, hz]
    rw [if_pos hg] at hbody
    have hfull1 : pb_full
        { sf with
          pb_get := 0
          reads := sf.reads + 2
          yields := sf.yields + 1 } = true := by
      apply (pb_full_iff _ (by rw [← hmk] at hmask; exact hmask)).2
      show (sf.pb_pos + 4) &&& sf.pb_mask = 0
      rw [hpos, hmk, hz]
    refine ⟨hfull1, hmap, ?_⟩
    intro n
    rw [pb_wait, if_pos hf, hbody]
    rfl
  · intro hnz
    have hg : ¬ s.pb_get = 0 := by rw [← hfull]; exact hnz
    rw [if_neg hg] at hbody
    have hroom1 : pb_full { sf with pb_get := 0, reads := sf.reads + 2 } = false := by
      rw [Bool.eq_false_iff]
      intro hc
      have := (pb_full_iff { sf with pb_get := 0, reads := sf.reads + 2 }
        (by rw [← hmk] at hmask; exact hmask)).1 hc
      dsimp only at this
      rw [hpos, hmk] at this
      exact hnz this
    refine ⟨hroom1, ?_⟩
    intro hfuel
    obtain ⟨n, rfl⟩ : ∃ n, fuel = n + 1 := ⟨fuel - 1, by omega⟩
    rw [__gdev_out_ring, pb_wait, if_pos hf, hbody]
    simp only [Outcome.andThen]
    rw [pb_wait_of_room _ _ _ _ hroom1]
    simp only [pb_write, hpos, hmk, hmap, and_mod32 _ _ hmask]

/-- C10, witness: with `pb_pos = 12` in a 16-byte push buffer a cleared presence bit keeps the loop waiting. -/
theorem out_ring_presence_clear_witness :
    pb_full { ctx_pb_full0 with
        pb_get := 0, reads := ctx_pb_full0.reads + 2, yields := ctx_pb_full0.yields + 1 } = true ∧
      ctx_pb_full0.pb_map = ctx_pb_full0.pb_map ∧
      ∀ n, pb_wait hw_zero 1 (n + 1) ctx_pb_full0
        = pb_wait hw_zero 1 n
            { ctx_pb_full0 with
              pb_get := 0, reads := ctx_pb_full0.reads + 2, yields := ctx_pb_full0.yields + 1 } :=
  (out_ring_presence_clear hw_zero 1 ctx_pb_full0 ctx_pb_full0 0xdeadbeef (by decide)
    (by decide) rfl (by decide)).1 (by decide)

/-- C11: one slot is always kept unused in both rings.  For every context and
every register readback, a returned `__gdev_push_fifo` leaves
`ib_put != ib_get` and a returned `__gdev_out_ring` leaves `pb_pos != pb_get`
(cached values); so after any non-empty sequence of returned pushes or of
returned `__gdev_out_ring` calls the put index differs from the cached get
index, and `put == get` stands for the empty ring only.  Both calls return at
once when their ring is not full. -/
theorem one_slot_kept_unused (hw : Hw) (fuel : Nat) (s : gdev_ctx) :
    (∀ (base len : Nat) (flags : Int) (s' : gdev_ctx),
      __gdev_push_fifo hw fuel s base len flags = .done s' → s'.ib_put ≠ s'.ib_get) ∧
    (∀ (word : Nat) (s' : gdev_ctx),
      __gdev_out_ring hw fuel s word = .done s' → s'.pb_pos ≠ s'.pb_get) ∧
    (∀ (ds : List Desc) (s' : gdev_ctx), ds ≠ [] →
      push_all hw fuel s ds = .done s' → s'.ib_put ≠ s'.ib_get) ∧
    (∀ (ws : List Nat) (s' : gdev_ctx), ws ≠ [] →
      out_all hw fuel s ws = .done s' → s'.pb_pos ≠ s'.pb_get) ∧
    (∀ (base len : Nat) (flags : Int), ib_full s = false →
      (__gdev_push_fifo hw fuel s base len flags).returned = true) ∧
    (∀ word : Nat, pb_full s = false → (__gdev_out_ring hw fuel s word).returned = true) := by
  refine ⟨?_, ?_, ?_, ?_, ?_, ?_⟩
  · intro base len flags s' h
    exact push_fifo_done_ne hw fuel s s' base len flags h
  · intro word s' h
    exact out_ring_done_ne hw fuel s s' word h
  · intro ds s' hne h
    exact push_all_done_ne hw fuel ds s s' hne h
  · intro ws s' hne h
    exact out_all_done_ne hw fuel ws s s' hne h
  · intro base len flags h
    rw [push_fifo_of_room hw fuel s base len flags h]
    rfl
  · intro word h
    rw [out_ring_of_room hw fuel s word h]
    rfl

/-- C11, witness: a push into the empty ring of `ctx_empty` leaves
`ib_put != ib_get`. -/
theorem one_slot_kept_unused_witness :
    (ib_write ctx_empty 0x120000000 8 0).ib_put ≠ (ib_write ctx_empty 0x120000000 8 0).ib_get :=
  (one_slot_kept_unused hw_zero 0 ctx_empty).1 0x120000000 8 0
    (ib_write ctx_empty 0x120000000 8 0) rfl

/-- C12: the producer indices stay in range.  From a context with
`ib_mask = 2^a - 1`, `pb_mask = 2^b - 1` (`b >= 2`), `ib_put <= ib_mask`,
`pb_pos <= pb_mask`, `pb_put <= pb_mask` and `pb_pos`, `pb_put` multiples of 4,
each of `__gdev_push_fifo`, `__gdev_update_get`, `__gdev_fire_ring` and
`__gdev_out_ring` yields, for every register readback, a context with the same
properties, whether the call has returned or is still in a wait loop. -/
theorem producer_indices_in_range (hw : Hw) (fuel a b : Nat) (s : gdev_ctx)
    (h : producer_ok a b s) :
    (∀ (base len : Nat) (flags : Int),
      producer_ok a b (__gdev_push_fifo hw fuel s base len flags).state) ∧
    producer_ok a b (__gdev_update_get hw s) ∧
    producer_ok a b (__gdev_fire_ring hw fuel s).state ∧
    (∀ word : Nat, producer_ok a b (__gdev_out_ring hw fuel s word).state) := by
  have hP := producer_ok_steps hw a b
  refine ⟨?_, hP.2.2.1 s h, fire_ring_inv hw _ hP fuel s h, ?_⟩
  · intro base len flags
    exact push_fifo_inv hw _ hP fuel s base len flags h
  · intro word
    exact out_ring_inv hw _ hP fuel s word h

/-- C12, witness: the wrapping span of `ctx_wrap4` flushed by
`__gdev_fire_ring`. -/
theorem producer_indices_in_range_witness :
    producer_ok 3 4 (__gdev_fire_ring hw_zero 0 ctx_wrap4).state :=
  (producer_indices_in_range hw_zero 0 3 4 ctx_wrap4 (by decide)).2.2.1

/-- C13, counterexample: the cached get indices are whatever the registers
read back.  When they read all ones, `__gdev_push_fifo` on the full 8-slot
ring of `ctx_ib_full` returns with `ib_get = 0xffffffff`, and
`__gdev_update_get` sets the `pb_get` of a 16-byte push buffer to
`0xdfffffff`. -/
theorem get_indices_follow_readback :
    ctx_ib_full.ib_get ≤ ctx_ib_full.ib_mask ∧ ctx_ib_full.pb_get ≤ ctx_ib_full.pb_mask ∧
    (__gdev_push_fifo hw_ones 1 ctx_ib_full 0x120000000 8 0).returned = true ∧
    (__gdev_push_fifo hw_ones 1 ctx_ib_full 0x120000000 8 0).state.ib_get = 0xffffffff ∧
    ¬ ((__gdev_push_fifo hw_ones 1 ctx_ib_full 0x120000000 8 0).state.ib_get
        ≤ (__gdev_push_fifo hw_ones 1 ctx_ib_full 0x120000000 8 0).state.ib_mask) ∧
    (__gdev_update_get hw_ones ctx_ib_full).pb_get = 0xdfffffff ∧
    ¬ ((__gdev_update_get hw_ones ctx_ib_full).pb_get
        ≤ (__gdev_update_get hw_ones ctx_ib_full).pb_mask) := by
  decide

/-- C13, amended: the consumer indices stay in range when the readbacks are.
From a context with `ib_get <= ib_mask` and `pb_get <= pb_mask`, if every
readback of the indirect-buffer get register is at most `ib_mask` and every
push-buffer get pair with the presence bit set holds an address within
`[pb_base, pb_base + pb_mask]`, then after `__gdev_push_fifo`,
`__gdev_update_get`, `__gdev_fire_ring` and `__gdev_out_ring` the cached
indices still satisfy `ib_get <= ib_mask` and `pb_get <= pb_mask`, whether the
call has returned or is still in a wait loop. -/
theorem consumer_indices_in_range (hw : Hw) (fuel : Nat) (s : gdev_ctx)
    (hr : hw_in_range hw s) (hib : s.ib_get ≤ s.ib_mask) (hpb : s.pb_get ≤ s.pb_mask) :
    (∀ (base len : Nat) (flags : Int),
      (__gdev_push_fifo hw fuel s base len flags).state.ib_get
          ≤ (__gdev_push_fifo hw fuel s base len flags).state.ib_mask ∧
        (__gdev_push_fifo hw fuel s base len flags).state.pb_get
          ≤ (__gdev_push_fifo hw fuel s base len flags).state.pb_mask) ∧
    ((__gdev_update_get hw s).ib_get ≤ (__gdev_update_get hw s).ib_mask ∧
      (__gdev_update_get hw s).pb_get ≤ (__gdev_update_get hw s).pb_mask) ∧
    ((__gdev_fire_ring hw fuel s).state.ib_get ≤ (__gdev_fire_ring hw fuel s).state.ib_mask ∧
      (__gdev_fire_ring hw fuel s).state.pb_get ≤ (__gdev_fire_ring hw fuel s).state.pb_mask) ∧
    (∀ word : Nat,
      (__gdev_out_ring hw fuel s word).state.ib_get
          ≤ (__gdev_out_ring hw fuel s word).state.ib_mask ∧
        (__gdev_out_ring hw fuel s word).state.pb_get
          ≤ (__gdev_out_ring hw fuel s word).state.pb_mask) := by
  have hP := consumer_ok_steps hw s hr
  have h0 : consumer_ok s s := ⟨rfl, rfl, rfl, hib, hpb⟩
  refine ⟨?_, ?_, ?_, ?_⟩
  · intro base len flags
    have := push_fifo_inv hw _ hP fuel s base len flags h0
    exact ⟨this.2.2.2.1, this.2.2.2.2⟩
  · have := hP.2.2.1 s h0
    exact ⟨this.2.2.2.1, this.2.2.2.2⟩
  · have := fire_ring_inv hw _ hP fuel s h0
    exact ⟨this.2.2.2.1, this.2.2.2.2⟩
  · intro word
    have := out_ring_inv hw _ hP fuel s word h0
    exact ⟨this.2.2.2.1, this.2.2.2.2⟩

/-- C13, witness: `__gdev_update_get` on `ctx_empty` with the in-range
readbacks of `hw_ranged`. -/
theorem consumer_indices_in_range_witness :
    (__gdev_update_get hw_ranged ctx_empty).ib_get ≤ (__gdev_update_get hw_ranged ctx_empty).ib_mask ∧
      (__gdev_update_get hw_ranged ctx_empty).pb_get
        ≤ (__gdev_update_get hw_ranged ctx_empty).pb_mask :=
  (consumer_indices_in_range hw_ranged 0 ctx_empty hw_ranged_in_range (by decide)
    (by decide)).2.1

/-- C14: the nv50 header packs its fields losslessly at fixed bit positions.
For `0 <= mthd < 2^13`, `0 <= subc < 8` and `0 <= len < 2^11`, on a context
with room in the push buffer, the word `h` that `__gdev_begin_ring_nv50` emits
satisfies `h & 0x1fff = mthd`, `(h >> 13) & 7 = subc`,
`(h >> 18) & 0x7ff = len` and `h >> 29 = 0`; the word that
`__gdev_begin_ring_nv50_const` emits has the same three fields and
`h >> 29 = 2`, and equals the normal header with bit 30 set. -/
theorem nv50_header_layout (hw : Hw) (fuel : Nat) (s : gdev_ctx) (subc mthd len : Int)
    (hroom : pb_full s = false) (hm0 : 0 ≤ mthd) (hm : mthd < 2 ^ 13) (hs0 : 0 ≤ subc)
    (hs : subc < 8) (hl0 : 0 ≤ len) (hl : len < 2 ^ 11) :
    ((__gdev_begin_ring_nv50 hw fuel s subc mthd len).returned = true ∧
      ((emitted (__gdev_begin_ring_nv50 hw fuel s subc mthd len) s &&& 0x1fff : Nat) : Int)
        = mthd ∧
      (((emitted (__gdev_begin_ring_nv50 hw fuel s subc mthd len) s >>> 13) &&& 7 : Nat) : Int)
        = subc ∧
      (((emitted (__gdev_begin_ring_nv50 hw fuel s subc mthd len) s >>> 18) &&& 0x7ff : Nat)
        : Int) = len ∧
      emitted (__gdev_begin_ring_nv50 hw fuel s subc mthd len) s >>> 29 = 0) ∧
    ((__gdev_begin_ring_nv50_const hw fuel s subc mthd len).returned = true ∧
      ((emitted (__gdev_begin_ring_nv50_const hw fuel s subc mthd len) s &&& 0x1fff : Nat)
        : Int) = mthd ∧
      (((emitted (__gdev_begin_ring_nv50_const hw fuel s subc mthd len) s >>> 13) &&& 7 : Nat)
        : Int) = subc ∧
      (((emitted (__gdev_begin_ring_nv50_const hw fuel s subc mthd len) s >>> 18) &&& 0x7ff
        : Nat) : Int) = len ∧
      emitted (__gdev_begin_ring_nv50_const hw fuel s subc mthd len) s >>> 29 = 2 ∧
      emitted (__gdev_begin_ring_nv50_const hw fuel s subc mthd len) s
        = emitted (__gdev_begin_ring_nv50 hw fuel s subc mthd len) s ||| 0x40000000) := by
  obtain ⟨m, rfl⟩ := Int.eq_ofNat_of_zero_le hm0
  obtain ⟨c, rfl⟩ := Int.eq_ofNat_of_zero_le hs0
  obtain ⟨l, rfl⟩ := Int.eq_ofNat_of_zero_le hl0
  have hm' : m < 2 ^ 13 := by omega
  have hc' : c < 8 := by omega
  have hl' : l < 2 ^ 11 := by omega
  obtain ⟨⟨r1, e1⟩, ⟨r2, e2⟩⟩ := begin_ring_nv50_emitted hw fuel s c m l hroom hm' hc' hl'
  have ebit : (0x40000000 : Nat) = 1 <<< 30 := by decide
  rw [e1, e2, ebit, or_eq_add_shl _ 1 30 (by omega)]
  simp only [and_1fff, and_7ff, and_7, Nat.shiftRight_eq_div_pow]
  refine ⟨⟨r1, ?_, ?_, ?_, ?_⟩, ⟨r2, ?_, ?_, ?_, ?_, ?_⟩⟩ <;> omega

/-- C14, witness: the nv50 headers for subchannel 1, method `0x100`, count 3
on `ctx_empty`. -/
theorem nv50_header_layout_witness :
    emitted (__gdev_begin_ring_nv50 hw_zero 0 ctx_empty 1 0x100 3) ctx_empty >>> 29 = 0 :=
  (nv50_header_layout hw_zero 0 ctx_empty 1 0x100 3 (by decide) (by decide) (by decide)
    (by decide) (by decide) (by decide) (by decide)).1.2.2.2.2

/-- C15: the nvc0 header packs its fields losslessly, the method address
divided by 4.  For `0 <= mthd < 2^15` a multiple of 4, `0 <= subc < 8` and
`0 <= len < 2^13`, on a context with room in the push buffer, the word `h`
that `__gdev_begin_ring_nvc0` emits satisfies `(h & 0x1fff) * 4 = mthd`,
`(h >> 13) & 7 = subc`, `(h >> 16) & 0x1fff = len` and `h >> 29 = 1`; the word
that `__gdev_begin_ring_nvc0_const` emits has the same three fields and
`h >> 29 = 3`, and equals the normal header with bit 30 set. -/
theorem nvc0_header_layout (hw : Hw) (fuel : Nat) (s : gdev_ctx) (subc mthd len : Int)
    (hroom : pb_full s = false) (hm0 : 0 ≤ mthd) (hm : mthd < 2 ^ 15) (hal : mthd % 4 = 0)
    (hs0 : 0 ≤ subc) (hs : subc < 8) (hl0 : 0 ≤ len) (hl : len < 2 ^ 13) :
    ((__gdev_begin_ring_nvc0 hw fuel s subc mthd len).returned = true ∧
      (((emitted (__gdev_begin_ring_nvc0 hw fuel s subc mthd len) s &&& 0x1fff) * 4 : Nat)
        : Int) = mthd ∧
      (((emitted (__gdev_begin_ring_nvc0 hw fuel s subc mthd len) s >>> 13) &&& 7 : Nat) : Int)
        = subc ∧
      (((emitted (__gdev_begin_ring_nvc0 hw fuel s subc mthd len) s >>> 16) &&& 0x1fff : Nat)
        : Int) = len ∧
      emitted (__gdev_begin_ring_nvc0 hw fuel s subc mthd len) s >>> 29 = 1) ∧
    ((__gdev_begin_ring_nvc0_const hw fuel s subc mthd len).returned = true ∧
      (((emitted (__gdev_begin_ring_nvc0_const hw fuel s subc mthd len) s &&& 0x1fff) * 4
        : Nat) : Int) = mthd ∧
      (((emitted (__gdev_begin_ring_nvc0_const hw fuel s subc mthd len) s >>> 13) &&& 7 : Nat)
        : Int) = subc ∧
      (((emitted (__gdev_begin_ring_nvc0_const hw fuel s subc mthd len) s >>> 16) &&& 0x1fff
        : Nat) : Int) = len ∧
      emitted (__gdev_begin_ring_nvc0_const hw fuel s subc mthd len) s >>> 29 = 3 ∧
      emitted (__gdev_begin_ring_nvc0_const hw fuel s subc mthd len) s
        = emitted (__gdev_begin_ring_nvc0 hw fuel s subc mthd len) s ||| 0x40000000) := by
  obtain ⟨m, rfl⟩ := Int.eq_ofNat_of_zero_le hm0
  obtain ⟨c, rfl⟩ := Int.eq_ofNat_of_zero_le hs0
  obtain ⟨l, rfl⟩ := Int.eq_ofNat_of_zero_le hl0
  have hm' : m < 2 ^ 15 := by omega
  have hc' : c < 8 := by omega
  have hl' : l < 2 ^ 13 := by omega
  obtain ⟨⟨r1, e1⟩, ⟨r2, e2⟩⟩ := begin_ring_nvc0_emitted hw fuel s c m l hroom hm' hc' hl'
  have ebit : (0x40000000 : Nat) = 1 <<< 30 := by decide
  rw [e1, e2, ebit, or_eq_add_shl _ 1 30 (by omega)]
  simp only [and_1fff, and_7, Nat.shiftRight_eq_div_pow]
  refine ⟨⟨r1, ?_, ?_, ?_, ?_⟩, ⟨r2, ?_, ?_, ?_, ?_, ?_⟩⟩ <;> omega

/-- C15, witness: the nvc0 headers for subchannel 1, method `0x100`, count 3
on `ctx_empty`. -/
theorem nvc0_header_layout_witness :
    emitted (__gdev_begin_ring_nvc0 hw_zero 0 ctx_empty 1 0x100 3) ctx_empty >>> 29 = 1 :=
  (nvc0_header_layout hw_zero 0 ctx_empty 1 0x100 3 (by decide) (by decide) (by decide)
    (by decide) (by decide) (by decide) (by decide) (by decide)).1.2.2.2.2

/-- C16: the two header layouts never produce the same word.  For in-range
fields (nv50: `0 <= mthd < 2^13`, `0 <= subc < 8`, `0 <= len < 2^11`; nvc0:
`0 <= mthd' < 2^15`, `0 <= subc' < 8`, `0 <= len' < 2^13`), on contexts with
room in the push buffer, the words emitted by `__gdev_begin_ring_nv50` and
`__gdev_begin_ring_nv50_const` have bit 29 clear and those emitted by
`__gdev_begin_ring_nvc0` and `__gdev_begin_ring_nvc0_const` have bit 29 set, so
no nv50 header equals an nvc0 header. -/
theorem header_layouts_disjoint (hw : Hw) (fuel : Nat) (s s' : gdev_ctx)
    (subc mthd len subc' mthd' len' : Int)
    (hroom : pb_full s = false) (hroom' : pb_full s' = false)
    (hm0 : 0 ≤ mthd) (hm : mthd < 2 ^ 13) (hs0 : 0 ≤ subc) (hs : subc < 8)
    (hl0 : 0 ≤ len) (hl : len < 2 ^ 11)
    (hm0' : 0 ≤ mthd') (hm' : mthd' < 2 ^ 15) (hs0' : 0 ≤ subc') (hs' : subc' < 8)
    (hl0' : 0 ≤ len') (hl' : len' < 2 ^ 13) :
    (emitted (__gdev_begin_ring_nv50 hw fuel s subc mthd len) s).testBit 29 = false ∧
    (emitted (__gdev_begin_ring_nv50_const hw fuel s subc mthd len) s).testBit 29 = false ∧
    (emitted (__gdev_begin_ring_nvc0 hw fuel s' subc' mthd' len') s').testBit 29 = true ∧
    (emitted (__gdev_begin_ring_nvc0_const hw fuel s' subc' mthd' len') s').testBit 29 = true ∧
    emitted (__gdev_begin_ring_nv50 hw fuel s subc mthd len) s
      ≠ emitted (__gdev_begin_ring_nvc0 hw fuel s' subc' mthd' len') s' ∧
    emitted (__gdev_begin_ring_nv50 hw fuel s subc mthd len) s
      ≠ emitted (__gdev_begin_ring_nvc0_const hw fuel s' subc' mthd' len') s' ∧
    emitted (__gdev_begin_ring_nv50_const hw fuel s subc mthd len) s
      ≠ emitted (__gdev_begin_ring_nvc0 hw fuel s' subc' mthd' len') s' ∧
    emitted (__gdev_begin_ring_nv50_const hw fuel s subc mthd len) s
      ≠ emitted (__gdev_begin_ring_nvc0_const hw fuel s' subc' mthd' len') s' := by
  obtain ⟨m, rfl⟩ := Int.eq_ofNat_of_zero_le hm0
  obtain ⟨c, rfl⟩ := Int.eq_ofNat_of_zero_le hs0
  obtain ⟨l, rfl⟩ := Int.eq_ofNat_of_zero_le hl0
  obtain ⟨m', rfl⟩ := Int.eq_ofNat_of_zero_le hm0'
  obtain ⟨c', rfl⟩ := Int.eq_ofNat_of_zero_le hs0'
  obtain ⟨l', rfl⟩ := Int.eq_ofNat_of_zero_le hl0'
  obtain ⟨⟨-, e1⟩, ⟨-, e2⟩⟩ := begin_ring_nv50_emitted hw fuel s c m l hroom (by omega)
    (by omega) (by omega)
  obtain ⟨⟨-, e3⟩, ⟨-, e4⟩⟩ := begin_ring_nvc0_emitted hw fuel s' c' m' l' hroom' (by omega)
    (by omega) (by omega)
  rw [e1, e2, e3, e4]
  refine ⟨testBit29_eq_false _ (by omega), testBit29_eq_false _ (by omega),
    testBit29_eq_true _ (by omega), testBit29_eq_true _ (by omega), ?_, ?_, ?_, ?_⟩ <;> omega

/-- C16, witness: an nv50 and an nvc0 header for the same fields differ. -/
theorem header_layouts_disjoint_witness :
    emitted (__gdev_begin_ring_nv50 hw_zero 0 ctx_empty 1 0x100 3) ctx_empty
      ≠ emitted (__gdev_begin_ring_nvc0 hw_zero 0 ctx_empty 1 0x100 3) ctx_empty :=
  (header_layouts_disjoint hw_zero 0 ctx_empty ctx_empty 1 0x100 3 1 0x100 3 (by decide)
    (by decide) (by decide) (by decide) (by decide) (by decide) (by decide) (by decide)
    (by decide) (by decide) (by decide) (by decide) (by decide) (by decide)).2.2.2.2.1

/-- C17: every descriptor `__gdev_fire_ring` pushes is a well-formed span of
the push buffer.  For a push buffer of `pb_size = 2^b >= 4` bytes with `pb_put, pb_pos < pb_size` multiples of 4 and `pb_base + pb_size <= 2^40`,
whatever the readbacks and whether the call has returned or is still
waiting, the descriptors it has pushed are at most two and each has
`pb_base <= base`, `base + len <= pb_base + pb_size`, `len > 0`, `len` a
multiple of 4 and `flags = 0`.  A returned call has pushed none when
`pb_put == pb_pos`, exactly one when `pb_pos > pb_put` or `pb_pos == 0`, and
two otherwise; the call returns at once when the indirect buffer has two free
slots. -/
theorem fire_ring_descriptors_well_formed (hw : Hw) (fuel b : Nat) (s : gdev_ctx)
    (hpow : s.pb_size = 2 ^ b) (hb : 2 ≤ b) (hb31 : b ≤ 31)
    (hput : s.pb_put < s.pb_size) (hpos : s.pb_pos < s.pb_size) (hput4 : s.pb_put % 4 = 0)
    (hpos4 : s.pb_pos % 4 = 0) (h40 : s.pb_base + s.pb_size ≤ 2 ^ 40) :
    (∃ ds, (__gdev_fire_ring hw fuel s).state.pushed = s.pushed ++ ds ∧ ds.length ≤ 2 ∧
      (∀ d ∈ ds, s.pb_base ≤ d.base ∧ d.base + d.len ≤ s.pb_base + s.pb_size ∧
        0 < d.len ∧ d.len % 4 = 0 ∧ d.flags = 0) ∧
      ((__gdev_fire_ring hw fuel s).returned = true →
        (s.pb_put = s.pb_pos → ds.length = 0) ∧
        (s.pb_put ≠ s.pb_pos → (s.pb_put < s.pb_pos ∨ s.pb_pos = 0) → ds.length = 1) ∧
        (s.pb_pos < s.pb_put → s.pb_pos ≠ 0 → ds.length = 2))) ∧
    (∀ a, ib_ring a s → 2 ≤ ib_free s → (__gdev_fire_ring hw fuel s).returned = true) := by
  constructor
  · obtain ⟨ds, hds, hpre, hall⟩ := fire_ring_pushed hw fuel s
    refine ⟨ds, hds, Nat.le_trans hpre.length_le (fire_list_length_le s), ?_, ?_⟩
    · intro d hd
      exact fire_list_well_formed s b hpow hb hb31 hput hpos hput4 hpos4 h40 d (hpre.subset hd)
    · intro hr
      rw [hall hr]
      exact fire_list_length s
  · intro a hring hfree
    obtain ⟨s', h, -⟩ := fire_ring_room hw fuel a s hring hfree
    rw [h]
    rfl

/-- C17, witness: the wrapping span of `ctx_wrap4` is flushed at once. -/
theorem fire_ring_descriptors_well_formed_witness :
    (__gdev_fire_ring hw_zero 0 ctx_wrap4).returned = true :=
  (fire_ring_descriptors_well_formed hw_zero 0 4 ctx_wrap4 (by decide) (by decide) (by decide)
    (by decide) (by decide) (by decide) (by decide) (by decide)).2 3 (by decide) (by decide)

/-- C18: `__gdev_fire_ring` is idempotent.  When `pb_pos == pb_put` it returns
the context unchanged: nothing is pushed and no register is read.  Hence, for
every context and all register readbacks, running `__gdev_fire_ring` a second
time after the first gives the same outcome, context and pushed descriptors,
as running it once. -/
theorem fire_ring_idempotent (hw hw' : Hw) (fuel fuel' : Nat) (s : gdev_ctx) :
    (s.pb_pos = s.pb_put → __gdev_fire_ring hw fuel s = .done s) ∧
    (__gdev_fire_ring hw fuel s).andThen (__gdev_fire_ring hw' fuel')
      = __gdev_fire_ring hw fuel s := by
  refine ⟨fire_ring_idle hw fuel s, ?_⟩
  cases h : __gdev_fire_ring hw fuel s with
  | done s' =>
    obtain ⟨hpos, -, -, -, -, -, hput⟩ := fire_ring_done_pb hw fuel s s' h
    show __gdev_fire_ring hw' fuel' s' = .done s'
    exact fire_ring_idle hw' fuel' s' (by rw [hpos, hput])
  | spinning s' => rfl

/-- C18, witness: `__gdev_fire_ring` on `ctx_empty`, where nothing is
pending. -/
theorem fire_ring_idempotent_witness :
    __gdev_fire_ring hw_zero 0 ctx_empty = .done ctx_empty :=
  (fire_ring_idempotent hw_zero hw_zero 0 0 ctx_empty).1 (by decide)

/-- C19: a waiting `__gdev_out_ring` does not flood the indirect buffer.  For
every context and all register readbacks, however many iterations the wait
loop of one `__gdev_out_ring` call runs, and whether the call has returned or
is still waiting, all it has pushed is a prefix of the at most two
descriptors that `__gdev_fire_ring` pushes in the first iteration.  Once the
first iteration is over, an iteration is the refresh of `pb_get` (with the
yield): after any number of them the context differs from the one after the
first iteration in the cached `pb_get` and the read and yield counters only,
and the loop is left exactly at the first refresh after which the buffer is
not treated as full (`pb_get != (pb_pos + 4) & pb_mask`). -/
theorem out_ring_no_flood (hw : Hw) (fuel : Nat) (s : gdev_ctx) (word : Nat) :
    (∃ ds, (__gdev_out_ring hw fuel s word).state.pushed = s.pushed ++ ds ∧
      ds <+: fire_list s ∧ ds.length ≤ 2) ∧
    (∀ n, ∃ ds, (pb_wait hw fuel n s).state.pushed = s.pushed ++ ds ∧
      ds <+: fire_list s ∧ ds.length ≤ 2) ∧
    (∀ s1, pb_full s = true → pb_wait_body hw fuel s = .done s1 →
      s1.pushed = s.pushed ++ fire_list s ∧
      (∀ n, pb_wait hw fuel (n + 1) s = pb_wait hw fuel n s1) ∧
      ∀ k, get_frame s1 ((pb_refresh hw)^[k] s1) ∧
        ((∀ j, j < k → pb_full ((pb_refresh hw)^[j] s1) = true) →
          (pb_full ((pb_refresh hw)^[k] s1) = false →
            ∀ n, pb_wait hw fuel (k + n) s1 = .done ((pb_refresh hw)^[k] s1)) ∧
          (pb_full ((pb_refresh hw)^[k] s1) = true →
            pb_wait hw fuel k s1 = .spinning ((pb_refresh hw)^[k] s1)))) := by
  refine ⟨?_, ?_, ?_⟩
  · obtain ⟨ds, h1, h2⟩ := pb_wait_pushed hw fuel fuel s
    exact ⟨ds, by rw [out_ring_pushed, h1], h2,
      Nat.le_trans h2.length_le (fire_list_length_le s)⟩
  · intro n
    obtain ⟨ds, h1, h2⟩ := pb_wait_pushed hw fuel n s
    exact ⟨ds, h1, h2, Nat.le_trans h2.length_le (fire_list_length_le s)⟩
  · intro s1 hfull hbody
    unfold pb_wait_body at hbody
    obtain ⟨sf, hf, hrest⟩ := andThen_eq_done _ _ _ hbody
    simp only [Outcome.done.injEq] at hrest
    obtain ⟨s2, hpf, hsf⟩ := fire_ring_done hw fuel s sf hf
    obtain ⟨hpos, -, -, -, -, -, hput⟩ := fire_ring_done_pb hw fuel s sf hf
    have hu := update_get_frame hw sf
    have hfr1 : get_frame sf s1 := by
      rw [← hrest]
      split
      · constructor
        · rw [hu]; rfl
        · rw [hu]; show sf.reads ≤ sf.reads + 2; omega
      · constructor
        · rw [hu]
        · rw [hu]; show sf.reads ≤ sf.reads + 2; omega
    have hidle : s1.pb_pos = s1.pb_put := get_frame_idle hfr1 (by rw [hpos, hput])
    have hbody' : pb_wait_body hw fuel s = .done s1 := by
      unfold pb_wait_body
      rw [hf]
      simp only [Outcome.andThen, Outcome.done.injEq]
      exact hrest
    refine ⟨?_, ?_, ?_⟩
    · rw [hfr1.1]
      show sf.pushed = _
      rw [hsf]
      show s2.pushed = _
      rw [hpf]
    · intro n
      rw [pb_wait, if_pos hfull, hbody']
      rfl
    · intro k
      refine ⟨pb_refresh_iterate_frame hw k s1, ?_⟩
      intro hall
      constructor
      · intro hroom n
        rw [pb_wait_iterate hw fuel k s1 n hidle hall, pb_wait_of_room _ _ _ _ hroom]
      · intro hstill
        have := pb_wait_iterate hw fuel k s1 0 hidle hall
        rw [Nat.add_zero] at this
        rw [this, pb_wait, if_pos hstill]

/-- C19, witness: the filled push buffer of `ctx_filled` with registers that
read 0; the first iteration pushes the pending span. -/
theorem out_ring_no_flood_witness :
    (pb_wait_body hw_zero 1 ctx_filled).state.pushed
      = ctx_filled.pushed ++ fire_list ctx_filled :=
  ((out_ring_no_flood hw_zero 1 ctx_filled 0xdeadbeef).2.2
    (pb_wait_body hw_zero 1 ctx_filled).state (by decide) rfl).1

/-- C20: in the indirect-buffer descriptor the flags occupy the bit positions
of the length.  For every `base`, `len` and `flags >= 0`,
`__gdev_push_fifo(base, len, flags)` and `__gdev_push_fifo(base, len | flags, 0)`
have the same descriptor word, the same outcome and, the record of the call
arguments apart, the same resulting context: the same two words in `ib_map`. -/
theorem push_fifo_flags_alias_length (hw : Hw) (fuel : Nat) (s : gdev_ctx) (base len : Nat)
    (flags : Int) (hf : 0 ≤ flags) :
    ib_word base len flags = ib_word base (len ||| flags.toNat) 0 ∧
    (__gdev_push_fifo hw fuel s base len flags).returned
      = (__gdev_push_fifo hw fuel s base (len ||| flags.toNat) 0).returned ∧
    (__gdev_push_fifo hw fuel s base len flags).state.ib_map
      = (__gdev_push_fifo hw fuel s base (len ||| flags.toNat) 0).state.ib_map ∧
    { (__gdev_push_fifo hw fuel s base len flags).state with pushed := [] }
      = { (__gdev_push_fifo hw fuel s base (len ||| flags.toNat) 0).state with pushed := [] } := by
  have hw_eq := ib_word_flags_alias base len flags hf
  refine ⟨hw_eq, ?_⟩
  unfold __gdev_push_fifo
  cases ib_wait hw fuel s with
  | done s1 =>
    simp only [Outcome.andThen, Outcome.returned, Outcome.state, true_and]
    exact ⟨ib_write_map_congr s1 base len flags base (len ||| flags.toNat) 0 hw_eq,
      ib_write_congr s1 base len flags base (len ||| flags.toNat) 0 hw_eq⟩
  | spinning s1 =>
    simp only [Outcome.andThen, Outcome.returned, Outcome.state, and_self]

/-- C20, witness: length 8 with flags 2 and length 10 with flags 0 give the
same descriptor word. -/
theorem push_fifo_flags_alias_length_witness :
    ib_word 0x120000000 8 2 = ib_word 0x120000000 (8 ||| (2 : Int).toNat) 0 :=
  (push_fifo_flags_alias_length hw_zero 0 ctx_empty 0x120000000 8 2 (by decide)).1

end Gdev
